import Mathlib

/-!
# md2xk6: extraction of k6 extension modules from a markdown document

A shallow embedding of `extract.go`: the link pattern `reLink` with `isLinkMatching` and
`link2module`, the walker `builder` with its handlers, `build` and `extract`. The two libraries
the program calls, Go `regexp` and goldmark `ast`, are modelled as far as the program uses
them. The theorems below settle the claims of the specification about this code.
-/

namespace Md2xk6

/-- Go `[]byte` and `string`. The pattern only tells `/` and the ASCII characters of its
literals from the rest, so a byte string is read as its sequence of characters. -/
abbrev Bytes := List Char

/-! ## The link pattern (Go `regexp`) -/

/-- Modelled from the spec: the syntax of Go `regexp`, as far as `reLink` uses it: `^`, `$`,
literal text, `[^/]+`, alternation, concatenation, `(...)?` and capture groups (numbered by
their opening parenthesis, with their name, empty for an unnamed group). -/
inductive Regex where
  | bot : Regex
  | eot : Regex
  | lit (text : Bytes) : Regex
  | notSlashPlus : Regex
  | alt (a b : Regex) : Regex
  | seq (a b : Regex) : Regex
  | opt (a : Regex) : Regex
  | group (index : Nat) (name : String) (a : Regex) : Regex

/-- A position of the matcher in its input: the text before the position, the text after it,
and the capture groups closed so far (the latest first). -/
structure MatchState where
  consumed : Bytes
  rest : Bytes
  caps : List (Nat × Bytes)
deriving DecidableEq

/-- Matching literal text: the input without that text in front, if it starts with it. -/
def stripLit : Bytes → Bytes → Option Bytes
  | [], rest => some rest
  | _ :: _, [] => none
  | c :: cs, d :: ds => if c = d then stripLit cs ds else none

/-- The greedy repetition in `[^/]+` after its first character: take one more character that
is not `/` when the rest of the pattern (`k`) then succeeds, and otherwise stop here. -/
def starNotSlash (k : MatchState → Option MatchState) (caps : List (Nat × Bytes)) :
    Bytes → Bytes → Option MatchState
  | consumed, [] => k ⟨consumed, [], caps⟩
  | consumed, c :: cs =>
    if c ≠ '/' then
      match starNotSlash k caps (consumed ++ [c]) cs with
      | some st => some st
      | none => k ⟨consumed, c :: cs, caps⟩
    else k ⟨consumed, c :: cs, caps⟩

/-- Modelled from the spec: the Go `regexp` matcher, as a backtracking search in the
leftmost-first order of preference of Go (the first alternative, the longer repetition and the
present optional group are tried first). `k` is the rest of the pattern. -/
def Regex.run : Regex → MatchState → (MatchState → Option MatchState) → Option MatchState
  | .bot, st, k => if st.consumed = [] then k st else none
  | .eot, st, k => if st.rest = [] then k st else none
  | .lit text, st, k =>
    match stripLit text st.rest with
    | some rest => k ⟨st.consumed ++ text, rest, st.caps⟩
    | none => none
  | .notSlashPlus, st, k =>
    match st.rest with
    | [] => none
    | c :: cs => if c ≠ '/' then starNotSlash k st.caps (st.consumed ++ [c]) cs else none
  | .alt a b, st, k =>
    match a.run st k with
    | some r => some r
    | none => b.run st k
  | .seq a b, st, k => a.run st (fun st1 => b.run st1 k)
  | .opt a, st, k =>
    match a.run st k with
    | some r => some r
    | none => k st
  | .group index _ a, st, k =>
    a.run st (fun st1 =>
      k ⟨st1.consumed, st1.rest, (index, st1.consumed.drop st.consumed.length) :: st1.caps⟩)

/-- One match attempt at the position after `before`; group 0 is the whole match. -/
def Regex.attempt (re : Regex) (before rest : Bytes) : Option MatchState :=
  re.run ⟨before, rest, []⟩
    (fun st => some ⟨st.consumed, st.rest, (0, st.consumed.drop before.length) :: st.caps⟩)

/-- The unanchored search of Go `regexp`: the match at the leftmost position that has one. -/
def Regex.search (re : Regex) : Bytes → Bytes → Option MatchState
  | before, [] => re.attempt before []
  | before, c :: cs =>
    match re.attempt before (c :: cs) with
    | some st => some st
    | none => re.search (before ++ [c]) cs

/-- Modelled from the spec: Go `Regexp.NumSubexp`, the number of capture groups. -/
def Regex.NumSubexp : Regex → Nat
  | .group _ _ a => 1 + a.NumSubexp
  | .alt a b => a.NumSubexp + b.NumSubexp
  | .seq a b => a.NumSubexp + b.NumSubexp
  | .opt a => a.NumSubexp
  | _ => 0

/-- The text of capture group `i`, empty (Go `nil`) when the group took no part in the
match. -/
def lookupCap (caps : List (Nat × Bytes)) (i : Nat) : Bytes :=
  match caps.find? (fun p => p.1 == i) with
  | some p => p.2
  | none => []

/-- Modelled from the spec: Go `Regexp.Match`. -/
def Regex.Match (re : Regex) (b : Bytes) : Bool := (re.search [] b).isSome

/-- Modelled from the spec: Go `Regexp.FindSubmatch`: the empty slice when there is no match,
and otherwise the whole match followed by the text of every capture group. -/
def Regex.FindSubmatch (re : Regex) (b : Bytes) : List Bytes :=
  match re.search [] b with
  | none => []
  | some st => (List.range (re.NumSubexp + 1)).map (lookupCap st.caps)

/-- Modelled from the spec: Go `Regexp.SubexpIndex`, the index of the leftmost group with the
given name (`none` is Go `-1`). -/
def Regex.SubexpIndex : Regex → String → Option Nat
  | .group index name a, n => if name = n then some index else a.SubexpIndex n
  | .alt a b, n => match a.SubexpIndex n with | some i => some i | none => b.SubexpIndex n
  | .seq a b, n => match a.SubexpIndex n with | some i => some i | none => b.SubexpIndex n
  | .opt a, n => a.SubexpIndex n
  | _, _ => none

/-- The pattern
`^https://(?P<host>github\.com|gitlab\.com)/(?P<owner>[^/]+)/(?P<repo>[^/]+)(/releases/tag/(?P<tag>[^/]+))?$`.
-/
def reLink : Regex :=
  .seq .bot (.seq (.lit "https://".toList)
    (.seq (.group 1 "host" (.alt (.lit "github.com".toList) (.lit "gitlab.com".toList)))
    (.seq (.lit "/".toList) (.seq (.group 2 "owner" .notSlashPlus)
    (.seq (.lit "/".toList) (.seq (.group 3 "repo" .notSlashPlus)
    (.seq (.opt (.group 4 "" (.seq (.lit "/releases/tag/".toList) (.group 5 "tag" .notSlashPlus))))
      .eot)))))))

def idxHost : Nat := (reLink.SubexpIndex "host").getD 0
def idxOwner : Nat := (reLink.SubexpIndex "owner").getD 0
def idxRepo : Nat := (reLink.SubexpIndex "repo").getD 0
def idxTag : Nat := (reLink.SubexpIndex "tag").getD 0

def isLinkMatching (url : Bytes) : Bool := reLink.Match url

def link2module (link : Bytes) : Bool × Bytes :=
  let ms := reLink.FindSubmatch link
  if ms.length = 0 then (false, [])
  else
    let path :=
      ms.getD idxHost [] ++ "/".toList ++ ms.getD idxOwner [] ++ "/".toList ++ ms.getD idxRepo []
    let version :=
      if (ms.getD idxTag []).length > 0 then "@".toList ++ ms.getD idxTag [] else []
    (true, path ++ version)

/-! ## Document tree and traversal driver (goldmark `ast`) -/

/-- Modelled from the spec: goldmark `text.Segment`, a span of the source bytes, which the
repository only uses through `Value`. -/
structure Segment where
  Start : Nat
  Stop : Nat
  Padding : Nat
deriving DecidableEq

/-- Modelled from the spec: goldmark `Segment.Value`, the bytes `buffer[Start:Stop]` preceded by
`Padding` spaces. -/
def Segment.Value (t : Segment) (buffer : Bytes) : Bytes :=
  List.replicate t.Padding ' ' ++ (buffer.take t.Stop).drop t.Start

/-- Modelled from the spec: goldmark `ast.Link`, of which the repository reads `Destination`. -/
structure Link where
  Destination : Bytes
deriving DecidableEq

/-- Modelled from the spec: goldmark `ast.AutoLink`, of which the repository calls `URL`. -/
structure AutoLink where
  value : Segment
deriving DecidableEq

/-- Modelled from the spec: goldmark `AutoLink.URL` for an autolink without protocol override
(the default parsers never set one): the literal URL text in the source. -/
def AutoLink.URL (n : AutoLink) (source : Bytes) : Bytes := n.value.Value source

/-- Modelled from the spec: goldmark `ast.Text`, of which the repository reads `Segment`. -/
structure Text where
  Segment : Segment
deriving DecidableEq

/-- Modelled from the spec: the node kinds the walker discriminates, each with the node data
the walker reads; every other goldmark kind is `KindOther`. -/
inductive NodeKind where
  | KindList
  | KindListItem
  | KindLink (link : Link)
  | KindAutoLink (link : AutoLink)
  | KindText (text : Text)
  | KindOther
deriving DecidableEq

/-- Modelled from the spec: goldmark `ast.Node`, a node kind with its ordered children. -/
inductive Node where
  | mk (kind : NodeKind) (children : List Node)

def Node.Kind : Node → NodeKind
  | .mk kind _ => kind

def Node.children : Node → List Node
  | .mk _ children => children

/-- Modelled from the spec: goldmark `ast.WalkStatus`. -/
inductive WalkStatus where
  | WalkStop
  | WalkSkipChildren
  | WalkContinue
deriving DecidableEq

/-- Go `error`: `none` is `nil`. -/
abbrev error := Option String

mutual
/-- Modelled from the spec: goldmark `walkHelper`, the depth-first driver that calls the walker on
entry, visits the children unless told to skip them, then calls the walker on exit, and aborts
on `WalkStop` or on an error. -/
def walkHelper {σ : Type} (walker : σ → Node → Bool → σ × WalkStatus × error) :
    Node → σ → σ × WalkStatus × error
  | .mk kind children, s =>
    match walker s (.mk kind children) true with
    | (s1, status, err) =>
      if err ≠ none ∨ status = .WalkStop then (s1, status, err)
      else
        match (if status ≠ .WalkSkipChildren then walkChildren walker children s1
               else (s1, .WalkContinue, none)) with
        | (s2, st, err2) =>
          if err2 ≠ none ∨ st = .WalkStop then (s2, .WalkStop, err2)
          else
            match walker s2 (.mk kind children) false with
            | (s3, status3, err3) =>
              if err3 ≠ none ∨ status3 = .WalkStop then (s3, .WalkStop, err3)
              else (s3, .WalkContinue, none)
/-- The loop of `walkHelper` over the children of a node. -/
def walkChildren {σ : Type} (walker : σ → Node → Bool → σ × WalkStatus × error) :
    List Node → σ → σ × WalkStatus × error
  | [], s => (s, .WalkContinue, none)
  | c :: cs, s =>
    match walkHelper walker c s with
    | (s1, st, err) =>
      if err ≠ none ∨ st = .WalkStop then (s1, .WalkStop, err)
      else walkChildren walker cs s1
end

/-- Modelled from the spec: goldmark `ast.Walk`. -/
def Walk {σ : Type} (n : Node) (walker : σ → Node → Bool → σ × WalkStatus × error) (s : σ) :
    σ × error :=
  match walkHelper walker n s with
  | (s1, _, err) => (s1, err)

/-! ## The walker (`extract.go`) -/

/-- The walker state `builder`. `numberOfLinks` is a Go `int`; it counts nodes of one document
and cannot overflow. -/
structure builder where
  found : Bool
  insideList : Bool
  hasNonmatchingItems : Bool
  insideItem : Bool
  hasNonmatchingLink : Bool
  numberOfLinks : Nat
  links : List Bytes
  source : Bytes
deriving DecidableEq

def newBuilder (source : Bytes) : builder :=
  { found := false, insideList := false, hasNonmatchingItems := false, insideItem := false,
    hasNonmatchingLink := false, numberOfLinks := 0, links := [], source := source }

/-- The node as a list, or `none` (Go `nil`) when it is of another kind. -/
def asList (node : Node) : Option Unit :=
  match node.Kind with
  | .KindList => some ()
  | _ => none

/-- The node as a list item, or `none` when it is of another kind. -/
def asListItem (node : Node) : Option Unit :=
  match node.Kind with
  | .KindListItem => some ()
  | _ => none

/-- The node as a link, or `none` when it is of another kind. -/
def asLink (node : Node) : Option Link :=
  match node.Kind with
  | .KindLink link => some link
  | _ => none

/-- The node as an autolink, or `none` when it is of another kind. -/
def asAutoLink (node : Node) : Option AutoLink :=
  match node.Kind with
  | .KindAutoLink link => some link
  | _ => none

/-- The node as a text node, or `none` when it is of another kind. -/
def asText (node : Node) : Option Text :=
  match node.Kind with
  | .KindText text => some text
  | _ => none

def builder.handleList (b : builder) (entering : Bool) : builder × WalkStatus × error :=
  if entering then
    ({ b with insideList := true, hasNonmatchingItems := false, links := [] }, .WalkContinue, none)
  else if !b.hasNonmatchingItems then
    ({ b with found := true }, .WalkStop, none)
  else
    ({ b with insideList := false }, .WalkContinue, none)

def builder.handleListItem (b : builder) (entering : Bool) : builder × WalkStatus × error :=
  if entering then
    ({ b with insideItem := true, hasNonmatchingLink := false, numberOfLinks := 0 },
      .WalkContinue, none)
  else
    let b1 := { b with insideItem := false }
    if b1.numberOfLinks ≠ 1 then
      ({ b1 with hasNonmatchingItems := true }, .WalkContinue, none)
    else
      (b1, .WalkContinue, none)

def builder.handleLink (b : builder) (node : Node) (entering : Bool) :
    builder × WalkStatus × error :=
  if !entering then (b, .WalkContinue, none)
  else
    let url : Bytes :=
      match asLink node with
      | some link => link.Destination
      | none =>
        match asAutoLink node with
        | some link => link.URL b.source
        | none => []
    let b1 := { b with numberOfLinks := b.numberOfLinks + 1, links := b.links ++ [url] }
    if !isLinkMatching url then
      ({ b1 with hasNonmatchingLink := true }, .WalkContinue, none)
    else
      (b1, .WalkContinue, none)

def builder.handleText (b : builder) (text : Text) (entering : Bool) :
    builder × WalkStatus × error :=
  if !entering || !b.insideItem || b.numberOfLinks > 0 then (b, .WalkContinue, none)
  else
    let value := text.Segment.Value b.source
    if isLinkMatching value then
      ({ b with links := b.links ++ [value], numberOfLinks := b.numberOfLinks + 1 },
        .WalkContinue, none)
    else
      (b, .WalkContinue, none)

/-- The walker callback: the new state, the walk status and the error (always `nil`). -/
def builder.walk (b : builder) (node : Node) (entering : Bool) : builder × WalkStatus × error :=
  if b.found then (b, .WalkStop, none)
  else if (asList node).isSome then b.handleList entering
  else if (asListItem node).isSome then b.handleListItem entering
  else if ((asLink node).isSome || (asAutoLink node).isSome) && b.insideItem then
    b.handleLink node entering
  else
    match asText node with
    | some text => b.handleText text entering
    | none => (b, .WalkContinue, none)

/-- The result slice of `build`: `none` is the nil slice. -/
def builder.build (b : builder) : Option (List Bytes) × error :=
  if !b.found || b.links.length = 0 then (some [], none)
  else
    (some (b.links.foldl
      (fun mods link =>
        match link2module link with
        | (ok, mod) => if ok then mods ++ [mod] else mods) []), none)

/-- The body of `extract` after parsing: `root` is the document the Markdown parser returns for
`contents`. -/
def extract (root : Node) (contents : Bytes) : Option (List Bytes) × error :=
  match Walk root builder.walk (newBuilder contents) with
  | (b, err) => if err ≠ none then (none, err) else b.build

/-! ## Relational reading of the pattern, used to reason about the matcher -/

/-- The pattern `re` matches from one position to another: the declarative reading of the
syntax, without order of preference. The matcher `Regex.run` is shown to find a match exactly
when one exists. -/
inductive Regex.Matches : Regex → MatchState → MatchState → Prop
  | bot (st : MatchState) : st.consumed = [] → Matches .bot st st
  | eot (st : MatchState) : st.rest = [] → Matches .eot st st
  | lit (text : Bytes) (st : MatchState) (rest : Bytes) :
      st.rest = text ++ rest → Matches (.lit text) st ⟨st.consumed ++ text, rest, st.caps⟩
  | notSlashPlus (st : MatchState) (w rest : Bytes) :
      w ≠ [] → '/' ∉ w → st.rest = w ++ rest →
      Matches .notSlashPlus st ⟨st.consumed ++ w, rest, st.caps⟩
  | altL {a b : Regex} {st st1 : MatchState} : Matches a st st1 → Matches (.alt a b) st st1
  | altR {a b : Regex} {st st1 : MatchState} : Matches b st st1 → Matches (.alt a b) st st1
  | seq {a b : Regex} {st st1 st2 : MatchState} :
      Matches a st st1 → Matches b st1 st2 → Matches (.seq a b) st st2
  | optSome {a : Regex} {st st1 : MatchState} : Matches a st st1 → Matches (.opt a) st st1
  | optNone {a : Regex} (st : MatchState) : Matches (.opt a) st st
  | group {a : Regex} {st st1 : MatchState} (index : Nat) (name : String) :
      Matches a st st1 →
      Matches (.group index name a) st
        ⟨st1.consumed, st1.rest, (index, st1.consumed.drop st.consumed.length) :: st1.caps⟩

/-- A path segment: non-empty and free of `/`. -/
def IsSegment (w : Bytes) : Prop := w ≠ [] ∧ '/' ∉ w

/-- The text `https://host/owner/repo`. -/
def repoURL (host owner repo : Bytes) : Bytes :=
  "https://".toList ++ host ++ "/".toList ++ owner ++ "/".toList ++ repo

/-- The text `https://host/owner/repo/releases/tag/tag`. -/
def tagURL (host owner repo tag : Bytes) : Bytes :=
  repoURL host owner repo ++ "/releases/tag/".toList ++ tag

/-- One of the two recognised hosts. -/
def IsHost (host : Bytes) : Prop := host = "github.com".toList ∨ host = "gitlab.com".toList

/-- The text after `host/owner/repo`: nothing, or `/releases/tag/tag`. -/
def tagTail : Option Bytes → Bytes
  | none => []
  | some tag => "/releases/tag/".toList ++ tag

/-- The capture list the pattern leaves behind for a URL with the given parts. -/
def capsOf (host owner repo : Bytes) : Option Bytes → List (Nat × Bytes)
  | none => [(3, repo), (2, owner), (1, host)]
  | some tag =>
    [(4, "/releases/tag/".toList ++ tag), (5, tag), (3, repo), (2, owner), (1, host)]

/-- The shape accepted by the pattern: `https://host/owner/repo`, optionally followed by
`/releases/tag/tag`. -/
def LinkShape (url host owner repo : Bytes) (t : Option Bytes) : Prop :=
  IsHost host ∧ IsSegment owner ∧ IsSegment repo ∧ (∀ tag, t = some tag → IsSegment tag) ∧
    url = repoURL host owner repo ++ tagTail t

/-- The module identifier for the given parts: `host/owner/repo`, with `@tag` appended when a tag
is present. -/
def modulePath (host owner repo : Bytes) : Option Bytes → Bytes
  | none => host ++ "/".toList ++ owner ++ "/".toList ++ repo
  | some tag => host ++ "/".toList ++ owner ++ "/".toList ++ repo ++ "@".toList ++ tag

/-- A well-formed module identifier: `host/owner/repo`, optionally followed by `@tag`; it starts
with `github.com/` or `gitlab.com/`, holds exactly two `/`, and owner, repo and tag are
non-empty and free of `/`. -/
def WellFormedModule (m : Bytes) : Prop :=
  ("github.com/".toList <+: m ∨ "gitlab.com/".toList <+: m) ∧ m.count '/' = 2 ∧
  ∃ host owner repo : Bytes,
    (host = "github.com".toList ∨ host = "gitlab.com".toList) ∧
    (owner ≠ [] ∧ '/' ∉ owner) ∧ (repo ≠ [] ∧ '/' ∉ repo) ∧
    (m = host ++ "/".toList ++ owner ++ "/".toList ++ repo ∨
      ∃ tag : Bytes, (tag ≠ [] ∧ '/' ∉ tag) ∧
        m = host ++ "/".toList ++ owner ++ "/".toList ++ repo ++ "@".toList ++ tag)

/-! ## Notions used to state the properties of the walk -/

mutual
/-- The walker state after a complete visit of a node: entry, children in order, exit. Once
`found` is set, `builder.walk` leaves the state as it is, which is how the early stop shows. -/
def runNode : Node → builder → builder
  | .mk kind children, b =>
    ((runChildren children (b.walk (.mk kind children) true).1).walk (.mk kind children) false).1
/-- The walker state after visiting a sequence of sibling nodes. -/
def runChildren : List Node → builder → builder
  | [], b => b
  | c :: cs, b => runChildren cs (runNode c b)
end

mutual
/-- All nodes of a subtree, in document order (the node itself first). -/
def Node.subtrees : Node → List Node
  | .mk kind children => .mk kind children :: subtreesOfList children
/-- All nodes of a sequence of sibling subtrees, in document order. -/
def subtreesOfList : List Node → List Node
  | [] => []
  | c :: cs => c.subtrees ++ subtreesOfList cs
end

/-- A document with one position singled out: the chain of ancestors of that position, each
with its kind and with its other children to the left and to the right. -/
inductive Ctx where
  | hole
  | node (kind : NodeKind) (before : List Node) (inner : Ctx) (after : List Node)

/-- The document obtained by putting a node at the singled-out position. -/
def Ctx.fill : Ctx → Node → Node
  | .hole, n => n
  | .node kind before inner after, n => .mk kind (before ++ inner.fill n :: after)

/-- The walker state on arrival at the singled-out position: the ancestors have been
entered and everything to the left has been visited. -/
def Ctx.runBefore : Ctx → builder → builder
  | .hole, b => b
  | .node kind before inner _, b =>
    inner.runBefore (runChildren before (b.walk (.mk kind []) true).1)

/-- The walker state at the end of the walk, from the state in which the singled-out position
is left: everything to the right is visited and the ancestors are exited. -/
def Ctx.runAfter : Ctx → builder → builder
  | .hole, b => b
  | .node kind _ inner after, b =>
    ((runChildren after (inner.runAfter b)).walk (.mk kind []) false).1

/-- No list is entered before the singled-out position: no ancestor is a list and no list
occurs to the left. -/
def Ctx.noListBefore : Ctx → Prop
  | .hole => True
  | .node kind before inner _ =>
    kind ≠ .KindList ∧ (∀ n ∈ before, ∀ t ∈ n.subtrees, t.Kind ≠ .KindList) ∧ inner.noListBefore

/-- Text and other nodes: the kinds that are neither list, list item, link nor autolink. -/
def NodeKind.isPlain : NodeKind → Bool
  | .KindText _ => true
  | .KindOther => true
  | _ => false

/-- A node below `depth` nested wrappers of other kinds (paragraph, text block, emphasis),
each holding nothing else. -/
def wrap : Nat → Node → Node
  | 0, n => n
  | depth + 1, n => .mk .KindOther [wrap depth n]

/-- A list item that consists of exactly one markdown link with destination `dest`, whose
own content is `content`. -/
def linkItem (depth : Nat) (dest : Bytes) (content : List Node) : Node :=
  .mk .KindListItem [wrap depth (.mk (.KindLink ⟨dest⟩) content)]

/-- A list item that consists of exactly one autolink. -/
def autoLinkItem (depth : Nat) (link : AutoLink) : Node :=
  .mk .KindListItem [wrap depth (.mk (.KindAutoLink link) [])]

/-- A list item that consists of exactly one text node. -/
def textItem (depth : Nat) (text : Text) : Node :=
  .mk .KindListItem [wrap depth (.mk (.KindText text) [])]

/-- The number of links the walker has counted for a list item when it leaves the item,
walking the item on its own. -/
def itemLinkCount (contents : Bytes) (item : Node) : Nat :=
  (Walk item builder.walk (newBuilder contents)).1.numberOfLinks

/-- Every list of the subtree has an item whose link count is not one. -/
def AllListsFail (contents : Bytes) (t : Node) : Prop :=
  ∀ L ∈ t.subtrees, L.Kind = .KindList →
    ∃ item ∈ L.children, item.Kind = .KindListItem ∧ itemLinkCount contents item ≠ 1

/-- What visiting a subtree in which every list fails does: `found` stays unset, the item
scope evolves independently of the rest of the state, and `hasNonmatchingItems` is set after a
list and is not cleared by anything else. -/
def FailsQuietly (contents : Bytes) (t : Node) : Prop :=
  ∀ b1 b2 : builder, b1.found = false → b2.found = false →
    b1.source = contents → b2.source = contents →
    ((b1.insideItem = b2.insideItem ∧ b1.numberOfLinks = b2.numberOfLinks) ∨
      t.Kind = .KindListItem) →
    (runNode t b1).found = false ∧
    (runNode t b1).insideItem = (runNode t b2).insideItem ∧
    (runNode t b1).numberOfLinks = (runNode t b2).numberOfLinks ∧
    ((b1.hasNonmatchingItems = true ∨ t.Kind = .KindList) →
      (runNode t b1).hasNonmatchingItems = true)

/-- Two walks have both stopped on a list, with the same candidate links. -/
def Done (b1 b2 : builder) : Prop :=
  b1.found = true ∧ b2.found = true ∧ b1.links = b2.links

/-- Two walks are both still searching and agree on everything that can reach the result:
the source, the list flag, the item flag, and the candidate links as soon as the list flag
is clear. -/
def Core (b1 b2 : builder) : Prop :=
  b1.found = false ∧ b2.found = false ∧ b1.source = b2.source ∧
  b1.hasNonmatchingItems = b2.hasNonmatchingItems ∧ b1.insideItem = b2.insideItem ∧
  (b1.hasNonmatchingItems = false → b1.links = b2.links)

/-- The two walks agree, link count included. -/
def RelS (b1 b2 : builder) : Prop :=
  Done b1 b2 ∨ (Core b1 b2 ∧ b1.numberOfLinks = b2.numberOfLinks)

/-- The two walks agree, except perhaps on the link count while outside of items. -/
def RelW (b1 b2 : builder) : Prop :=
  Done b1 b2 ∨ (Core b1 b2 ∧ (b1.numberOfLinks = b2.numberOfLinks ∨ b1.insideItem = false))

/-- The two walks agree, except perhaps on the link count while outside of items with the
list flag set. -/
def RelR (b1 b2 : builder) : Prop :=
  Done b1 b2 ∨ (Core b1 b2 ∧ (b1.numberOfLinks = b2.numberOfLinks ∨
    (b1.insideItem = false ∧ b1.hasNonmatchingItems = true)))

/-- Modelled from the spec: the text Go `fmt` produces for a format with one `%s` verb and one
string operand: the format with the verb replaced by the operand. -/
def formatString (operand : Bytes) : Bytes → Bytes
  | [] => []
  | [c] => [c]
  | c :: d :: rest =>
    if c = '%' ∧ d = 's' then operand ++ rest else c :: formatString operand (d :: rest)

/-- Modelled from the spec: Go `fmt.Fprintf` with one string operand; `w` is what the writer
holds, and the result is what it holds afterwards. -/
def Fprintf (w : Bytes) (format : Bytes) (operand : Bytes) : Bytes :=
  w ++ formatString operand format

/-- The program `main` of `main.go`, with its environment as parameters: the command line
`Args`, the file system `ReadFile`, and the Markdown parser `parse`. The result is the text
written to standard output, or the error the process dies with (`log.Fatal`). -/
def main (Args : List Bytes) (ReadFile : Bytes → Except String Bytes) (parse : Bytes → Node) :
    Except String Bytes :=
  let filename := if Args.length > 1 then Args.getD 1 [] else "README.md".toList
  match ReadFile filename with
  | .error err => .error err
  | .ok contents =>
    match extract (parse contents) contents with
    | (_, some err) => .error err
    | (modules, none) =>
      .ok ((modules.getD []).foldl (fun stdout m => Fprintf stdout " --with %s".toList m) [])

/-- The walker state after entering the given nodes one after the other. For nodes that are
neither lists nor list items the exit visit changes nothing, so this is the whole walk. -/
def enterAll (ns : List Node) (b : builder) : builder :=
  ns.foldl (fun b n => (b.walk n true).1) b

/-- The source bytes of the text nodes among the given nodes, in order. -/
def textValues (contents : Bytes) (ns : List Node) : List Bytes :=
  ns.filterMap (fun n =>
    match n.Kind with
    | .KindText text => some (text.Segment.Value contents)
    | _ => none)

/-- The walker state in which the exit visit of a node takes place (when the walk gets
there): the node has been entered in state `b` and the driver has gone through its children. -/
def stateBeforeExit (node : Node) (b : builder) : builder :=
  (walkChildren builder.walk node.children (b.walk node true).1).1

/-- The target of a link or autolink node: the link destination, or the literal URL of the
autolink; `none` for a node of another kind. -/
def linkTarget (contents : Bytes) (n : Node) : Option Bytes :=
  match n.Kind with
  | .KindLink link => some link.Destination
  | .KindAutoLink link => some (link.URL contents)
  | _ => none

/-- A list item, without nested list or list item, that contains exactly one link or autolink
node, with the given target, and in which no text that matches the link pattern comes before
that node: in document order the nodes below the item are `pre`, the node, `post`. -/
def OneLinkItem (contents : Bytes) (item : Node) (target : Bytes) : Prop :=
  item.Kind = .KindListItem ∧
  ∃ (pre : List Node) (node : Node) (post : List Node),
    subtreesOfList item.children = pre ++ node :: post ∧
    (∀ t ∈ pre, t.Kind = .KindOther ∨
      ∃ text, t.Kind = .KindText text ∧ isLinkMatching (text.Segment.Value contents) = false) ∧
    linkTarget contents node = some target ∧
    (∀ t ∈ post, t.Kind.isPlain = true)

/-- No list item is entered before the singled-out position: no ancestor is a list item and
no list item occurs to the left. -/
def Ctx.noItemBefore : Ctx → Prop
  | .hole => True
  | .node kind before inner _ =>
    kind ≠ .KindListItem ∧ (∀ n ∈ before, ∀ t ∈ n.subtrees, t.Kind ≠ .KindListItem) ∧
      inner.noItemBefore

/-- The singled-out position lies in a list item, and no other list item is visited between
the entry of that item and the position. -/
def Ctx.inOpenItem : Ctx → Prop
  | .hole => False
  | .node kind before inner _ =>
    (kind = .KindListItem ∧ (∀ n ∈ before, ∀ t ∈ n.subtrees, t.Kind ≠ .KindListItem) ∧
      inner.noItemBefore) ∨ inner.inOpenItem

/-- The singled-out position lies outside of every list item: no ancestor is a list item. -/
def Ctx.outsideItems : Ctx → Prop
  | .hole => True
  | .node kind _ inner _ => kind ≠ .KindListItem ∧ inner.outsideItems

/-- Every list that the walk has left on arrival at the singled-out position has an item
whose link count is not one: no earlier list qualifies. -/
def Ctx.listsBeforeFail (contents : Bytes) : Ctx → Prop
  | .hole => True
  | .node _ before inner _ =>
    (∀ n ∈ before, AllListsFail contents n) ∧ inner.listsBeforeFail contents

/-- A list item that holds no nested list and no nested list item. -/
def FlatItem (item : Node) : Prop :=
  item.Kind = .KindListItem ∧
    ∀ t ∈ subtreesOfList item.children, t.Kind ≠ .KindList ∧ t.Kind ≠ .KindListItem

/-! ## The matcher agrees with the relational reading -/

theorem stripLit_eq_some (text s rest : Bytes) : stripLit text s = some rest ↔ s = text ++ rest := by
  induction text generalizing s with
  | nil => simp [stripLit, eq_comm]
  | cons c cs ih =>
    cases s with
    | nil => simp [stripLit]
    | cons d ds =>
      by_cases h : c = d
      · subst h; simp [stripLit, ih]
      · simp [stripLit, h]; intro h2; exact absurd h2.symm h

theorem starNotSlash_sound (k : MatchState → Option MatchState) (caps : List (Nat × Bytes))
    (s consumed : Bytes) (r : MatchState) (h : starNotSlash k caps consumed s = some r) :
    ∃ w rest, '/' ∉ w ∧ s = w ++ rest ∧ k ⟨consumed ++ w, rest, caps⟩ = some r := by
  induction s generalizing consumed with
  | nil => exact ⟨[], [], by simp, rfl, by simpa [starNotSlash] using h⟩
  | cons c cs ih =>
    rw [starNotSlash] at h
    split at h
    · rename_i hc
      split at h
      · rename_i st hst
        cases h
        obtain ⟨w, rest, hw, hs, hk⟩ := ih _ hst
        refine ⟨c :: w, rest, ?_, by simp [hs], by simpa using hk⟩
        simp only [List.mem_cons, not_or]
        exact ⟨fun e => hc e.symm, hw⟩
      · exact ⟨[], c :: cs, by simp, rfl, by simpa using h⟩
    · exact ⟨[], c :: cs, by simp, rfl, by simpa using h⟩

theorem starNotSlash_complete (k : MatchState → Option MatchState) (caps : List (Nat × Bytes))
    (w rest consumed : Bytes) (hw : '/' ∉ w)
    (hk : (k ⟨consumed ++ w, rest, caps⟩).isSome) :
    (starNotSlash k caps consumed (w ++ rest)).isSome := by
  induction w generalizing consumed with
  | nil =>
    cases rest with
    | nil => simpa [starNotSlash] using hk
    | cons c cs =>
      simp only [List.nil_append, starNotSlash]
      simp only [List.append_nil] at hk
      split
      · split
        · rfl
        · exact hk
      · exact hk
  | cons c cs ih =>
    simp only [List.mem_cons, not_or] at hw
    have hc : c ≠ '/' := fun e => hw.1 e.symm
    have := ih (consumed ++ [c]) hw.2 (by simpa using hk)
    simp only [List.cons_append, starNotSlash, hc, ne_eq, not_false_eq_true, if_true]
    split
    · rfl
    · rename_i hn
      have hn2 : starNotSlash k caps (consumed ++ [c]) (cs ++ rest) = none := hn
      rw [hn2] at this; cases this

theorem Regex.run_sound (re : Regex) (st : MatchState) (k : MatchState → Option MatchState)
    (r : MatchState) (h : re.run st k = some r) :
    ∃ st1, re.Matches st st1 ∧ k st1 = some r := by
  induction re generalizing st k r with
  | bot =>
    simp only [Regex.run] at h
    split at h
    · rename_i hc; exact ⟨st, .bot st hc, h⟩
    · cases h
  | eot =>
    simp only [Regex.run] at h
    split at h
    · rename_i hc; exact ⟨st, .eot st hc, h⟩
    · cases h
  | lit text =>
    simp only [Regex.run] at h
    split at h
    · rename_i rest hs
      exact ⟨_, .lit text st rest ((stripLit_eq_some _ _ _).1 hs), h⟩
    · cases h
  | notSlashPlus =>
    simp only [Regex.run] at h
    split at h
    · cases h
    · rename_i c cs hrest
      split at h
      · rename_i hc
        obtain ⟨w, rest, hw, hs, hk⟩ := starNotSlash_sound _ _ _ _ _ h
        refine ⟨⟨st.consumed ++ (c :: w), rest, st.caps⟩,
          .notSlashPlus st (c :: w) rest (by simp) ?_ (by simp [hrest, hs]), by simpa using hk⟩
        simp only [List.mem_cons, not_or]
        exact ⟨fun e => hc e.symm, hw⟩
      · cases h
  | alt a b iha ihb =>
    simp only [Regex.run] at h
    split at h
    · rename_i r1 h1
      cases h
      obtain ⟨st1, hm, hk⟩ := iha _ _ _ h1
      exact ⟨st1, .altL hm, hk⟩
    · obtain ⟨st1, hm, hk⟩ := ihb _ _ _ h
      exact ⟨st1, .altR hm, hk⟩
  | seq a b iha ihb =>
    simp only [Regex.run] at h
    obtain ⟨st1, hm1, hk1⟩ := iha _ _ _ h
    obtain ⟨st2, hm2, hk2⟩ := ihb _ _ _ hk1
    exact ⟨st2, .seq hm1 hm2, hk2⟩
  | opt a iha =>
    simp only [Regex.run] at h
    split at h
    · rename_i r1 h1
      cases h
      obtain ⟨st1, hm, hk⟩ := iha _ _ _ h1
      exact ⟨st1, .optSome hm, hk⟩
    · exact ⟨st, .optNone st, h⟩
  | group index name a iha =>
    simp only [Regex.run] at h
    obtain ⟨st1, hm, hk⟩ := iha _ _ _ h
    exact ⟨_, .group index name hm, hk⟩

theorem Regex.run_complete (re : Regex) (st st1 : MatchState)
    (k : MatchState → Option MatchState) (hm : re.Matches st st1) (hk : (k st1).isSome) :
    (re.run st k).isSome := by
  induction hm generalizing k with
  | bot st hc => simpa [Regex.run, hc] using hk
  | eot st hc => simpa [Regex.run, hc] using hk
  | lit text st rest hs =>
    have := (stripLit_eq_some text st.rest rest).2 hs
    simpa [Regex.run, this] using hk
  | notSlashPlus st w rest hne hw hs =>
    cases w with
    | nil => exact absurd rfl hne
    | cons c cs =>
      simp only [List.mem_cons, not_or] at hw
      have hc : c ≠ '/' := fun e => hw.1 e.symm
      simp only [Regex.run, hs, List.cons_append, hc, ne_eq, not_false_eq_true, if_true]
      exact starNotSlash_complete _ _ _ _ _ hw.2 (by simpa using hk)
  | altL _ ih =>
    simp only [Regex.run]
    have := ih k hk
    split
    · rfl
    · rename_i hn; rw [hn] at this; cases this
  | altR _ ih =>
    simp only [Regex.run]
    split
    · rfl
    · exact ih k hk
  | seq _ _ ih1 ih2 =>
    simp only [Regex.run]
    exact ih1 _ (ih2 k hk)
  | optSome _ ih =>
    simp only [Regex.run]
    have := ih k hk
    split
    · rfl
    · rename_i hn; rw [hn] at this; cases this
  | optNone st =>
    simp only [Regex.run]
    split
    · rfl
    · exact hk
  | group index name _ ih =>
    simp only [Regex.run]
    exact ih _ hk

theorem matches_bot_iff (st st1 : MatchState) :
    Regex.bot.Matches st st1 ↔ st.consumed = [] ∧ st1 = st := by
  constructor
  · intro h; cases h with | bot _ hc => exact ⟨hc, rfl⟩
  · rintro ⟨hc, rfl⟩; exact .bot _ hc

theorem matches_eot_iff (st st1 : MatchState) :
    Regex.eot.Matches st st1 ↔ st.rest = [] ∧ st1 = st := by
  constructor
  · intro h; cases h with | eot _ hc => exact ⟨hc, rfl⟩
  · rintro ⟨hc, rfl⟩; exact .eot _ hc

theorem matches_lit_iff (text : Bytes) (st st1 : MatchState) :
    (Regex.lit text).Matches st st1 ↔
      ∃ rest, st.rest = text ++ rest ∧ st1 = ⟨st.consumed ++ text, rest, st.caps⟩ := by
  constructor
  · intro h; cases h with | lit _ _ rest hs => exact ⟨rest, hs, rfl⟩
  · rintro ⟨rest, hs, rfl⟩; exact .lit _ _ _ hs

theorem matches_notSlashPlus_iff (st st1 : MatchState) :
    Regex.notSlashPlus.Matches st st1 ↔
      ∃ w rest, IsSegment w ∧ st.rest = w ++ rest ∧ st1 = ⟨st.consumed ++ w, rest, st.caps⟩ := by
  constructor
  · intro h; cases h with | notSlashPlus _ w rest h1 h2 hs => exact ⟨w, rest, ⟨h1, h2⟩, hs, rfl⟩
  · rintro ⟨w, rest, ⟨h1, h2⟩, hs, rfl⟩; exact .notSlashPlus _ _ _ h1 h2 hs

theorem matches_alt_iff (a b : Regex) (st st1 : MatchState) :
    (Regex.alt a b).Matches st st1 ↔ a.Matches st st1 ∨ b.Matches st st1 := by
  constructor
  · intro h
    cases h with
    | altL h => exact .inl h
    | altR h => exact .inr h
  · rintro (h | h)
    · exact .altL h
    · exact .altR h

theorem matches_seq_iff (a b : Regex) (st st2 : MatchState) :
    (Regex.seq a b).Matches st st2 ↔ ∃ st1, a.Matches st st1 ∧ b.Matches st1 st2 := by
  constructor
  · intro h; cases h with | seq h1 h2 => exact ⟨_, h1, h2⟩
  · rintro ⟨_, h1, h2⟩; exact .seq h1 h2

theorem matches_opt_iff (a : Regex) (st st1 : MatchState) :
    (Regex.opt a).Matches st st1 ↔ a.Matches st st1 ∨ st1 = st := by
  constructor
  · intro h
    cases h with
    | optSome h => exact .inl h
    | optNone => exact .inr rfl
  · rintro (h | rfl)
    · exact .optSome h
    · exact .optNone _

theorem matches_group_iff (index : Nat) (name : String) (a : Regex) (st st2 : MatchState) :
    (Regex.group index name a).Matches st st2 ↔
      ∃ st1, a.Matches st st1 ∧
        st2 = ⟨st1.consumed, st1.rest, (index, st1.consumed.drop st.consumed.length) :: st1.caps⟩ := by
  constructor
  · intro h; cases h with | group _ _ h => exact ⟨_, h, rfl⟩
  · rintro ⟨_, h, rfl⟩; exact .group _ _ h

theorem reLink_matches_iff (url : Bytes) (before : Bytes) (st1 : MatchState) :
    reLink.Matches ⟨before, url, []⟩ st1 ↔
    before = [] ∧ ∃ host owner repo, IsHost host ∧ IsSegment owner ∧ IsSegment repo ∧
      ((url = repoURL host owner repo ∧
          st1 = ⟨url, [], [(3, repo), (2, owner), (1, host)]⟩) ∨
        ∃ tag, IsSegment tag ∧ url = tagURL host owner repo tag ∧
          st1 = ⟨url, [], [(4, "/releases/tag/".toList ++ tag), (5, tag), (3, repo),
            (2, owner), (1, host)]⟩) := by
  simp only [reLink, matches_bot_iff, matches_eot_iff, matches_lit_iff, matches_notSlashPlus_iff,
    matches_alt_iff, matches_seq_iff, matches_opt_iff, matches_group_iff]
  constructor
  · rintro ⟨_, ⟨hb, rfl⟩, _, ⟨r1, e1, rfl⟩, _, ⟨_, (⟨r2, e2, rfl⟩ | ⟨r2, e2, rfl⟩), rfl⟩, _,
      ⟨r3, e3, rfl⟩, _, ⟨_, ⟨owner, r4, ho, e4, rfl⟩, rfl⟩, _, ⟨r5, e5, rfl⟩, _,
      ⟨_, ⟨repo, r6, hr, e6, rfl⟩, rfl⟩, _, h, he, rfl⟩
    · dsimp only at hb e1 e2 e3 e4 e5 e6 h he
      subst hb e1 e2 e3 e4 e5 e6
      refine ⟨rfl, "github.com".toList, owner, repo, .inl rfl, ho, hr, ?_⟩
      rcases h with ⟨_, ⟨_, ⟨r7, e7, rfl⟩, _, ⟨tag, r8, ht, e8, rfl⟩, rfl⟩, rfl⟩ | rfl
      · dsimp only at e7 e8 he ⊢
        subst e7 e8 he
        right
        refine ⟨tag, ht, ?_, ?_⟩
        · simp [tagURL, repoURL]
        · simp [tagURL, repoURL]
      · dsimp only at he ⊢
        subst he
        left
        simp [repoURL]
    · dsimp only at hb e1 e2 e3 e4 e5 e6 h he
      subst hb e1 e2 e3 e4 e5 e6
      refine ⟨rfl, "gitlab.com".toList, owner, repo, .inr rfl, ho, hr, ?_⟩
      rcases h with ⟨_, ⟨_, ⟨r7, e7, rfl⟩, _, ⟨tag, r8, ht, e8, rfl⟩, rfl⟩, rfl⟩ | rfl
      · dsimp only at e7 e8 he ⊢
        subst e7 e8 he
        right
        refine ⟨tag, ht, ?_, ?_⟩
        · simp [tagURL, repoURL]
        · simp [tagURL, repoURL]
      · dsimp only at he ⊢
        subst he
        left
        simp [repoURL]
  · rintro ⟨rfl, host, owner, repo, hh, ho, hr, h⟩
    have hhost : ∀ (c r : Bytes) (caps : List (Nat × Bytes)),
        (∃ rest, (⟨c, host ++ r, caps⟩ : MatchState).rest = "github.com".toList ++ rest ∧
          (⟨c ++ host, r, caps⟩ : MatchState) = ⟨c ++ "github.com".toList, rest, caps⟩) ∨
        (∃ rest, (⟨c, host ++ r, caps⟩ : MatchState).rest = "gitlab.com".toList ++ rest ∧
          (⟨c ++ host, r, caps⟩ : MatchState) = ⟨c ++ "gitlab.com".toList, rest, caps⟩) := by
      intro c r caps
      rcases hh with rfl | rfl
      · exact .inl ⟨r, rfl, rfl⟩
      · exact .inr ⟨r, rfl, rfl⟩
    rcases h with ⟨rfl, rfl⟩ | ⟨tag, ht, rfl, rfl⟩
    · refine ⟨_, ⟨rfl, rfl⟩, _,
        ⟨host ++ ("/".toList ++ (owner ++ ("/".toList ++ repo))), by simp [repoURL], rfl⟩, _,
        ⟨_, hhost _ _ _, rfl⟩, _, ⟨_, rfl, rfl⟩, _, ⟨_, ⟨owner, _, ho, rfl, rfl⟩, rfl⟩, _,
        ⟨_, rfl, rfl⟩, _, ⟨_, ⟨repo, [], hr, by simp, rfl⟩, rfl⟩, _, .inr rfl, rfl, ?_⟩
      simp [repoURL]
    · refine ⟨_, ⟨rfl, rfl⟩, _,
        ⟨host ++ ("/".toList ++ (owner ++ ("/".toList ++ (repo ++
          ("/releases/tag/".toList ++ tag))))), by simp [repoURL, tagURL], rfl⟩, _,
        ⟨_, hhost _ _ _, rfl⟩, _, ⟨_, rfl, rfl⟩, _, ⟨_, ⟨owner, _, ho, rfl, rfl⟩, rfl⟩, _,
        ⟨_, rfl, rfl⟩, _, ⟨_, ⟨repo, _, hr, rfl, rfl⟩, rfl⟩, _,
        .inl ⟨_, ⟨_, ⟨_, rfl, rfl⟩, _, ⟨tag, [], ht, by simp, rfl⟩, rfl⟩, rfl⟩, rfl, ?_⟩
      simp [repoURL, tagURL]

theorem takeWhile_segment (a x : Bytes) (ha : '/' ∉ a) (hx : x = [] ∨ ∃ y, x = '/' :: y) :
    (a ++ x).takeWhile (fun c => c != '/') = a ∧ (a ++ x).dropWhile (fun c => c != '/') = x := by
  induction a with
  | nil =>
    rcases hx with rfl | ⟨y, rfl⟩
    · simp
    · simp [List.takeWhile, List.dropWhile]
  | cons c cs ih =>
    simp only [List.mem_cons, not_or] at ha
    have hc : (c != '/') = true := by
      simp only [bne_iff_ne, ne_eq]; exact fun e => ha.1 e.symm
    have := ih ha.2
    simp [List.takeWhile, List.dropWhile, hc, this]

theorem split_unique (a b x y : Bytes) (ha : '/' ∉ a) (hb : '/' ∉ b)
    (hx : x = [] ∨ ∃ z, x = '/' :: z) (hy : y = [] ∨ ∃ z, y = '/' :: z)
    (h : a ++ x = b ++ y) : a = b ∧ x = y := by
  have h1 := takeWhile_segment a x ha hx
  have h2 := takeWhile_segment b y hb hy
  rw [h] at h1
  exact ⟨h1.1.symm.trans h2.1, h1.2.symm.trans h2.2⟩

theorem IsHost.not_mem {host : Bytes} (h : IsHost host) : '/' ∉ host := by
  rcases h with rfl | rfl <;> decide

theorem shape_unique (h1 o1 r1 h2 o2 r2 : Bytes) (t1 t2 : Option Bytes)
    (hh1 : IsHost h1) (hh2 : IsHost h2) (ho1 : IsSegment o1) (ho2 : IsSegment o2)
    (hr1 : IsSegment r1) (hr2 : IsSegment r2)
    (e : repoURL h1 o1 r1 ++ tagTail t1 = repoURL h2 o2 r2 ++ tagTail t2) :
    h1 = h2 ∧ o1 = o2 ∧ r1 = r2 ∧ t1 = t2 := by
  have slash : "/".toList = ['/'] := rfl
  have tailShape : ∀ t : Option Bytes, tagTail t = [] ∨ ∃ z, tagTail t = '/' :: z := by
    intro t
    cases t with
    | none => exact .inl rfl
    | some tag => exact .inr ⟨"releases/tag/".toList ++ tag, rfl⟩
  simp only [repoURL, List.append_assoc, List.append_cancel_left_eq, slash, List.singleton_append]
    at e
  obtain ⟨e1, e⟩ := split_unique _ _ _ _ hh1.not_mem hh2.not_mem (.inr ⟨_, rfl⟩) (.inr ⟨_, rfl⟩) e
  simp only [List.cons.injEq, true_and] at e
  obtain ⟨e2, e⟩ := split_unique _ _ _ _ ho1.2 ho2.2 (.inr ⟨_, rfl⟩) (.inr ⟨_, rfl⟩) e
  simp only [List.cons.injEq, true_and] at e
  obtain ⟨e3, e⟩ := split_unique _ _ _ _ hr1.2 hr2.2 (tailShape _) (tailShape _) e
  refine ⟨e1, e2, e3, ?_⟩
  cases t1 <;> cases t2
  · rfl
  · exact absurd e (by simp [tagTail])
  · exact absurd e (by simp [tagTail])
  · simp only [tagTail, List.append_cancel_left_eq] at e
    rw [e]

theorem reLink_matches_shape (url before : Bytes) (st1 : MatchState) :
    reLink.Matches ⟨before, url, []⟩ st1 ↔
      before = [] ∧ ∃ host owner repo t, LinkShape url host owner repo t ∧
        st1 = ⟨url, [], capsOf host owner repo t⟩ := by
  rw [reLink_matches_iff]
  constructor
  · rintro ⟨hb, host, owner, repo, hh, ho, hr, ⟨e, rfl⟩ | ⟨tag, ht, e, rfl⟩⟩
    · exact ⟨hb, host, owner, repo, none, ⟨hh, ho, hr, by simp, by simpa [tagTail] using e⟩, rfl⟩
    · refine ⟨hb, host, owner, repo, some tag, ⟨hh, ho, hr, ?_, by simpa [tagTail, tagURL] using e⟩,
        rfl⟩
      intro tag1 h1
      cases h1
      exact ht
  · rintro ⟨hb, host, owner, repo, t, ⟨hh, ho, hr, ht, e⟩, rfl⟩
    refine ⟨hb, host, owner, repo, hh, ho, hr, ?_⟩
    cases t with
    | none => exact .inl ⟨by simpa [tagTail] using e, rfl⟩
    | some tag => exact .inr ⟨tag, ht tag rfl, by simpa [tagTail, tagURL] using e, rfl⟩

theorem reLink_attempt_eq_some (url before : Bytes) (r : MatchState)
    (h : reLink.attempt before url = some r) :
    before = [] ∧ ∃ host owner repo t, LinkShape url host owner repo t ∧
      r = ⟨url, [], (0, url) :: capsOf host owner repo t⟩ := by
  obtain ⟨st1, hm, hk⟩ := Regex.run_sound _ _ _ _ h
  obtain ⟨hb, host, owner, repo, t, hs, rfl⟩ := (reLink_matches_shape _ _ _).1 hm
  subst hb
  refine ⟨rfl, host, owner, repo, t, hs, ?_⟩
  simpa using hk.symm

theorem reLink_search_nonempty (url before : Bytes) (hb : before ≠ []) :
    reLink.search before url = none := by
  have hnone : ∀ (b u : Bytes), b ≠ [] → reLink.attempt b u = none := by
    intro b u hb
    cases h : reLink.attempt b u with
    | none => rfl
    | some r => exact absurd (reLink_attempt_eq_some _ _ _ h).1 hb
  induction url generalizing before with
  | nil => simpa [Regex.search] using hnone _ _ hb
  | cons c cs ih =>
    rw [Regex.search, hnone _ _ hb]
    exact ih _ (by simp)

theorem reLink_search_eq_attempt (url : Bytes) :
    reLink.search [] url = reLink.attempt [] url := by
  cases url with
  | nil => rfl
  | cons c cs =>
    rw [Regex.search]
    cases h : reLink.attempt [] (c :: cs) with
    | some r => rfl
    | none => exact reLink_search_nonempty _ _ (by simp)

theorem reLink_search_iff (url : Bytes) (r : MatchState) :
    reLink.search [] url = some r ↔
      ∃ host owner repo t, LinkShape url host owner repo t ∧
        r = ⟨url, [], (0, url) :: capsOf host owner repo t⟩ := by
  rw [reLink_search_eq_attempt]
  constructor
  · intro h; exact (reLink_attempt_eq_some _ _ _ h).2
  · rintro ⟨host, owner, repo, t, hs, rfl⟩
    have hm : reLink.Matches ⟨[], url, []⟩ ⟨url, [], capsOf host owner repo t⟩ :=
      (reLink_matches_shape _ _ _).2 ⟨rfl, host, owner, repo, t, hs, rfl⟩
    have hc := Regex.run_complete reLink _ _
      (fun st => some ⟨st.consumed, st.rest, (0, st.consumed.drop ([] : Bytes).length) :: st.caps⟩)
      hm rfl
    obtain ⟨r1, hr1⟩ := Option.isSome_iff_exists.1 hc
    have hr1a : reLink.attempt [] url = some r1 := hr1
    obtain ⟨-, host1, owner1, repo1, t1, hs1, rfl⟩ := reLink_attempt_eq_some _ _ _ hr1a
    obtain ⟨e1, e2, e3, e4⟩ := shape_unique host owner repo host1 owner1 repo1 t t1
      hs.1 hs1.1 hs.2.1 hs1.2.1 hs.2.2.1 hs1.2.2.1 (hs.2.2.2.2.symm.trans hs1.2.2.2.2)
    subst e1 e2 e3 e4
    exact hr1a

theorem isLinkMatching_iff (url : Bytes) :
    isLinkMatching url = true ↔ ∃ host owner repo t, LinkShape url host owner repo t := by
  unfold isLinkMatching Regex.Match
  rw [Option.isSome_iff_exists]
  constructor
  · rintro ⟨r, hr⟩
    obtain ⟨host, owner, repo, t, hs, -⟩ := (reLink_search_iff _ _).1 hr
    exact ⟨host, owner, repo, t, hs⟩
  · rintro ⟨host, owner, repo, t, hs⟩
    exact ⟨_, (reLink_search_iff _ _).2 ⟨host, owner, repo, t, hs, rfl⟩⟩

theorem link2module_of_shape (url host owner repo : Bytes) (t : Option Bytes)
    (hs : LinkShape url host owner repo t) :
    link2module url = (true, modulePath host owner repo t) := by
  have h := (reLink_search_iff url _).2 ⟨host, owner, repo, t, hs, rfl⟩
  have hn : reLink.NumSubexp = 5 := by decide
  have i1 : idxHost = 1 := by decide
  have i2 : idxOwner = 2 := by decide
  have i3 : idxRepo = 3 := by decide
  have i5 : idxTag = 5 := by decide
  unfold link2module Regex.FindSubmatch
  rw [h, hn, i1, i2, i3, i5]
  cases t with
  | none =>
    simp [List.range, List.range.loop, lookupCap, capsOf, modulePath]
  | some tag =>
    have : tag ≠ [] := (hs.2.2.2.1 tag rfl).1
    simp [List.range, List.range.loop, lookupCap, capsOf, modulePath, this]

theorem link2module_of_not_matching (url : Bytes) (h : isLinkMatching url = false) :
    link2module url = (false, []) := by
  unfold isLinkMatching Regex.Match at h
  have : reLink.search [] url = none := by simpa using h
  simp [link2module, Regex.FindSubmatch, this]

/-- C4 (tag optionality, module path): for a host that is `github.com` or `gitlab.com` and
non-empty slash-free `owner`, `repo` and `tag`, `link2module` maps `https://host/owner/repo` to
`(true, host/owner/repo)` and `https://host/owner/repo/releases/tag/tag` to
`(true, host/owner/repo@tag)`, passing owner and repo through unchanged. -/
theorem link2module_tag_optionality (host owner repo tag : Bytes)
    (hh : host = "github.com".toList ∨ host = "gitlab.com".toList)
    (ho : owner ≠ [] ∧ '/' ∉ owner) (hr : repo ≠ [] ∧ '/' ∉ repo) (ht : tag ≠ [] ∧ '/' ∉ tag) :
    link2module ("https://".toList ++ host ++ "/".toList ++ owner ++ "/".toList ++ repo) =
        (true, host ++ "/".toList ++ owner ++ "/".toList ++ repo) ∧
      link2module ("https://".toList ++ host ++ "/".toList ++ owner ++ "/".toList ++ repo ++
          "/releases/tag/".toList ++ tag) =
        (true, host ++ "/".toList ++ owner ++ "/".toList ++ repo ++ "@".toList ++ tag) := by
  constructor
  · exact link2module_of_shape _ host owner repo none
      ⟨hh, ho, hr, by simp, by simp [repoURL, tagTail]⟩
  · refine link2module_of_shape _ host owner repo (some tag)
      ⟨hh, ho, hr, ?_, by simp [repoURL, tagTail]⟩
    intro tag1 h1
    cases h1
    exact ht

/-- Witness of C4: `https://github.com/o/r` gives `github.com/o/r` and
`https://gitlab.com/o/r/releases/tag/v2.0` gives `gitlab.com/o/r@v2.0`. -/
theorem link2module_tag_optionality_witness :
    link2module "https://github.com/o/r".toList = (true, "github.com/o/r".toList) ∧
      link2module "https://gitlab.com/o/r/releases/tag/v2.0".toList =
        (true, "gitlab.com/o/r@v2.0".toList) :=
  ⟨(link2module_tag_optionality "github.com".toList "o".toList "r".toList "v2.0".toList
      (.inl rfl) ⟨by decide, by decide⟩ ⟨by decide, by decide⟩ ⟨by decide, by decide⟩).1,
   (link2module_tag_optionality "gitlab.com".toList "o".toList "r".toList "v2.0".toList
      (.inr rfl) ⟨by decide, by decide⟩ ⟨by decide, by decide⟩ ⟨by decide, by decide⟩).2⟩

/-- C5 (pattern exactness): `isLinkMatching url` holds exactly when `url` is
`https://host/owner/repo`, optionally followed by `/releases/tag/tag`, with `host` exactly
`github.com` or `gitlab.com` and `owner`, `repo`, `tag` non-empty and free of `/`; and the
listed near-misses (other scheme, other case, subdomain, missing repo, trailing slash, empty
owner) do not match. -/
theorem isLinkMatching_exact :
    (∀ url : Bytes, isLinkMatching url = true ↔
      ∃ host owner repo : Bytes,
        (host = "github.com".toList ∨ host = "gitlab.com".toList) ∧
        (owner ≠ [] ∧ '/' ∉ owner) ∧ (repo ≠ [] ∧ '/' ∉ repo) ∧
        (url = "https://".toList ++ host ++ "/".toList ++ owner ++ "/".toList ++ repo ∨
          ∃ tag : Bytes, (tag ≠ [] ∧ '/' ∉ tag) ∧
            url = "https://".toList ++ host ++ "/".toList ++ owner ++ "/".toList ++ repo ++
              "/releases/tag/".toList ++ tag)) ∧
    isLinkMatching "http://github.com/o/r".toList = false ∧
    isLinkMatching "https://GitHub.com/o/r".toList = false ∧
    isLinkMatching "https://www.github.com/o/r".toList = false ∧
    isLinkMatching "https://github.com/o".toList = false ∧
    isLinkMatching "https://github.com/o/r/".toList = false ∧
    isLinkMatching "https://github.com//r".toList = false := by
  refine ⟨?_, by decide, by decide, by decide, by decide, by decide, by decide⟩
  intro url
  rw [isLinkMatching_iff]
  constructor
  · rintro ⟨host, owner, repo, t, hh, ho, hr, ht, e⟩
    refine ⟨host, owner, repo, hh, ho, hr, ?_⟩
    cases t with
    | none => exact .inl (by simpa [repoURL, tagTail] using e)
    | some tag => exact .inr ⟨tag, ht tag rfl, by simpa [repoURL, tagTail] using e⟩
  · rintro ⟨host, owner, repo, hh, ho, hr, e | ⟨tag, ht, e⟩⟩
    · exact ⟨host, owner, repo, none, hh, ho, hr, by simp, by simpa [repoURL, tagTail] using e⟩
    · refine ⟨host, owner, repo, some tag, hh, ho, hr, ?_, by simpa [repoURL, tagTail] using e⟩
      intro tag1 h1
      cases h1
      exact ht

theorem not_matching_of_not_https (url : Bytes) (h : ¬ "https://".toList <+: url) :
    isLinkMatching url = false := by
  cases hm : isLinkMatching url with
  | false => rfl
  | true =>
    obtain ⟨host, owner, repo, t, -, -, -, -, e⟩ := (isLinkMatching_iff url).1 hm
    exact absurd ⟨host ++ ("/".toList ++ (owner ++ ("/".toList ++ (repo ++ tagTail t)))),
      by rw [e]; simp only [repoURL, List.append_assoc]⟩ h

theorem not_matching_of_port (host rest : Bytes) (hh : '/' ∉ host) :
    isLinkMatching ("https://".toList ++ host ++ ":".toList ++ rest) = false := by
  cases hm : isLinkMatching ("https://".toList ++ host ++ ":".toList ++ rest) with
  | false => rfl
  | true =>
    exfalso
    obtain ⟨h1, owner, repo, t, hh1, -, -, -, e⟩ := (isLinkMatching_iff _).1 hm
    have slash : "/".toList = ['/'] := rfl
    have colon : ":".toList = [':'] := rfl
    simp only [repoURL, List.append_assoc, List.append_cancel_left_eq, slash, colon,
      List.singleton_append] at e
    have key : ∀ (a b x y : Bytes), '/' ∉ a → ':' ∉ b → a ++ ':' :: x = b ++ '/' :: y → False := by
      intro a
      induction a with
      | nil =>
        intro b x y _ hb e
        cases b with
        | nil => simp at e
        | cons c cs =>
          simp only [List.nil_append, List.cons_append, List.cons.injEq] at e
          exact hb (List.mem_cons.2 (.inl e.1))
      | cons c cs ih =>
        intro b x y ha hb e
        cases b with
        | nil =>
          simp only [List.nil_append, List.cons_append, List.cons.injEq] at e
          exact ha (List.mem_cons.2 (.inl e.1.symm))
        | cons d ds =>
          simp only [List.cons_append, List.cons.injEq] at e
          exact ih ds x y (fun h => ha (List.mem_cons_of_mem _ h))
            (fun h => hb (List.mem_cons_of_mem _ h)) e.2
    refine key host h1 _ _ hh ?_ e
    rcases hh1 with rfl | rfl <;> decide

/-- C6, counterexample: a query string or a fragment does not make a URL fail:
`https://github.com/o/r?tab=readme` and `https://github.com/o/r#install` match the pattern and
`link2module` turns them into module identifiers. -/
theorem query_and_fragment_match :
    isLinkMatching "https://github.com/o/r?tab=readme".toList = true ∧
    link2module "https://github.com/o/r?tab=readme".toList =
      (true, "github.com/o/r?tab=readme".toList) ∧
    isLinkMatching "https://github.com/o/r#install".toList = true ∧
    link2module "https://github.com/o/r#install".toList =
      (true, "github.com/o/r#install".toList) := by
  decide

/-- C6, amended: a URL that does not start with `https://`, or whose host is followed by a
port (`https://host:...` with `host` free of `/`), is rejected by `isLinkMatching` and by
`link2module`; a query string or fragment free of `/` is accepted as part of the repo segment
(or of the tag segment when a tag is present). -/
theorem scheme_and_port_rejected :
    (∀ url : Bytes, ¬ "https://".toList <+: url →
      isLinkMatching url = false ∧ link2module url = (false, [])) ∧
    (∀ host rest : Bytes, '/' ∉ host →
      isLinkMatching ("https://".toList ++ host ++ ":".toList ++ rest) = false ∧
      link2module ("https://".toList ++ host ++ ":".toList ++ rest) = (false, [])) ∧
    (∀ (host owner repo tag q : Bytes) (sep : Char),
      (host = "github.com".toList ∨ host = "gitlab.com".toList) →
      (owner ≠ [] ∧ '/' ∉ owner) → (repo ≠ [] ∧ '/' ∉ repo) → (tag ≠ [] ∧ '/' ∉ tag) →
      (sep = '?' ∨ sep = '#') → '/' ∉ q →
      link2module ("https://".toList ++ host ++ "/".toList ++ owner ++ "/".toList ++ repo ++
          sep :: q) =
        (true, host ++ "/".toList ++ owner ++ "/".toList ++ (repo ++ sep :: q)) ∧
      link2module ("https://".toList ++ host ++ "/".toList ++ owner ++ "/".toList ++ repo ++
          "/releases/tag/".toList ++ tag ++ sep :: q) =
        (true, host ++ "/".toList ++ owner ++ "/".toList ++ repo ++ "@".toList ++
          (tag ++ sep :: q))) := by
  refine ⟨?_, ?_, ?_⟩
  · intro url h
    have := not_matching_of_not_https url h
    exact ⟨this, link2module_of_not_matching url this⟩
  · intro host rest hh
    have := not_matching_of_port host rest hh
    exact ⟨this, link2module_of_not_matching _ this⟩
  · intro host owner repo tag q sep hh ho hr ht hsep hq
    have hsep1 : sep ≠ '/' := by rcases hsep with rfl | rfl <;> decide
    have ext : ∀ w : Bytes, (w ≠ [] ∧ '/' ∉ w) → (w ++ sep :: q ≠ [] ∧ '/' ∉ w ++ sep :: q) := by
      intro w hw
      refine ⟨by simp, ?_⟩
      simp only [List.mem_append, List.mem_cons, not_or]
      exact ⟨hw.2, fun e => hsep1 e.symm, hq⟩
    have h1 := link2module_of_shape _ host owner (repo ++ sep :: q) none
      ⟨hh, ho, ext repo hr, by simp, rfl⟩
    have h2 := link2module_of_shape _ host owner repo (some (tag ++ sep :: q))
      ⟨hh, ho, hr, fun t1 e1 => by cases e1; exact ext tag ht, rfl⟩
    simp only [repoURL, tagTail, modulePath, List.append_assoc, List.append_nil] at h1 h2 ⊢
    exact ⟨h1, h2⟩

/-- Witness of the amended C6: `http://github.com/o/r` and `https://github.com:443/o/r` are
rejected, and `https://gitlab.com/o/r?x` and `https://gitlab.com/o/r/releases/tag/v1?x`
are accepted. -/
theorem scheme_and_port_rejected_witness :
    (isLinkMatching "http://github.com/o/r".toList = false ∧
      link2module "http://github.com/o/r".toList = (false, [])) ∧
    (isLinkMatching "https://github.com:443/o/r".toList = false ∧
      link2module "https://github.com:443/o/r".toList = (false, [])) ∧
    (link2module "https://gitlab.com/o/r?x".toList = (true, "gitlab.com/o/r?x".toList) ∧
      link2module "https://gitlab.com/o/r/releases/tag/v1?x".toList =
        (true, "gitlab.com/o/r@v1?x".toList)) :=
  ⟨scheme_and_port_rejected.1 "http://github.com/o/r".toList (by decide),
   scheme_and_port_rejected.2.1 "github.com".toList "443/o/r".toList (by decide),
   scheme_and_port_rejected.2.2 "gitlab.com".toList "o".toList "r".toList "v1".toList
     "x".toList '?' (.inr rfl) ⟨by decide, by decide⟩ ⟨by decide, by decide⟩
     ⟨by decide, by decide⟩ (.inl rfl) (by decide)⟩

theorem link2module_cases (link : Bytes) :
    link2module link = (false, []) ∨
      ∃ host owner repo t, LinkShape link host owner repo t ∧
        link2module link = (true, modulePath host owner repo t) := by
  cases hm : isLinkMatching link with
  | false => exact .inl (link2module_of_not_matching link hm)
  | true =>
    obtain ⟨host, owner, repo, t, hs⟩ := (isLinkMatching_iff link).1 hm
    exact .inr ⟨host, owner, repo, t, hs, link2module_of_shape _ _ _ _ _ hs⟩

theorem modulePath_wellFormed (host owner repo : Bytes) (t : Option Bytes)
    (hh : IsHost host) (ho : IsSegment owner) (hr : IsSegment repo)
    (ht : ∀ tag, t = some tag → IsSegment tag) :
    WellFormedModule (modulePath host owner repo t) := by
  have slash : "/".toList = ['/'] := rfl
  have hcount : ∀ w : Bytes, '/' ∉ w → w.count '/' = 0 := fun w hw => List.count_eq_zero.2 hw
  have hstart : ∀ rest : Bytes, "github.com/".toList <+: host ++ "/".toList ++ rest ∨
      "gitlab.com/".toList <+: host ++ "/".toList ++ rest := by
    intro rest
    rcases hh with rfl | rfl
    · exact .inl ⟨rest, rfl⟩
    · exact .inr ⟨rest, rfl⟩
  cases t with
  | none =>
    refine ⟨?_, ?_, host, owner, repo, hh, ho, hr, .inl rfl⟩
    · have := hstart (owner ++ "/".toList ++ repo)
      simpa only [modulePath, List.append_assoc] using this
    · simp [modulePath, slash, List.count_append, hcount _ hh.not_mem, hcount _ ho.2,
        hcount _ hr.2]
  | some tag =>
    have htag := ht tag rfl
    refine ⟨?_, ?_, host, owner, repo, hh, ho, hr, .inr ⟨tag, htag, rfl⟩⟩
    · have := hstart (owner ++ "/".toList ++ repo ++ "@".toList ++ tag)
      simpa only [modulePath, List.append_assoc] using this
    · have at1 : "@".toList = ['@'] := rfl
      simp [modulePath, slash, at1, List.count_append, hcount _ hh.not_mem, hcount _ ho.2,
        hcount _ hr.2, hcount _ htag.2]

theorem link2module_wellFormed (link m : Bytes) (h : link2module link = (true, m)) :
    WellFormedModule m := by
  rcases link2module_cases link with h1 | ⟨host, owner, repo, t, hs, h1⟩
  · rw [h1] at h; cases h
  · rw [h1] at h
    cases h
    exact modulePath_wellFormed _ _ _ _ hs.1 hs.2.1 hs.2.2.1 hs.2.2.2.1

theorem build_foldl (links : List Bytes) (acc : List Bytes) :
    links.foldl
      (fun mods link =>
        match link2module link with
        | (ok, mod) => if ok then mods ++ [mod] else mods) acc =
    acc ++ links.filterMap
      (fun link => if (link2module link).1 then some (link2module link).2 else none) := by
  induction links generalizing acc with
  | nil => simp
  | cons l ls ih =>
    rw [List.foldl_cons, ih]
    cases h : (link2module l).1 <;> simp [List.filterMap_cons, h]

/-- The module identifiers `build` produces for a list of collected links. -/
theorem build_eq (b : builder) :
    b.build = (some (if b.found then b.links.filterMap
      (fun link => if (link2module link).1 then some (link2module link).2 else none) else []),
      none) := by
  unfold builder.build
  cases hf : b.found
  · simp
  · cases hl : b.links with
    | nil => simp
    | cons l ls =>
      simp only [Bool.not_true, Bool.false_or, List.length_cons, Nat.add_one_ne_zero,
        decide_False, Bool.false_eq_true, if_false, if_true, build_foldl, List.nil_append]

theorem extract_eq (root : Node) (contents : Bytes) :
    extract root contents =
      if (Walk root builder.walk (newBuilder contents)).2 ≠ none then
        (none, (Walk root builder.walk (newBuilder contents)).2)
      else (Walk root builder.walk (newBuilder contents)).1.build := by
  unfold extract
  rfl

/-- C10 (output well-formedness): every string that `link2module` returns with `ok = true`,
and every string in the result of `extract`, is `host/owner/repo` optionally followed by
`@tag`: it starts with `github.com/` or `gitlab.com/`, contains exactly two `/`, and its owner
and repo segments are non-empty. -/
theorem output_wellFormed :
    (∀ link m : Bytes, link2module link = (true, m) → WellFormedModule m) ∧
    (∀ (root : Node) (contents : Bytes) (mods : List Bytes) (err : error),
      extract root contents = (some mods, err) → ∀ m ∈ mods, WellFormedModule m) := by
  refine ⟨link2module_wellFormed, ?_⟩
  intro root contents mods err h m hm
  rw [extract_eq] at h
  split at h
  · cases h
  · rw [build_eq] at h
    simp only [Prod.mk.injEq, Option.some.injEq] at h
    rw [← h.1] at hm
    split at hm
    · obtain ⟨link, -, hl⟩ := List.mem_filterMap.1 hm
      split at hl
      · rename_i hok
        simp only [Option.some.injEq] at hl
        exact link2module_wellFormed link m (by rw [← hl, ← hok])
      · cases hl
    · cases hm

/-- Witness of C10: the identifier `link2module` produces for `https://github.com/o/r`, and
the one `extract` returns for a list whose item links to
`https://gitlab.com/o/r/releases/tag/v2.0`, are well formed. -/
theorem output_wellFormed_witness :
    link2module "https://github.com/o/r".toList = (true, "github.com/o/r".toList) ∧
      WellFormedModule "github.com/o/r".toList ∧
      WellFormedModule "gitlab.com/o/r@v2.0".toList :=
  ⟨by decide,
   output_wellFormed.1 "https://github.com/o/r".toList "github.com/o/r".toList (by decide),
   output_wellFormed.2
     (.mk .KindOther [.mk .KindList [.mk .KindListItem [.mk .KindOther [
       .mk (.KindLink ⟨"https://gitlab.com/o/r/releases/tag/v2.0".toList⟩) []]]]])
     "x".toList ["gitlab.com/o/r@v2.0".toList] none (by decide) "gitlab.com/o/r@v2.0".toList
     (List.mem_singleton.2 rfl)⟩


/-! ## The traversal driver and the walker -/

mutual
theorem Node.induct {P : Node → Prop} (h : ∀ k cs, (∀ c ∈ cs, P c) → P (.mk k cs)) : ∀ n, P n
  | .mk k cs => h k cs (Node.induct_children h cs)
theorem Node.induct_children {P : Node → Prop} (h : ∀ k cs, (∀ c ∈ cs, P c) → P (.mk k cs)) :
    ∀ (cs : List Node), ∀ c ∈ cs, P c
  | [] => by simp
  | c :: cs => by
    intro d hd
    rcases List.mem_cons.1 hd with rfl | hd
    · exact Node.induct h d
    · exact Node.induct_children h cs d hd
end

theorem walk_found (b : builder) (node : Node) (entering : Bool) (h : b.found = true) :
    b.walk node entering = (b, .WalkStop, none) := by
  simp [builder.walk, h]

/-- The walker never reports an error and never skips children; it stops exactly when it has
set `found`. -/
theorem walk_status (b : builder) (node : Node) (entering : Bool) :
    (b.walk node entering).2.2 = none ∧
      (b.walk node entering).2.1 =
        (if (b.walk node entering).1.found then .WalkStop else .WalkContinue) := by
  obtain ⟨k, cs⟩ := node
  cases hf : b.found
  · cases k <;> cases entering <;> cases hi : b.insideItem <;>
      cases hn : b.hasNonmatchingItems <;>
      simp [builder.walk, builder.handleList, builder.handleListItem, builder.handleLink,
        builder.handleText, asList, asListItem, asLink, asAutoLink, asText, Node.Kind, hf, hi,
        hn] <;>
      (repeat' split) <;> simp_all
  · simp [builder.walk, hf]

theorem runChildren_found (cs : List Node) (b : builder) (h : b.found = true) :
    runChildren cs b = b ∧ ∀ n : Node, runNode n b = b := by
  have hn : ∀ n : Node, ∀ b : builder, b.found = true → runNode n b = b := by
    intro n
    induction n using Node.induct with
    | h k cs ih =>
      intro b hb
      have hcs : ∀ (l : List Node), (∀ c ∈ l, ∀ b : builder, b.found = true → runNode c b = b) →
          runChildren l b = b := by
        intro l
        induction l with
        | nil => intro _; rfl
        | cons c l ihl =>
          intro hl
          rw [runChildren, hl c (List.mem_cons_self _ _) b hb]
          exact ihl (fun d hd => hl d (List.mem_cons_of_mem _ hd))
      rw [runNode, walk_found b _ _ hb]
      simp only
      rw [hcs cs ih, walk_found b _ _ hb]
  refine ⟨?_, fun n => hn n b h⟩
  induction cs with
  | nil => rfl
  | cons c cs ih => rw [runChildren, hn c b h]; exact ih


theorem walkChildren_of_nodes (cs : List Node)
    (h : ∀ c ∈ cs, ∀ b : builder, walkHelper builder.walk c b =
      (runNode c b, if (runNode c b).found then .WalkStop else .WalkContinue, none))
    (b : builder) (hb : b.found = false) :
    walkChildren builder.walk cs b =
      (runChildren cs b, if (runChildren cs b).found then .WalkStop else .WalkContinue, none) := by
  induction cs generalizing b with
  | nil => simp [walkChildren, runChildren, hb]
  | cons c cs ih =>
    rw [walkChildren, h c (List.mem_cons_self _ _) b, runChildren]
    cases hf : (runNode c b).found
    · simp only [Bool.false_eq_true, if_false]
      simp
      exact ih (fun d hd => h d (List.mem_cons_of_mem _ hd)) _ hf
    · simp [(runChildren_found cs _ hf).1, hf]

/-- The driver applied to the walker computes `runNode`: no error, and `WalkStop` exactly when
`found` has been set. -/
theorem walkHelper_eq (n : Node) : ∀ b : builder,
    walkHelper builder.walk n b =
      (runNode n b, if (runNode n b).found then .WalkStop else .WalkContinue, none) := by
  induction n using Node.induct with
  | h k cs ih =>
    intro b
    rw [walkHelper, runNode]
    obtain ⟨he, hs⟩ := walk_status b (.mk k cs) true
    generalize hr : b.walk (.mk k cs) true = r at he hs
    obtain ⟨b1, st1, err1⟩ := r
    simp only at he hs
    subst he
    cases hf : b1.found
    · rw [hf] at hs
      simp only [Bool.false_eq_true, if_false] at hs
      subst hs
      simp only [ne_eq, not_true_eq_false, false_or, reduceCtorEq, if_false, not_false_eq_true,
        if_true]
      rw [walkChildren_of_nodes cs ih b1 hf]
      cases hf2 : (runChildren cs b1).found
      · simp only [Bool.false_eq_true, if_false, ne_eq, not_true_eq_false, false_or, reduceCtorEq]
        obtain ⟨he3, hs3⟩ := walk_status (runChildren cs b1) (.mk k cs) false
        generalize hr3 : (runChildren cs b1).walk (.mk k cs) false = r3 at he3 hs3
        obtain ⟨b3, st3, err3⟩ := r3
        simp only at he3 hs3
        subst he3
        cases hf3 : b3.found <;> simp [hf3] at hs3 ⊢ <;> simp [hs3]
      · simp [walk_found _ _ _ hf2, hf2]
    · rw [hf] at hs
      simp only [if_true] at hs
      subst hs
      simp [(runChildren_found cs b1 hf).1, walk_found _ _ _ hf, hf]

theorem Walk_eq (root : Node) (b : builder) :
    Walk root builder.walk b = (runNode root b, none) := by
  simp [Walk, walkHelper_eq]

/-- What `extract` returns: the walk never fails, and `build` maps the collected links of the
selected list to module identifiers. -/
theorem extract_eq_build (root : Node) (contents : Bytes) :
    extract root contents = (runNode root (newBuilder contents)).build := by
  simp [extract, Walk_eq]


/-! ## What one visit does to the walker state -/

theorem walk_children_irrelevant (b : builder) (k : NodeKind) (cs cs1 : List Node) (e : Bool) :
    b.walk (.mk k cs) e = b.walk (.mk k cs1) e := by
  cases k <;> simp [builder.walk, builder.handleLink, asList, asListItem, asLink, asAutoLink,
    asText, Node.Kind]

theorem walk_list_enter (b : builder) (cs : List Node) (hf : b.found = false) :
    (b.walk (.mk .KindList cs) true).1 =
      { b with insideList := true, hasNonmatchingItems := false, links := [] } := by
  simp [builder.walk, builder.handleList, asList, Node.Kind, hf]

theorem walk_list_exit (b : builder) (cs : List Node) (hf : b.found = false) :
    (b.walk (.mk .KindList cs) false).1 =
      if b.hasNonmatchingItems then { b with insideList := false } else { b with found := true } := by
  cases h : b.hasNonmatchingItems <;>
    simp [builder.walk, builder.handleList, asList, Node.Kind, hf, h]

theorem walk_item_enter (b : builder) (cs : List Node) (hf : b.found = false) :
    (b.walk (.mk .KindListItem cs) true).1 =
      { b with insideItem := true, hasNonmatchingLink := false, numberOfLinks := 0 } := by
  simp [builder.walk, builder.handleListItem, asList, asListItem, Node.Kind, hf]

theorem walk_item_exit (b : builder) (cs : List Node) (hf : b.found = false) :
    (b.walk (.mk .KindListItem cs) false).1 =
      if b.numberOfLinks = 1 then { b with insideItem := false }
      else { b with insideItem := false, hasNonmatchingItems := true } := by
  by_cases h : b.numberOfLinks = 1 <;>
    simp [builder.walk, builder.handleListItem, asList, asListItem, Node.Kind, hf, h]

theorem walk_link_enter (b : builder) (link : Link) (cs : List Node) (hf : b.found = false)
    (hi : b.insideItem = true) :
    (b.walk (.mk (.KindLink link) cs) true).1 =
      { b with numberOfLinks := b.numberOfLinks + 1, links := b.links ++ [link.Destination],
               hasNonmatchingLink :=
                 if isLinkMatching link.Destination then b.hasNonmatchingLink else true } := by
  cases h : isLinkMatching link.Destination <;>
    simp [builder.walk, builder.handleLink, asList, asListItem, asLink, Node.Kind, hf, hi, h]

theorem walk_autoLink_enter (b : builder) (link : AutoLink) (cs : List Node)
    (hf : b.found = false) (hi : b.insideItem = true) :
    (b.walk (.mk (.KindAutoLink link) cs) true).1 =
      { b with numberOfLinks := b.numberOfLinks + 1, links := b.links ++ [link.URL b.source],
               hasNonmatchingLink :=
                 if isLinkMatching (link.URL b.source) then b.hasNonmatchingLink else true } := by
  cases h : isLinkMatching (link.URL b.source) <;>
    simp [builder.walk, builder.handleLink, asList, asListItem, asLink, asAutoLink, Node.Kind, hf,
      hi, h]

theorem walk_link_exit (b : builder) (link : Link) (cs : List Node) :
    (b.walk (.mk (.KindLink link) cs) false).1 = b := by
  cases hf : b.found <;> cases hi : b.insideItem <;>
    simp [builder.walk, builder.handleLink, asList, asListItem, asLink, asAutoLink, asText,
      Node.Kind, hf, hi]

theorem walk_autoLink_exit (b : builder) (link : AutoLink) (cs : List Node) :
    (b.walk (.mk (.KindAutoLink link) cs) false).1 = b := by
  cases hf : b.found <;> cases hi : b.insideItem <;>
    simp [builder.walk, builder.handleLink, asList, asListItem, asLink, asAutoLink, asText,
      Node.Kind, hf, hi]

theorem walk_link_outside (b : builder) (link : Link) (cs : List Node) (e : Bool)
    (hi : b.insideItem = false) :
    (b.walk (.mk (.KindLink link) cs) e).1 = b := by
  cases hf : b.found <;>
    simp [builder.walk, asList, asListItem, asLink, asAutoLink, asText, Node.Kind, hf, hi]

theorem walk_autoLink_outside (b : builder) (link : AutoLink) (cs : List Node) (e : Bool)
    (hi : b.insideItem = false) :
    (b.walk (.mk (.KindAutoLink link) cs) e).1 = b := by
  cases hf : b.found <;>
    simp [builder.walk, asList, asListItem, asLink, asAutoLink, asText, Node.Kind, hf, hi]

theorem walk_text_enter (b : builder) (text : Text) (cs : List Node) (hf : b.found = false) :
    (b.walk (.mk (.KindText text) cs) true).1 =
      if b.insideItem = true ∧ b.numberOfLinks = 0 ∧
          isLinkMatching (text.Segment.Value b.source) = true then
        { b with links := b.links ++ [text.Segment.Value b.source],
                 numberOfLinks := b.numberOfLinks + 1 }
      else b := by
  have hpos : b.numberOfLinks ≠ 0 → 0 < b.numberOfLinks := Nat.pos_of_ne_zero
  cases hi : b.insideItem <;> by_cases hn : b.numberOfLinks = 0 <;>
    cases hm : isLinkMatching (text.Segment.Value b.source) <;>
    simp [builder.walk, builder.handleText, asList, asListItem, asLink, asAutoLink, asText,
      Node.Kind, hf, hi, hn, hm, hpos]

theorem walk_text_exit (b : builder) (text : Text) (cs : List Node) :
    (b.walk (.mk (.KindText text) cs) false).1 = b := by
  cases hf : b.found <;>
    simp [builder.walk, builder.handleText, asList, asListItem, asLink, asAutoLink, asText,
      Node.Kind, hf]

theorem walk_other (b : builder) (cs : List Node) (e : Bool) :
    (b.walk (.mk .KindOther cs) e).1 = b := by
  cases hf : b.found <;>
    simp [builder.walk, asList, asListItem, asLink, asAutoLink, asText, Node.Kind, hf]

theorem runChildren_append (xs ys : List Node) (b : builder) :
    runChildren (xs ++ ys) b = runChildren ys (runChildren xs b) := by
  induction xs generalizing b with
  | nil => rfl
  | cons x xs ih => exact ih (runNode x b)


/-! ## Subtrees and contexts -/

theorem mem_subtreesOfList (cs : List Node) (t : Node) :
    t ∈ subtreesOfList cs ↔ ∃ c ∈ cs, t ∈ c.subtrees := by
  induction cs with
  | nil => simp [subtreesOfList]
  | cons c cs ih => simp [subtreesOfList, ih]

theorem mem_subtrees_mk (k : NodeKind) (cs : List Node) (t : Node) :
    t ∈ (Node.mk k cs).subtrees ↔ t = .mk k cs ∨ ∃ c ∈ cs, t ∈ c.subtrees := by
  simp [Node.subtrees, mem_subtreesOfList]

theorem mem_subtrees_self (n : Node) : n ∈ n.subtrees := by
  obtain ⟨k, cs⟩ := n
  simp [Node.subtrees]

theorem runNode_fill (c : Ctx) (n : Node) (b : builder) :
    runNode (c.fill n) b = c.runAfter (runNode n (c.runBefore b)) := by
  induction c generalizing b with
  | hole => rfl
  | node kind before inner after ih =>
    simp only [Ctx.fill, Ctx.runBefore, Ctx.runAfter]
    rw [runNode, runChildren_append, runChildren, ih,
      walk_children_irrelevant b kind _ [] true,
      walk_children_irrelevant _ kind _ [] false]

theorem runAfter_found (c : Ctx) (b : builder) (h : b.found = true) : c.runAfter b = b := by
  induction c with
  | hole => rfl
  | node kind before inner after ih =>
    simp only [Ctx.runAfter, ih, (runChildren_found after b h).1, walk_found _ _ _ h]

/-- A subtree without list nodes leaves `found` as it is. -/
theorem runNode_noList_found (n : Node) :
    ∀ b : builder, (∀ t ∈ n.subtrees, t.Kind ≠ .KindList) → b.found = false →
      (runNode n b).found = false := by
  induction n using Node.induct with
  | h k cs ih =>
    intro b hn hb
    have hk : k ≠ .KindList := hn _ (mem_subtrees_self _)
    have hstep : ∀ (b : builder) (e : Bool), b.found = false →
        (b.walk (.mk k cs) e).1.found = false := by
      intro b e hb
      cases k with
      | KindList => exact absurd rfl hk
      | KindListItem =>
        cases e
        · rw [walk_item_exit b cs hb]; split <;> exact hb
        · rw [walk_item_enter b cs hb]; exact hb
      | KindLink link =>
        cases e
        · rw [walk_link_exit]; exact hb
        · cases hi : b.insideItem
          · rw [walk_link_outside b link cs _ hi]; exact hb
          · rw [walk_link_enter b link cs hb hi]; exact hb
      | KindAutoLink link =>
        cases e
        · rw [walk_autoLink_exit]; exact hb
        · cases hi : b.insideItem
          · rw [walk_autoLink_outside b link cs _ hi]; exact hb
          · rw [walk_autoLink_enter b link cs hb hi]; exact hb
      | KindText text =>
        cases e
        · rw [walk_text_exit]; exact hb
        · rw [walk_text_enter b text cs hb]; split <;> exact hb
      | KindOther => rw [walk_other]; exact hb
    have hcs : ∀ (l : List Node), (∀ c ∈ l, c ∈ cs) → ∀ b : builder, b.found = false →
        (runChildren l b).found = false := by
      intro l
      induction l with
      | nil => intro _ b hb; exact hb
      | cons c l ihl =>
        intro hl b hb
        rw [runChildren]
        refine ihl (fun d hd => hl d (List.mem_cons_of_mem _ hd)) _ ?_
        have hc := hl c (List.mem_cons_self _ _)
        exact ih c hc b (fun t ht => hn t ((mem_subtrees_mk _ _ _).2 (.inr ⟨c, hc, ht⟩))) hb
    rw [runNode]
    exact hstep _ _ (hcs cs (fun _ h => h) _ (hstep _ _ hb))

theorem runChildren_noList_found (cs : List Node) (b : builder)
    (h : ∀ n ∈ cs, ∀ t ∈ n.subtrees, t.Kind ≠ .KindList) (hb : b.found = false) :
    (runChildren cs b).found = false := by
  induction cs generalizing b with
  | nil => exact hb
  | cons c cs ih =>
    rw [runChildren]
    exact ih _ (fun n hn => h n (List.mem_cons_of_mem _ hn))
      (runNode_noList_found c b (h c (List.mem_cons_self _ _)) hb)

theorem runBefore_noList_found (c : Ctx) (b : builder) (hc : c.noListBefore)
    (hb : b.found = false) : (c.runBefore b).found = false := by
  induction c generalizing b with
  | hole => exact hb
  | node kind before inner after ih =>
    obtain ⟨hk, hbefore, hinner⟩ := hc
    rw [Ctx.runBefore]
    refine ih _ hinner (runChildren_noList_found _ _ hbefore ?_)
    have := runNode_noList_found (.mk kind []) b (by simpa [Node.subtrees, subtreesOfList, Node.Kind] using hk) hb
    rw [runNode, runChildren] at this
    cases hf : (b.walk (.mk kind []) true).1.found
    · rfl
    · rw [walk_found _ _ _ hf, hf] at this; cases this


theorem runNode_plain (n : Node) :
    ∀ b : builder, (∀ t ∈ n.subtrees, t.Kind.isPlain = true) → b.found = false →
      (b.insideItem = false ∨ 0 < b.numberOfLinks) → runNode n b = b := by
  induction n using Node.induct with
  | h k cs ih =>
    intro b hn hb hs
    have hk : k.isPlain = true := hn _ (mem_subtrees_self _)
    have hstep : ∀ e : Bool, (b.walk (.mk k cs) e).1 = b := by
      intro e
      cases k with
      | KindText text =>
        cases e
        · rw [walk_text_exit]
        · rw [walk_text_enter b text cs hb, if_neg]
          rintro ⟨h1, h2, -⟩
          rcases hs with h | h
          · rw [h] at h1; cases h1
          · omega
      | KindOther => rw [walk_other]
      | _ => cases hk
    have hcs : ∀ (l : List Node), (∀ c ∈ l, c ∈ cs) → runChildren l b = b := by
      intro l
      induction l with
      | nil => intro _; rfl
      | cons c l ihl =>
        intro hl
        have hc := hl c (List.mem_cons_self _ _)
        rw [runChildren,
          ih c hc b (fun t ht => hn t ((mem_subtrees_mk _ _ _).2 (.inr ⟨c, hc, ht⟩))) hb hs]
        exact ihl (fun d hd => hl d (List.mem_cons_of_mem _ hd))
    rw [runNode, hstep, hcs cs (fun _ h => h), hstep]

theorem runChildren_plain (cs : List Node) (b : builder)
    (h : ∀ n ∈ cs, ∀ t ∈ n.subtrees, t.Kind.isPlain = true) (hb : b.found = false)
    (hs : b.insideItem = false ∨ 0 < b.numberOfLinks) : runChildren cs b = b := by
  induction cs with
  | nil => rfl
  | cons c cs ih =>
    rw [runChildren, runNode_plain c b (h c (List.mem_cons_self _ _)) hb hs]
    exact ih (fun n hn => h n (List.mem_cons_of_mem _ hn))

theorem runNode_wrap (depth : Nat) (n : Node) (b : builder) :
    runNode (wrap depth n) b = runNode n b := by
  induction depth with
  | zero => rfl
  | succ d ih => rw [wrap, runNode, walk_other, runChildren, runChildren, walk_other, ih]

/-- A list item that consists of one link records that link and counts one. -/
theorem runNode_linkItem (depth : Nat) (dest : Bytes) (content : List Node) (b : builder)
    (hplain : ∀ n ∈ content, ∀ t ∈ n.subtrees, t.Kind.isPlain = true) (hb : b.found = false) :
    runNode (linkItem depth dest content) b =
      { b with insideItem := false, numberOfLinks := 1, links := b.links ++ [dest],
               hasNonmatchingLink := !isLinkMatching dest } := by
  rw [linkItem, runNode, walk_item_enter b _ hb, runChildren, runChildren, runNode_wrap, runNode,
    walk_link_enter _ _ _ (by exact hb) (by rfl),
    runChildren_plain content _ hplain (by exact hb) (.inr (by simp)),
    walk_link_exit, walk_item_exit _ _ (by exact hb)]
  cases isLinkMatching dest <;> simp

theorem link2module_fst (link : Bytes) : (link2module link).1 = isLinkMatching link := by
  rcases link2module_cases link with h | ⟨host, owner, repo, t, hs, h⟩
  · rw [h]
    cases hm : isLinkMatching link with
    | false => rfl
    | true =>
      obtain ⟨host, owner, repo, t, hs⟩ := (isLinkMatching_iff link).1 hm
      rw [link2module_of_shape _ _ _ _ _ hs] at h
      cases h
  · rw [h]
    exact ((isLinkMatching_iff link).2 ⟨host, owner, repo, t, hs⟩).symm

theorem runChildren_linkItems (items : List (Nat × Bytes × List Node)) (b : builder)
    (hplain : ∀ i ∈ items, ∀ n ∈ i.2.2, ∀ t ∈ n.subtrees, t.Kind.isPlain = true)
    (hb : b.found = false) :
    (runChildren (items.map (fun i => linkItem i.1 i.2.1 i.2.2)) b).found = false ∧
    (runChildren (items.map (fun i => linkItem i.1 i.2.1 i.2.2)) b).hasNonmatchingItems =
      b.hasNonmatchingItems ∧
    (runChildren (items.map (fun i => linkItem i.1 i.2.1 i.2.2)) b).links =
      b.links ++ items.map (fun i => i.2.1) := by
  induction items generalizing b with
  | nil => simp [runChildren, hb]
  | cons i items ih =>
    rw [List.map_cons, runChildren,
      runNode_linkItem _ _ _ b (hplain i (List.mem_cons_self _ _)) hb]
    obtain ⟨h1, h2, h3⟩ := ih
      { b with insideItem := false, numberOfLinks := 1, links := b.links ++ [i.2.1],
               hasNonmatchingLink := !isLinkMatching i.2.1 }
      (fun j hj => hplain j (List.mem_cons_of_mem _ hj)) hb
    refine ⟨h1, h2, ?_⟩
    rw [h3]
    simp

/-- C1: when the first list of a document (no list is entered before it) consists of items
that each hold exactly one markdown link whose destination matches the link pattern, `extract`
returns, without error, one module identifier per item, in item order, the i-th being what
`link2module` gives for the destination of the i-th item. -/
theorem extract_first_list (contents : Bytes) (c : Ctx) (items : List (Nat × Bytes × List Node))
    (hc : c.noListBefore)
    (hplain : ∀ i ∈ items, ∀ n ∈ i.2.2, ∀ t ∈ n.subtrees, t.Kind.isPlain = true)
    (hmatch : ∀ i ∈ items, isLinkMatching i.2.1 = true) :
    extract (c.fill (.mk .KindList (items.map (fun i => linkItem i.1 i.2.1 i.2.2)))) contents =
      (some (items.map (fun i => (link2module i.2.1).2)), none) := by
  have h0 : (c.runBefore (newBuilder contents)).found = false :=
    runBefore_noList_found c _ hc rfl
  rw [extract_eq_build, runNode_fill, runNode, walk_list_enter _ _ h0]
  obtain ⟨h1, h2, h3⟩ := runChildren_linkItems items
    { c.runBefore (newBuilder contents) with
      insideList := true, hasNonmatchingItems := false, links := [] } hplain h0
  rw [walk_list_exit _ _ h1, h2]
  simp only [Bool.false_eq_true, if_false]
  rw [runAfter_found _ _ rfl, build_eq]
  simp only [if_true, h3, List.nil_append, List.filterMap_map]
  congr 2
  rw [← List.filterMap_eq_map]
  apply List.filterMap_congr
  intro i hi
  simp [link2module_fst, hmatch i hi]

/-- Witness of C1: the document `- [a](https://github.com/foo/bar)` /
`- [b](https://gitlab.com/baz/qux/releases/tag/v1.2.3)` yields `github.com/foo/bar` and
`gitlab.com/baz/qux@v1.2.3`. -/
theorem extract_first_list_witness :
    extract
      (.mk .KindOther [.mk .KindList [
        .mk .KindListItem [.mk .KindOther [
          .mk (.KindLink ⟨"https://github.com/foo/bar".toList⟩) [.mk (.KindText ⟨⟨3, 4, 0⟩⟩) []]]],
        .mk .KindListItem [.mk .KindOther [
          .mk (.KindLink ⟨"https://gitlab.com/baz/qux/releases/tag/v1.2.3".toList⟩)
            [.mk (.KindText ⟨⟨37, 38, 0⟩⟩) []]]]]])
      ("- [a](https://github.com/foo/bar)\n" ++
        "- [b](https://gitlab.com/baz/qux/releases/tag/v1.2.3)\n").toList =
    (some ["github.com/foo/bar".toList, "gitlab.com/baz/qux@v1.2.3".toList], none) :=
  extract_first_list _ (.node .KindOther [] .hole [])
    [(1, "https://github.com/foo/bar".toList, [.mk (.KindText ⟨⟨3, 4, 0⟩⟩) []]),
     (1, "https://gitlab.com/baz/qux/releases/tag/v1.2.3".toList,
       [.mk (.KindText ⟨⟨37, 38, 0⟩⟩) []])]
    ⟨by decide, by simp, trivial⟩ (by decide) (by decide)


theorem walk_source (b : builder) (n : Node) (e : Bool) : (b.walk n e).1.source = b.source := by
  obtain ⟨k, cs⟩ := n
  cases hf : b.found
  · cases k with
    | KindList =>
      cases e
      · rw [walk_list_exit b cs hf]; split <;> rfl
      · rw [walk_list_enter b cs hf]
    | KindListItem =>
      cases e
      · rw [walk_item_exit b cs hf]; split <;> rfl
      · rw [walk_item_enter b cs hf]
    | KindLink link =>
      cases e
      · rw [walk_link_exit]
      · cases hi : b.insideItem
        · rw [walk_link_outside b link cs _ hi]
        · rw [walk_link_enter b link cs hf hi]
    | KindAutoLink link =>
      cases e
      · rw [walk_autoLink_exit]
      · cases hi : b.insideItem
        · rw [walk_autoLink_outside b link cs _ hi]
        · rw [walk_autoLink_enter b link cs hf hi]
    | KindText text =>
      cases e
      · rw [walk_text_exit]
      · rw [walk_text_enter b text cs hf]; split <;> rfl
    | KindOther => rw [walk_other]
  · rw [walk_found _ _ _ hf]

theorem runNode_source (n : Node) : ∀ b : builder, (runNode n b).source = b.source := by
  induction n using Node.induct with
  | h k cs ih =>
    intro b
    have hcs : ∀ (l : List Node), (∀ c ∈ l, c ∈ cs) → ∀ b : builder,
        (runChildren l b).source = b.source := by
      intro l
      induction l with
      | nil => intro _ b; rfl
      | cons c l ihl =>
        intro hl b
        rw [runChildren, ihl (fun d hd => hl d (List.mem_cons_of_mem _ hd)),
          ih c (hl c (List.mem_cons_self _ _))]
    rw [runNode, walk_source, hcs cs (fun _ h => h), walk_source]

theorem runChildren_source (cs : List Node) (b : builder) :
    (runChildren cs b).source = b.source := by
  induction cs generalizing b with
  | nil => rfl
  | cons c cs ih => rw [runChildren, ih, runNode_source]

theorem runBefore_source (c : Ctx) (b : builder) : (c.runBefore b).source = b.source := by
  induction c generalizing b with
  | hole => rfl
  | node kind before inner after ih =>
    rw [Ctx.runBefore, ih, runChildren_source, walk_source]

theorem runNode_autoLinkItem (depth : Nat) (link : AutoLink) (b : builder)
    (hb : b.found = false) :
    runNode (autoLinkItem depth link) b =
      { b with insideItem := false, numberOfLinks := 1, links := b.links ++ [link.URL b.source],
               hasNonmatchingLink := !isLinkMatching (link.URL b.source) } := by
  rw [autoLinkItem, runNode, walk_item_enter b _ hb, runChildren, runChildren, runNode_wrap,
    runNode, walk_autoLink_enter _ _ _ (by exact hb) (by rfl), runChildren,
    walk_autoLink_exit, walk_item_exit _ _ (by exact hb)]
  cases isLinkMatching (link.URL b.source) <;> simp

theorem runNode_textItem (depth : Nat) (text : Text) (b : builder) (hb : b.found = false)
    (hm : isLinkMatching (text.Segment.Value b.source) = true) :
    runNode (textItem depth text) b =
      { b with insideItem := false, numberOfLinks := 1,
               links := b.links ++ [text.Segment.Value b.source],
               hasNonmatchingLink := false } := by
  rw [textItem, runNode, walk_item_enter b _ hb, runChildren, runChildren, runNode_wrap,
    runNode, walk_text_enter _ _ _ (by exact hb), runChildren, walk_text_exit]
  simp only [hm, and_self, if_true]
  rw [walk_item_exit _ _ (by exact hb)]
  simp

/-- C8 (autolink and bare-text equivalence): for a URL `u` that matches the link pattern, an
item that consists of the markdown link with destination `u`, an item that consists of the
autolink whose URL is `u`, and an item that consists of one text node whose source bytes are
`u` have the same effect on every walker state that has not found a list: the item counts one
link and `u` is appended to the candidate links; and in every document `extract` returns the
same result whichever of the three items stands at a given position. -/
theorem autolink_text_equivalence (contents u : Bytes) (c : Ctx) (d1 d2 d3 : Nat)
    (content : List Node) (auto : AutoLink) (text : Text)
    (hu : isLinkMatching u = true)
    (hplain : ∀ n ∈ content, ∀ t ∈ n.subtrees, t.Kind.isPlain = true)
    (hauto : auto.URL contents = u) (htext : text.Segment.Value contents = u) :
    (∀ b : builder, b.found = false → b.source = contents →
      (walkHelper builder.walk (linkItem d1 u content) b).1 =
        { b with insideItem := false, numberOfLinks := 1, links := b.links ++ [u],
                 hasNonmatchingLink := false } ∧
      (walkHelper builder.walk (autoLinkItem d2 auto) b).1 =
        (walkHelper builder.walk (linkItem d1 u content) b).1 ∧
      (walkHelper builder.walk (textItem d3 text) b).1 =
        (walkHelper builder.walk (linkItem d1 u content) b).1) ∧
    extract (c.fill (autoLinkItem d2 auto)) contents =
      extract (c.fill (linkItem d1 u content)) contents ∧
    extract (c.fill (textItem d3 text)) contents =
      extract (c.fill (linkItem d1 u content)) contents := by
  have key : ∀ b : builder, b.source = contents →
      runNode (autoLinkItem d2 auto) b = runNode (linkItem d1 u content) b ∧
      runNode (textItem d3 text) b = runNode (linkItem d1 u content) b := by
    intro b hs
    cases hb : b.found
    · rw [runNode_linkItem _ _ _ b hplain hb, runNode_autoLinkItem _ _ b hb,
        runNode_textItem _ _ b hb (by rw [hs, htext]; exact hu), hs, hauto, htext, hu]
      simp
    · simp only [(runChildren_found [] b hb).2, and_self]
  refine ⟨?_, ?_, ?_⟩
  · intro b hb hs
    simp only [walkHelper_eq]
    refine ⟨?_, (key b hs).1, (key b hs).2⟩
    rw [runNode_linkItem _ _ _ b hplain hb, hu]
    simp
  · rw [extract_eq_build, extract_eq_build, runNode_fill, runNode_fill,
      (key _ (runBefore_source c _)).1]
  · rw [extract_eq_build, extract_eq_build, runNode_fill, runNode_fill,
      (key _ (runBefore_source c _)).2]

/-- Witness of C8: with source `https://github.com/o/r`, a list whose single item is the
link, the autolink or the bare text yields the same result. -/
theorem autolink_text_equivalence_witness :
    extract (Ctx.fill (.node .KindOther [] (.node .KindList [] .hole []) [])
        (autoLinkItem 1 ⟨⟨0, 22, 0⟩⟩)) "https://github.com/o/r".toList =
      extract (Ctx.fill (.node .KindOther [] (.node .KindList [] .hole []) [])
        (linkItem 1 "https://github.com/o/r".toList [])) "https://github.com/o/r".toList ∧
    extract (Ctx.fill (.node .KindOther [] (.node .KindList [] .hole []) [])
        (textItem 1 ⟨⟨0, 22, 0⟩⟩)) "https://github.com/o/r".toList =
      extract (Ctx.fill (.node .KindOther [] (.node .KindList [] .hole []) [])
        (linkItem 1 "https://github.com/o/r".toList [])) "https://github.com/o/r".toList :=
  (autolink_text_equivalence "https://github.com/o/r".toList "https://github.com/o/r".toList
    (.node .KindOther [] (.node .KindList [] .hole []) []) 1 1 1 [] ⟨⟨0, 22, 0⟩⟩ ⟨⟨0, 22, 0⟩⟩
    (by decide) (by simp) (by decide) (by decide)).2


/-- A list whose children are all list items is evaluated independently of the state in which
it is entered. -/
theorem runNode_list_independent (items : List Node) (b1 b2 : builder)
    (hitems : ∀ i ∈ items, i.Kind = .KindListItem)
    (h1 : b1.found = false) (h2 : b2.found = false) (hs : b1.source = b2.source) :
    (runNode (.mk .KindList items) b1).found = (runNode (.mk .KindList items) b2).found ∧
    (runNode (.mk .KindList items) b1).links = (runNode (.mk .KindList items) b2).links := by
  rw [runNode, runNode, walk_list_enter _ _ h1, walk_list_enter _ _ h2]
  cases items with
  | nil =>
    rw [runChildren, runChildren, walk_list_exit _ _ (by exact h1),
      walk_list_exit _ _ (by exact h2)]
    simp
  | cons i rest =>
    obtain ⟨k, cs⟩ := i
    have hk : k = .KindListItem := hitems _ (List.mem_cons_self _ _)
    subst hk
    have e : ({ b1 with insideList := true, hasNonmatchingItems := false, links := [] }
        : builder).walk (.mk .KindListItem cs) true =
        ({ b2 with insideList := true, hasNonmatchingItems := false, links := [] }
        : builder).walk (.mk .KindListItem cs) true := by
      simp [builder.walk, builder.handleListItem, asList, asListItem, Node.Kind, h1, h2, hs]
    rw [runChildren, runChildren, runNode, runNode, e]
    generalize runChildren rest _ = r
    cases hr : r.found
    · rw [walk_children_irrelevant r _ _ [] false]
      exact ⟨rfl, rfl⟩
    · rw [walk_children_irrelevant r _ _ [] false]
      exact ⟨rfl, rfl⟩

theorem build_congr (b1 b2 : builder) (hf : b1.found = b2.found) (hl : b1.links = b2.links) :
    b1.build = b2.build := by
  rw [build_eq, build_eq, hf, hl]

/-- C2 (first match wins): let a list whose children are list items stand anywhere in a
document; if no list has been found on arrival at it, and the list qualifies on its own
(walking it alone sets `found`), then `extract` on the document returns what it returns on that
list alone, and the walk ends in the state in which it leaves that list: whatever follows,
later qualifying lists included, contributes nothing. -/
theorem first_match_wins (contents : Bytes) (c : Ctx) (items : List Node)
    (hitems : ∀ i ∈ items, i.Kind = .KindListItem)
    (hbefore : (c.runBefore (newBuilder contents)).found = false)
    (hqual : (Walk (.mk .KindList items) builder.walk (newBuilder contents)).1.found = true) :
    extract (c.fill (.mk .KindList items)) contents = extract (.mk .KindList items) contents ∧
    walkHelper builder.walk (c.fill (.mk .KindList items)) (newBuilder contents) =
      ((walkHelper builder.walk (.mk .KindList items) (c.runBefore (newBuilder contents))).1,
        .WalkStop, none) := by
  rw [Walk_eq] at hqual
  obtain ⟨hf, hl⟩ := runNode_list_independent items (c.runBefore (newBuilder contents))
    (newBuilder contents) hitems hbefore rfl (runBefore_source c _)
  have hfound : (runNode (.mk .KindList items) (c.runBefore (newBuilder contents))).found = true :=
    hf.trans hqual
  constructor
  · rw [extract_eq_build, extract_eq_build, runNode_fill, runAfter_found _ _ hfound]
    exact build_congr _ _ hf hl
  · rw [walkHelper_eq, walkHelper_eq, runNode_fill, runAfter_found _ _ hfound, hfound]
    rfl

/-- Witness of C2: a list with a link-free item, then a qualifying list, then another
qualifying list; only the first qualifying list is output. -/
theorem first_match_wins_witness :
    extract
      (.mk .KindOther [
        .mk .KindList [.mk .KindListItem [.mk .KindOther [.mk (.KindText ⟨⟨0, 1, 0⟩⟩) []]]],
        .mk .KindList [linkItem 1 "https://github.com/a/b".toList []],
        .mk .KindList [linkItem 1 "https://github.com/c/d".toList []]])
      "x".toList = (some ["github.com/a/b".toList], none) :=
  (first_match_wins "x".toList
    (.node .KindOther
      [.mk .KindList [.mk .KindListItem [.mk .KindOther [.mk (.KindText ⟨⟨0, 1, 0⟩⟩) []]]]]
      .hole [.mk .KindList [linkItem 1 "https://github.com/c/d".toList []]])
    [linkItem 1 "https://github.com/a/b".toList []]
    (by decide) (by decide) (by decide)).1.trans (by decide)


/-- Outside lists, one visit keeps `found` unset and never clears `hasNonmatchingItems`. -/
theorem walk_nonlist (b : builder) (k : NodeKind) (cs : List Node) (e : Bool)
    (hk : k ≠ .KindList) (hf : b.found = false) :
    (b.walk (.mk k cs) e).1.found = false ∧
    (b.hasNonmatchingItems = true → (b.walk (.mk k cs) e).1.hasNonmatchingItems = true) := by
  cases k with
  | KindList => exact absurd rfl hk
  | KindListItem =>
    cases e
    · rw [walk_item_exit b cs hf]; split <;> simp [hf]
    · rw [walk_item_enter b cs hf]; simp [hf]
  | KindLink link =>
    cases e
    · rw [walk_link_exit]; simp [hf]
    · cases hi : b.insideItem
      · rw [walk_link_outside b link cs _ hi]; simp [hf]
      · rw [walk_link_enter b link cs hf hi]; simp [hf]
  | KindAutoLink link =>
    cases e
    · rw [walk_autoLink_exit]; simp [hf]
    · cases hi : b.insideItem
      · rw [walk_autoLink_outside b link cs _ hi]; simp [hf]
      · rw [walk_autoLink_enter b link cs hf hi]; simp [hf]
  | KindText text =>
    cases e
    · rw [walk_text_exit]; simp [hf]
    · rw [walk_text_enter b text cs hf]; split <;> simp [hf]
  | KindOther => rw [walk_other]; simp [hf]

/-- The item scope (`insideItem`, `numberOfLinks`) evolves on its own: one visit maps states
that agree on it (and on the source) to states that agree on it. -/
theorem walk_scope (b1 b2 : builder) (k : NodeKind) (cs : List Node) (e : Bool)
    (h1 : b1.found = false) (h2 : b2.found = false) (hs : b1.source = b2.source)
    (hi : b1.insideItem = b2.insideItem) (hn : b1.numberOfLinks = b2.numberOfLinks) :
    (b1.walk (.mk k cs) e).1.insideItem = (b2.walk (.mk k cs) e).1.insideItem ∧
    (b1.walk (.mk k cs) e).1.numberOfLinks = (b2.walk (.mk k cs) e).1.numberOfLinks := by
  cases k with
  | KindList =>
    cases e
    · rw [walk_list_exit b1 cs h1, walk_list_exit b2 cs h2]
      split <;> split <;> exact ⟨hi, hn⟩
    · rw [walk_list_enter b1 cs h1, walk_list_enter b2 cs h2]; exact ⟨hi, hn⟩
  | KindListItem =>
    cases e
    · rw [walk_item_exit b1 cs h1, walk_item_exit b2 cs h2]
      split <;> split <;> exact ⟨rfl, hn⟩
    · rw [walk_item_enter b1 cs h1, walk_item_enter b2 cs h2]; exact ⟨rfl, rfl⟩
  | KindLink link =>
    cases e
    · rw [walk_link_exit, walk_link_exit]; exact ⟨hi, hn⟩
    · cases hi1 : b1.insideItem
      · rw [walk_link_outside b1 link cs _ hi1, walk_link_outside b2 link cs _ (hi ▸ hi1)]
        exact ⟨hi, hn⟩
      · rw [walk_link_enter b1 link cs h1 hi1, walk_link_enter b2 link cs h2 (hi ▸ hi1)]
        exact ⟨hi, by simp [hn]⟩
  | KindAutoLink link =>
    cases e
    · rw [walk_autoLink_exit, walk_autoLink_exit]; exact ⟨hi, hn⟩
    · cases hi1 : b1.insideItem
      · rw [walk_autoLink_outside b1 link cs _ hi1, walk_autoLink_outside b2 link cs _ (hi ▸ hi1)]
        exact ⟨hi, hn⟩
      · rw [walk_autoLink_enter b1 link cs h1 hi1, walk_autoLink_enter b2 link cs h2 (hi ▸ hi1)]
        exact ⟨hi, by simp [hn]⟩
  | KindText text =>
    cases e
    · rw [walk_text_exit, walk_text_exit]; exact ⟨hi, hn⟩
    · rw [walk_text_enter b1 text cs h1, walk_text_enter b2 text cs h2, ← hs, ← hi, ← hn]
      split
      · exact ⟨rfl, rfl⟩
      · exact ⟨hi, hn⟩
  | KindOther => rw [walk_other, walk_other]; exact ⟨hi, hn⟩

theorem itemLinkCount_eq (contents : Bytes) (item : Node) :
    itemLinkCount contents item = (runNode item (newBuilder contents)).numberOfLinks := by
  rw [itemLinkCount, Walk_eq]

theorem allListsFail_child (contents : Bytes) (k : NodeKind) (cs : List Node) (c : Node)
    (hc : c ∈ cs) (h : AllListsFail contents (.mk k cs)) : AllListsFail contents c :=
  fun L hL => h L ((mem_subtrees_mk _ _ _).2 (.inr ⟨c, hc, hL⟩))

/-- Leaving an item with a link count other than one sets `hasNonmatchingItems`. -/
theorem item_exit_flag (cs : List Node) (b : builder)
    (hf : (runNode (.mk .KindListItem cs) b).found = false)
    (hn : (runNode (.mk .KindListItem cs) b).numberOfLinks ≠ 1) :
    (runNode (.mk .KindListItem cs) b).hasNonmatchingItems = true := by
  rw [runNode] at hf hn ⊢
  generalize runChildren cs (b.walk (.mk .KindListItem cs) true).1 = s at hf hn ⊢
  cases hs : s.found
  · rw [walk_item_exit s cs hs] at hn ⊢
    split
    · rename_i h1
      rw [if_pos h1] at hn
      exact absurd h1 hn
    · rfl
  · rw [walk_found _ _ _ hs] at hf
    rw [hs] at hf
    cases hf

theorem failsQuietly_children (contents : Bytes) (l : List Node)
    (hQ : ∀ c ∈ l, FailsQuietly contents c) (b1 b2 : builder)
    (h1 : b1.found = false) (h2 : b2.found = false)
    (hs1 : b1.source = contents) (hs2 : b2.source = contents)
    (hi : b1.insideItem = b2.insideItem) (hn : b1.numberOfLinks = b2.numberOfLinks) :
    (runChildren l b1).found = false ∧
    (runChildren l b1).insideItem = (runChildren l b2).insideItem ∧
    (runChildren l b1).numberOfLinks = (runChildren l b2).numberOfLinks ∧
    ((b1.hasNonmatchingItems = true ∨
        ∃ item ∈ l, item.Kind = .KindListItem ∧ itemLinkCount contents item ≠ 1) →
      (runChildren l b1).hasNonmatchingItems = true) := by
  induction l generalizing b1 b2 with
  | nil =>
    refine ⟨h1, hi, hn, ?_⟩
    rintro (h | ⟨item, hm, -⟩)
    · exact h
    · cases hm
  | cons c l ih =>
    have hc := hQ c (List.mem_cons_self _ _)
    obtain ⟨f1, i1, n1, g1⟩ := hc b1 b2 h1 h2 hs1 hs2 (.inl ⟨hi, hn⟩)
    obtain ⟨f2, -, -, -⟩ := hc b2 b1 h2 h1 hs2 hs1 (.inl ⟨hi.symm, hn.symm⟩)
    obtain ⟨f3, i3, n3, g3⟩ := ih (fun d hd => hQ d (List.mem_cons_of_mem _ hd))
      (runNode c b1) (runNode c b2) f1 f2 ((runNode_source c b1).trans hs1)
      ((runNode_source c b2).trans hs2) i1 n1
    rw [runChildren, runChildren]
    refine ⟨f3, i3, n3, ?_⟩
    rintro (h | ⟨item, hm, hk, hcount⟩)
    · exact g3 (.inl (g1 (.inl h)))
    · rcases List.mem_cons.1 hm with rfl | hm
      · refine g3 (.inl ?_)
        obtain ⟨k, cs⟩ := item
        have hk1 : k = .KindListItem := hk
        subst hk1
        refine item_exit_flag cs b1 f1 ?_
        obtain ⟨-, -, n4, -⟩ := hc b1 (newBuilder contents) h1 rfl hs1 rfl (.inr rfl)
        rw [n4, ← itemLinkCount_eq]
        exact hcount
      · exact g3 (.inr ⟨item, hm, hk, hcount⟩)

theorem failsQuietly_of_allListsFail (contents : Bytes) (t : Node) :
    AllListsFail contents t → FailsQuietly contents t := by
  induction t using Node.induct with
  | h k cs ih =>
    intro hfail b1 b2 h1 h2 hs1 hs2 hscope
    have hQ : ∀ c ∈ cs, FailsQuietly contents c :=
      fun c hc => ih c hc (allListsFail_child contents k cs c hc hfail)
    rw [runNode, runNode]
    by_cases hk : k = .KindList
    · subst hk
      obtain ⟨hi, hn⟩ : b1.insideItem = b2.insideItem ∧ b1.numberOfLinks = b2.numberOfLinks := by
        rcases hscope with h | h
        · exact h
        · cases h
      obtain ⟨item, hm, hkind, hcount⟩ := hfail _ (mem_subtrees_self _) rfl
      obtain ⟨f3, i3, n3, g3⟩ := failsQuietly_children contents cs hQ
        (b1.walk (.mk .KindList cs) true).1 (b2.walk (.mk .KindList cs) true).1
        (by rw [walk_list_enter b1 cs h1]; exact h1) (by rw [walk_list_enter b2 cs h2]; exact h2)
        ((walk_source _ _ _).trans hs1) ((walk_source _ _ _).trans hs2)
        (walk_scope b1 b2 _ cs true h1 h2 (hs1.trans hs2.symm) hi hn).1
        (walk_scope b1 b2 _ cs true h1 h2 (hs1.trans hs2.symm) hi hn).2
      obtain ⟨f4, -, -, -⟩ := failsQuietly_children contents cs hQ
        (b2.walk (.mk .KindList cs) true).1 (b1.walk (.mk .KindList cs) true).1
        (by rw [walk_list_enter b2 cs h2]; exact h2) (by rw [walk_list_enter b1 cs h1]; exact h1)
        ((walk_source _ _ _).trans hs2) ((walk_source _ _ _).trans hs1)
        (walk_scope b2 b1 _ cs true h2 h1 (hs2.trans hs1.symm) hi.symm hn.symm).1
        (walk_scope b2 b1 _ cs true h2 h1 (hs2.trans hs1.symm) hi.symm hn.symm).2
      have g := g3 (.inr ⟨item, hm, hkind, hcount⟩)
      obtain ⟨i5, n5⟩ := walk_scope _ _ .KindList cs false f3 f4
        ((runChildren_source _ _).trans (((walk_source _ _ _).trans hs1).trans
          (((runChildren_source _ _).trans ((walk_source _ _ _).trans hs2)).symm))) i3 n3
      refine ⟨?_, i5, n5, fun _ => ?_⟩
      · rw [walk_list_exit _ cs f3, if_pos g]; exact f3
      · rw [walk_list_exit _ cs f3, if_pos g]; exact g
    · obtain ⟨e1, m1⟩ := walk_nonlist b1 k cs true hk h1
      obtain ⟨e2, -⟩ := walk_nonlist b2 k cs true hk h2
      have hscope1 : (b1.walk (.mk k cs) true).1.insideItem =
            (b2.walk (.mk k cs) true).1.insideItem ∧
          (b1.walk (.mk k cs) true).1.numberOfLinks =
            (b2.walk (.mk k cs) true).1.numberOfLinks := by
        rcases hscope with h | h
        · exact walk_scope b1 b2 k cs true h1 h2 (hs1.trans hs2.symm) h.1 h.2
        · have hk2 : k = .KindListItem := h
          subst hk2
          rw [walk_item_enter b1 cs h1, walk_item_enter b2 cs h2]
          exact ⟨rfl, rfl⟩
      obtain ⟨f3, i3, n3, g3⟩ := failsQuietly_children contents cs hQ _ _ e1 e2
        ((walk_source _ _ _).trans hs1) ((walk_source _ _ _).trans hs2) hscope1.1 hscope1.2
      obtain ⟨f4, -, -, -⟩ := failsQuietly_children contents cs hQ _ _ e2 e1
        ((walk_source _ _ _).trans hs2) ((walk_source _ _ _).trans hs1) hscope1.1.symm
        hscope1.2.symm
      obtain ⟨e5, m5⟩ := walk_nonlist _ k cs false hk f3
      obtain ⟨i5, n5⟩ := walk_scope _ _ k cs false f3 f4
        ((runChildren_source _ _).trans (((walk_source _ _ _).trans hs1).trans
          (((runChildren_source _ _).trans ((walk_source _ _ _).trans hs2)).symm))) i3 n3
      refine ⟨e5, i5, n5, ?_⟩
      rintro (h | h)
      · exact m5 (g3 (.inl (m1 h)))
      · exact absurd h hk

/-- C7 (no qualifying list): when every list of a document has an item whose link count is
not exactly one (in particular when the document has no list), `extract` succeeds with the
empty, non-nil sequence; and `build` returns the empty sequence for every state in which
`found` is unset, whatever candidate links that state holds. -/
theorem no_qualifying_list (root : Node) (contents : Bytes)
    (h : ∀ L ∈ root.subtrees, L.Kind = .KindList →
      ∃ item ∈ L.children, item.Kind = .KindListItem ∧ itemLinkCount contents item ≠ 1) :
    extract root contents = (some [], none) ∧
    (∀ b : builder, b.found = false → b.build = (some [], none)) := by
  have hb : ∀ b : builder, b.found = false → b.build = (some [], none) := by
    intro b hf
    rw [build_eq, hf]
    rfl
  refine ⟨?_, hb⟩
  rw [extract_eq_build]
  exact hb _ (failsQuietly_of_allListsFail contents root h (newBuilder contents)
    (newBuilder contents) rfl rfl rfl rfl (.inl ⟨rfl, rfl⟩)).1

/-- Witness of C7: a document without list, and the document
`- [a](https://github.com/foo/bar) [c](https://github.com/foo/baz)` /
`- [b](https://gitlab.com/baz/qux)`, give the empty sequence. -/
theorem no_qualifying_list_witness :
    extract (.mk .KindOther [.mk .KindOther [.mk (.KindText ⟨⟨0, 1, 0⟩⟩) []]]) "x".toList =
      (some [], none) ∧
    extract
      (.mk .KindOther [.mk .KindList [
        .mk .KindListItem [.mk .KindOther [
          .mk (.KindLink ⟨"https://github.com/foo/bar".toList⟩) [.mk (.KindText ⟨⟨0, 1, 0⟩⟩) []],
          .mk (.KindText ⟨⟨0, 1, 0⟩⟩) [],
          .mk (.KindLink ⟨"https://github.com/foo/baz".toList⟩) [.mk (.KindText ⟨⟨0, 1, 0⟩⟩) []]]],
        linkItem 1 "https://gitlab.com/baz/qux".toList [.mk (.KindText ⟨⟨0, 1, 0⟩⟩) []]]])
      "x".toList = (some [], none) :=
  ⟨(no_qualifying_list _ "x".toList (by decide)).1,
   (no_qualifying_list _ "x".toList (by decide)).1⟩

theorem done_step {b1 b2 : builder} (h : Done b1 b2) (n : Node) (e : Bool) :
    Done (b1.walk n e).1 (b2.walk n e).1 := by
  rw [walk_found _ _ _ h.1, walk_found _ _ _ h.2.1]
  exact h

theorem relS_toW {b1 b2 : builder} (h : RelS b1 b2) : RelW b1 b2 :=
  h.imp id (fun h => ⟨h.1, .inl h.2⟩)

theorem relS_toR {b1 b2 : builder} (h : RelS b1 b2) : RelR b1 b2 :=
  h.imp id (fun h => ⟨h.1, .inl h.2⟩)

theorem relR_toW {b1 b2 : builder} (h : RelR b1 b2) : RelW b1 b2 :=
  h.imp id (fun h => ⟨h.1, h.2.imp id (fun h => h.1)⟩)

theorem relS_step {b1 b2 : builder} (h : RelS b1 b2) (n : Node) (e : Bool) :
    RelS (b1.walk n e).1 (b2.walk n e).1 := by
  rcases h with h | ⟨⟨h1, h2, hs, hg, hi, hl⟩, hn⟩
  · exact .inl (done_step h n e)
  · obtain ⟨k, cs⟩ := n
    cases k with
    | KindList =>
      cases e
      · rw [walk_list_exit b1 cs h1, walk_list_exit b2 cs h2]
        by_cases hf : b1.hasNonmatchingItems = true
        · rw [if_pos hf, if_pos (hg ▸ hf)]
          exact .inr ⟨⟨h1, h2, hs, hg, hi, hl⟩, hn⟩
        · rw [if_neg hf, if_neg (hg ▸ hf)]
          exact .inl ⟨rfl, rfl, hl (by simpa using hf)⟩
      · rw [walk_list_enter b1 cs h1, walk_list_enter b2 cs h2]
        exact .inr ⟨⟨h1, h2, hs, rfl, hi, fun _ => rfl⟩, hn⟩
    | KindListItem =>
      cases e
      · rw [walk_item_exit b1 cs h1, walk_item_exit b2 cs h2]
        by_cases hc : b1.numberOfLinks = 1
        · rw [if_pos hc, if_pos (hn ▸ hc)]
          exact .inr ⟨⟨h1, h2, hs, hg, rfl, hl⟩, hn⟩
        · rw [if_neg hc, if_neg (hn ▸ hc)]
          exact .inr ⟨⟨h1, h2, hs, rfl, rfl, fun h => by cases h⟩, hn⟩
      · rw [walk_item_enter b1 cs h1, walk_item_enter b2 cs h2]
        exact .inr ⟨⟨h1, h2, hs, hg, rfl, hl⟩, rfl⟩
    | KindLink link =>
      cases e
      · rw [walk_link_exit, walk_link_exit]
        exact .inr ⟨⟨h1, h2, hs, hg, hi, hl⟩, hn⟩
      · cases hi1 : b1.insideItem
        · rw [walk_link_outside b1 link cs _ hi1, walk_link_outside b2 link cs _ (hi ▸ hi1)]
          exact .inr ⟨⟨h1, h2, hs, hg, hi, hl⟩, hn⟩
        · rw [walk_link_enter b1 link cs h1 hi1, walk_link_enter b2 link cs h2 (hi ▸ hi1)]
          exact .inr ⟨⟨h1, h2, hs, hg, hi, fun h => by simp [hl h]⟩, by simp [hn]⟩
    | KindAutoLink link =>
      cases e
      · rw [walk_autoLink_exit, walk_autoLink_exit]
        exact .inr ⟨⟨h1, h2, hs, hg, hi, hl⟩, hn⟩
      · cases hi1 : b1.insideItem
        · rw [walk_autoLink_outside b1 link cs _ hi1,
            walk_autoLink_outside b2 link cs _ (hi ▸ hi1)]
          exact .inr ⟨⟨h1, h2, hs, hg, hi, hl⟩, hn⟩
        · rw [walk_autoLink_enter b1 link cs h1 hi1,
            walk_autoLink_enter b2 link cs h2 (hi ▸ hi1)]
          exact .inr ⟨⟨h1, h2, hs, hg, hi, fun h => by simp [hl h, hs]⟩, by simp [hn]⟩
    | KindText text =>
      cases e
      · rw [walk_text_exit, walk_text_exit]
        exact .inr ⟨⟨h1, h2, hs, hg, hi, hl⟩, hn⟩
      · rw [walk_text_enter b1 text cs h1, walk_text_enter b2 text cs h2]
        by_cases hc : b1.insideItem = true ∧ b1.numberOfLinks = 0 ∧
            isLinkMatching (text.Segment.Value b1.source) = true
        · rw [if_pos hc, if_pos (by rw [← hi, ← hn, ← hs]; exact hc)]
          exact .inr ⟨⟨h1, h2, hs, hg, hi, fun h => by simp [hl h, hs]⟩, by simp [hn]⟩
        · rw [if_neg hc, if_neg (by rw [← hi, ← hn, ← hs]; exact hc)]
          exact .inr ⟨⟨h1, h2, hs, hg, hi, hl⟩, hn⟩
    | KindOther =>
      rw [walk_other, walk_other]
      exact .inr ⟨⟨h1, h2, hs, hg, hi, hl⟩, hn⟩

theorem relW_step {b1 b2 : builder} (h : RelW b1 b2) (k : NodeKind) (cs : List Node) (e : Bool)
    (hke : k ≠ .KindListItem ∨ e = true) :
    RelW (b1.walk (.mk k cs) e).1 (b2.walk (.mk k cs) e).1 := by
  rcases h with h | ⟨hc, hn | hi0⟩
  · exact .inl (done_step h _ e)
  · exact relS_toW (relS_step (.inr ⟨hc, hn⟩) _ e)
  · obtain ⟨h1, h2, hs, hg, hi, hl⟩ := hc
    have hi2 : b2.insideItem = false := hi ▸ hi0
    cases k with
    | KindList =>
      cases e
      · rw [walk_list_exit b1 cs h1, walk_list_exit b2 cs h2]
        by_cases hf : b1.hasNonmatchingItems = true
        · rw [if_pos hf, if_pos (hg ▸ hf)]
          exact .inr ⟨⟨h1, h2, hs, hg, hi, hl⟩, .inr hi0⟩
        · rw [if_neg hf, if_neg (hg ▸ hf)]
          exact .inl ⟨rfl, rfl, hl (by simpa using hf)⟩
      · rw [walk_list_enter b1 cs h1, walk_list_enter b2 cs h2]
        exact .inr ⟨⟨h1, h2, hs, rfl, hi, fun _ => rfl⟩, .inr hi0⟩
    | KindListItem =>
      rcases hke with hke | hke
      · exact absurd rfl hke
      · subst hke
        rw [walk_item_enter b1 cs h1, walk_item_enter b2 cs h2]
        exact .inr ⟨⟨h1, h2, hs, hg, rfl, hl⟩, .inl rfl⟩
    | KindLink link =>
      rw [walk_link_outside b1 link cs _ hi0, walk_link_outside b2 link cs _ hi2]
      exact .inr ⟨⟨h1, h2, hs, hg, hi, hl⟩, .inr hi0⟩
    | KindAutoLink link =>
      rw [walk_autoLink_outside b1 link cs _ hi0, walk_autoLink_outside b2 link cs _ hi2]
      exact .inr ⟨⟨h1, h2, hs, hg, hi, hl⟩, .inr hi0⟩
    | KindText text =>
      cases e
      · rw [walk_text_exit, walk_text_exit]
        exact .inr ⟨⟨h1, h2, hs, hg, hi, hl⟩, .inr hi0⟩
      · rw [walk_text_enter b1 text cs h1, walk_text_enter b2 text cs h2,
          if_neg (by rw [hi0]; simp), if_neg (by rw [hi2]; simp)]
        exact .inr ⟨⟨h1, h2, hs, hg, hi, hl⟩, .inr hi0⟩
    | KindOther =>
      rw [walk_other, walk_other]
      exact .inr ⟨⟨h1, h2, hs, hg, hi, hl⟩, .inr hi0⟩

theorem relW_enterItem {b1 b2 : builder} (h : RelW b1 b2) (cs : List Node) :
    RelS (b1.walk (.mk .KindListItem cs) true).1 (b2.walk (.mk .KindListItem cs) true).1 := by
  rcases h with h | ⟨⟨h1, h2, hs, hg, hi, hl⟩, -⟩
  · exact .inl (done_step h _ _)
  · rw [walk_item_enter b1 cs h1, walk_item_enter b2 cs h2]
    exact .inr ⟨⟨h1, h2, hs, hg, rfl, hl⟩, rfl⟩

theorem relW_exitList {b1 b2 : builder} (h : RelW b1 b2) (cs : List Node) :
    RelR (b1.walk (.mk .KindList cs) false).1 (b2.walk (.mk .KindList cs) false).1 := by
  rcases h with h | ⟨⟨h1, h2, hs, hg, hi, hl⟩, hn⟩
  · exact .inl (done_step h _ _)
  · rw [walk_list_exit b1 cs h1, walk_list_exit b2 cs h2]
    by_cases hf : b1.hasNonmatchingItems = true
    · rw [if_pos hf, if_pos (hg ▸ hf)]
      exact .inr ⟨⟨h1, h2, hs, hg, hi, hl⟩, hn.imp id (fun h => ⟨h, hf⟩)⟩
    · rw [if_neg hf, if_neg (hg ▸ hf)]
      exact .inl ⟨rfl, rfl, hl (by simpa using hf)⟩

theorem relR_step {b1 b2 : builder} (h : RelR b1 b2) (k : NodeKind) (cs : List Node) (e : Bool)
    (hke : k ≠ .KindList ∨ e = false) :
    RelR (b1.walk (.mk k cs) e).1 (b2.walk (.mk k cs) e).1 := by
  rcases h with h | ⟨hc, hn | ⟨hi0, hf⟩⟩
  · exact .inl (done_step h _ e)
  · exact relS_toR (relS_step (.inr ⟨hc, hn⟩) _ e)
  · by_cases hk : k = .KindListItem ∧ e = false
    · obtain ⟨rfl, rfl⟩ := hk
      obtain ⟨h1, h2, hs, hg, hi, hl⟩ := hc
      have hf2 : b2.hasNonmatchingItems = true := hg ▸ hf
      rw [walk_item_exit b1 cs h1, walk_item_exit b2 cs h2]
      refine .inr ⟨⟨?_, ?_, ?_, ?_, ?_, ?_⟩, .inr ⟨?_, ?_⟩⟩ <;>
        split <;> (try split) <;> simp [h1, h2, hs, hf, hf2]
    · by_cases hl : k = .KindList
      · subst hl
        rcases hke with hke | hke
        · exact absurd rfl hke
        · subst hke
          exact relW_exitList (relR_toW (.inr ⟨hc, .inr ⟨hi0, hf⟩⟩)) cs
      · have hw := relW_step (relR_toW (.inr ⟨hc, .inr ⟨hi0, hf⟩⟩)) k cs e (by
          by_cases hk1 : k = .KindListItem
          · right
            cases e
            · exact absurd ⟨hk1, rfl⟩ hk
            · rfl
          · exact .inl hk1)
        rcases hw with hw | ⟨hc2, hn2 | hi2⟩
        · exact .inl hw
        · exact .inr ⟨hc2, .inl hn2⟩
        · refine .inr ⟨hc2, .inr ⟨hi2, ?_⟩⟩
          exact (walk_nonlist b1 k cs e hl hc.1).2 hf

theorem runChildren_rel (Rel : builder → builder → Prop) (l : List Node)
    (h : ∀ c ∈ l, ∀ b1 b2 : builder, Rel b1 b2 → Rel (runNode c b1) (runNode c b2))
    (b1 b2 : builder) (hr : Rel b1 b2) : Rel (runChildren l b1) (runChildren l b2) := by
  induction l generalizing b1 b2 with
  | nil => exact hr
  | cons c l ih =>
    rw [runChildren, runChildren]
    exact ih (fun d hd => h d (List.mem_cons_of_mem _ hd)) _ _
      (h c (List.mem_cons_self _ _) b1 b2 hr)

theorem relS_node (t : Node) : ∀ b1 b2 : builder, RelS b1 b2 →
    RelS (runNode t b1) (runNode t b2) := by
  induction t using Node.induct with
  | h k cs ih =>
    intro b1 b2 hr
    rw [runNode, runNode]
    exact relS_step (runChildren_rel RelS cs ih _ _ (relS_step hr _ true)) _ false

theorem relW_node (t : Node) : ∀ b1 b2 : builder, RelW b1 b2 →
    RelW (runNode t b1) (runNode t b2) := by
  induction t using Node.induct with
  | h k cs ih =>
    intro b1 b2 hr
    rw [runNode, runNode]
    by_cases hk : k = .KindListItem
    · subst hk
      exact relS_toW (relS_step
        (runChildren_rel RelS cs (fun c _ => relS_node c) _ _ (relW_enterItem hr cs)) _ false)
    · exact relW_step (runChildren_rel RelW cs ih _ _ (relW_step hr k cs true (.inl hk))) k cs
        false (.inl hk)

theorem relR_node (t : Node) : ∀ b1 b2 : builder, RelR b1 b2 →
    RelR (runNode t b1) (runNode t b2) := by
  induction t using Node.induct with
  | h k cs ih =>
    intro b1 b2 hr
    rw [runNode, runNode]
    by_cases hk : k = .KindList
    · subst hk
      exact relW_exitList (runChildren_rel RelW cs (fun c _ => relW_node c) _ _
        (relW_step (relR_toW hr) .KindList cs true (.inl (by simp)))) cs
    · exact relR_step (runChildren_rel RelR cs ih _ _ (relR_step hr k cs true (.inl hk))) k cs
        false (.inl hk)

theorem relR_after (c : Ctx) : ∀ b1 b2 : builder, RelR b1 b2 →
    RelR (c.runAfter b1) (c.runAfter b2) := by
  induction c with
  | hole => intro b1 b2 h; exact h
  | node kind before inner after ih =>
    intro b1 b2 h
    rw [Ctx.runAfter, Ctx.runAfter]
    exact relR_step (runChildren_rel RelR after (fun c _ => relR_node c) _ _ (ih b1 b2 h)) kind
      [] false (.inr rfl)

theorem relR_build {b1 b2 : builder} (h : RelR b1 b2) : b1.build = b2.build := by
  rcases h with ⟨h1, h2, hl⟩ | ⟨⟨h1, h2, -⟩, -⟩
  · exact build_congr _ _ (h1.trans h2.symm) hl
  · rw [build_eq, build_eq, h1, h2]
    rfl

theorem runNode_item_insideItem (cs : List Node) (b : builder)
    (h : (runNode (.mk .KindListItem cs) b).found = false) :
    (runNode (.mk .KindListItem cs) b).insideItem = false := by
  rw [runNode] at h ⊢
  generalize runChildren cs (b.walk (.mk .KindListItem cs) true).1 = s at h ⊢
  cases hs : s.found
  · rw [walk_item_exit s cs hs]
    split <;> rfl
  · rw [walk_found _ _ _ hs, hs] at h
    cases h

theorem runChildren_items_insideItem (l : List Node) (b : builder)
    (hitems : ∀ i ∈ l, i.Kind = .KindListItem)
    (h : (runChildren l b).found = false) (hne : b.insideItem = false ∨ l ≠ []) :
    (runChildren l b).insideItem = false := by
  induction l generalizing b with
  | nil =>
    rcases hne with h | h
    · exact h
    · exact absurd rfl h
  | cons c l ih =>
    rw [runChildren] at h ⊢
    have hf : (runNode c b).found = false := by
      cases hf : (runNode c b).found
      · rfl
      · rw [(runChildren_found l _ hf).1, hf] at h
        cases h
    obtain ⟨k, cs⟩ := c
    have hk : k = .KindListItem := hitems _ (List.mem_cons_self _ _)
    subst hk
    exact ih _ (fun i hi => hitems i (List.mem_cons_of_mem _ hi)) h
      (.inl (runNode_item_insideItem cs b hf))

/-- A list without nested lists that has an item whose link count is not one fails: the walk
goes on past its exit with `hasNonmatchingItems` set, outside of any item. -/
theorem runNode_failed_list (contents : Bytes) (items : List Node) (b : builder)
    (hitems : ∀ i ∈ items, i.Kind = .KindListItem ∧ ∀ t ∈ i.subtrees, t.Kind ≠ .KindList)
    (hbad : ∃ i ∈ items, itemLinkCount contents i ≠ 1)
    (hb : b.found = false) (hs : b.source = contents) :
    (runNode (.mk .KindList items) b).found = false ∧
    (runNode (.mk .KindList items) b).hasNonmatchingItems = true ∧
    (runNode (.mk .KindList items) b).insideItem = false := by
  have hfail : AllListsFail contents (.mk .KindList items) := by
    intro L hL hk
    rcases (mem_subtrees_mk _ _ _).1 hL with rfl | ⟨i, hi, hLi⟩
    · obtain ⟨i, hi, hc⟩ := hbad
      exact ⟨i, hi, (hitems i hi).1, hc⟩
    · exact absurd hk ((hitems i hi).2 L hLi)
  obtain ⟨f, -, -, g⟩ := failsQuietly_of_allListsFail contents _ hfail b b hb hb hs hs
    (.inl ⟨rfl, rfl⟩)
  refine ⟨f, g (.inr rfl), ?_⟩
  rw [runNode] at f ⊢
  generalize hr : runChildren items (b.walk (.mk .KindList items) true).1 = s at f ⊢
  have hsf : s.found = false := by
    cases hsf : s.found
    · rfl
    · rw [walk_found _ _ _ hsf, hsf] at f
      cases f
  have hne : items ≠ [] := by
    obtain ⟨i, hi, -⟩ := hbad
    exact List.ne_nil_of_mem hi
  have hin : s.insideItem = false := by
    rw [← hr] at hsf ⊢
    exact runChildren_items_insideItem items _ (fun i hi => (hitems i hi).1) hsf (.inr hne)
  rw [walk_list_exit s items hsf]
  split <;> exact hin

/-- C3, amended (all-or-nothing per list): take a list whose items hold no nested list; if
the link count of any single item of it is not one (zero links, or more than one), then the
walker leaves the list with `WalkContinue`, `found` unset and `hasNonmatchingItems` set, and
in every document `extract` returns what it returns when that list is replaced by a list with
one empty item: none of the list's links reach the output, even when its other items each hold
exactly one matching link. -/
theorem failed_list_contributes_nothing (contents : Bytes) (c : Ctx) (items : List Node)
    (hitems : ∀ i ∈ items, i.Kind = .KindListItem ∧ ∀ t ∈ i.subtrees, t.Kind ≠ .KindList)
    (hbad : ∃ i ∈ items, itemLinkCount contents i ≠ 1) :
    (∀ b : builder, b.found = false → b.source = contents →
      (walkHelper builder.walk (.mk .KindList items) b).2 = (.WalkContinue, none) ∧
      (walkHelper builder.walk (.mk .KindList items) b).1.found = false ∧
      (walkHelper builder.walk (.mk .KindList items) b).1.hasNonmatchingItems = true) ∧
    extract (c.fill (.mk .KindList items)) contents =
      extract (c.fill (.mk .KindList [.mk .KindListItem []])) contents := by
  constructor
  · intro b hb hs
    obtain ⟨f, g, -⟩ := runNode_failed_list contents items b hitems hbad hb hs
    rw [walkHelper_eq, f]
    exact ⟨rfl, rfl, g⟩
  · rw [extract_eq_build, extract_eq_build, runNode_fill, runNode_fill]
    apply relR_build
    apply relR_after
    cases hb : (c.runBefore (newBuilder contents)).found
    · obtain ⟨f, g, i⟩ := runNode_failed_list contents items _ hitems hbad hb
        (runBefore_source c _)
      have he : runNode (.mk .KindList [.mk .KindListItem []])
          (c.runBefore (newBuilder contents)) =
          { c.runBefore (newBuilder contents) with
            insideList := false, hasNonmatchingItems := true, links := [], insideItem := false,
            hasNonmatchingLink := false, numberOfLinks := 0 } := by
        rw [runNode, walk_list_enter _ _ hb, runChildren, runChildren, runNode, runChildren,
          walk_item_enter _ _ (by exact hb), walk_item_exit _ _ (by exact hb),
          if_neg (by simp), walk_list_exit _ _ (by exact hb), if_pos rfl]
      rw [he]
      exact .inr ⟨⟨f, hb, runNode_source _ _, g, i, fun h => by rw [g] at h; cases h⟩,
        .inr ⟨i, g⟩⟩
    · rw [(runChildren_found [] _ hb).2, (runChildren_found [] _ hb).2]
      exact .inl ⟨hb, hb, rfl⟩

/-- Witness of the amended C3: the document
`- [a](https://github.com/foo/bar) [c](https://github.com/foo/baz)` /
`- [b](https://gitlab.com/baz/qux)` yields the empty sequence (the first item has two
links). -/
theorem failed_list_contributes_nothing_witness :
    extract
      (.mk .KindOther [.mk .KindList [
        .mk .KindListItem [.mk .KindOther [
          .mk (.KindLink ⟨"https://github.com/foo/bar".toList⟩) [.mk (.KindText ⟨⟨0, 1, 0⟩⟩) []],
          .mk (.KindText ⟨⟨0, 1, 0⟩⟩) [],
          .mk (.KindLink ⟨"https://github.com/foo/baz".toList⟩) [.mk (.KindText ⟨⟨0, 1, 0⟩⟩) []]]],
        linkItem 1 "https://gitlab.com/baz/qux".toList [.mk (.KindText ⟨⟨0, 1, 0⟩⟩) []]]])
      "x".toList = (some [], none) :=
  (failed_list_contributes_nothing "x".toList (.node .KindOther [] .hole [])
    [.mk .KindListItem [.mk .KindOther [
        .mk (.KindLink ⟨"https://github.com/foo/bar".toList⟩) [.mk (.KindText ⟨⟨0, 1, 0⟩⟩) []],
        .mk (.KindText ⟨⟨0, 1, 0⟩⟩) [],
        .mk (.KindLink ⟨"https://github.com/foo/baz".toList⟩) [.mk (.KindText ⟨⟨0, 1, 0⟩⟩) []]]],
      linkItem 1 "https://gitlab.com/baz/qux".toList [.mk (.KindText ⟨⟨0, 1, 0⟩⟩) []]]
    (by decide) (by decide)).2.trans (by decide)

/-- C3, counterexample: in the document `- plain` / `- [a](https://github.com/a/b)` with the
nested list `- [c](https://github.com/c/d)` under the second item, the outer list has an item
with zero links, and yet a link that lies inside the outer list, the nested
`https://github.com/c/d`, is output. -/
theorem nested_list_link_is_output :
    (∃ item ∈ Node.children (.mk .KindList [
          .mk .KindListItem [.mk .KindOther [.mk (.KindText ⟨⟨0, 1, 0⟩⟩) []]],
          .mk .KindListItem [
            .mk .KindOther [.mk (.KindLink ⟨"https://github.com/a/b".toList⟩) []],
            .mk .KindList [linkItem 1 "https://github.com/c/d".toList []]]]),
        item.Kind = .KindListItem ∧ itemLinkCount "x".toList item = 0 ∧
          ∀ t ∈ item.subtrees, t.Kind.isPlain = true ∨ t.Kind = .KindListItem) ∧
    (∃ t ∈ Node.subtrees (.mk .KindList [
          .mk .KindListItem [.mk .KindOther [.mk (.KindText ⟨⟨0, 1, 0⟩⟩) []]],
          .mk .KindListItem [
            .mk .KindOther [.mk (.KindLink ⟨"https://github.com/a/b".toList⟩) []],
            .mk .KindList [linkItem 1 "https://github.com/c/d".toList []]]]),
        t.Kind = .KindLink ⟨"https://github.com/c/d".toList⟩) ∧
    extract
      (.mk .KindOther [.mk .KindList [
          .mk .KindListItem [.mk .KindOther [.mk (.KindText ⟨⟨0, 1, 0⟩⟩) []]],
          .mk .KindListItem [
            .mk .KindOther [.mk (.KindLink ⟨"https://github.com/a/b".toList⟩) []],
            .mk .KindList [linkItem 1 "https://github.com/c/d".toList []]]]])
      "x".toList = (some ["github.com/c/d".toList], none) := by
  decide

/-- C9, counterexample: in the document `- [a](https://example.com/x)`, a paragraph,
`- [b](https://github.com/o/r)`, the single link of the first list does not match the link
pattern, and yet the walk sets `found` and stops at the exit of that list; `extract` returns
the empty sequence and never reaches the second list, which is the first list whose items each
hold one matching link. -/
theorem found_set_despite_nonmatching_link :
    isLinkMatching "https://example.com/x".toList = false ∧
    walkHelper builder.walk (.mk .KindList [linkItem 1 "https://example.com/x".toList []])
        (newBuilder "x".toList) =
      ({ newBuilder "x".toList with
          found := true, insideList := true, hasNonmatchingLink := true, numberOfLinks := 1,
          links := ["https://example.com/x".toList] }, .WalkStop, none) ∧
    extract
      (.mk .KindOther [
        .mk .KindList [linkItem 1 "https://example.com/x".toList []],
        .mk .KindOther [.mk (.KindText ⟨⟨0, 1, 0⟩⟩) []],
        .mk .KindList [linkItem 1 "https://github.com/o/r".toList []]])
      "x".toList = (some [], none) ∧
    extract
      (.mk .KindOther [
        .mk .KindOther [.mk (.KindText ⟨⟨0, 1, 0⟩⟩) []],
        .mk .KindList [linkItem 1 "https://github.com/o/r".toList []]])
      "x".toList = (some ["github.com/o/r".toList], none) := by
  decide

/-- C11 (found is terminal): in every walker state with `found` set, for every node and both
values of `entering`, `walk` returns `WalkStop` with a nil error and the state unchanged in
every field; so `found` stays set, also over a whole walk of any subtree. -/
theorem found_is_terminal (b : builder) (node : Node) (entering : Bool) (h : b.found = true) :
    b.walk node entering = (b, .WalkStop, none) ∧
    (b.walk node entering).1.found = true ∧
    walkHelper builder.walk node b = (b, .WalkStop, none) := by
  have hw := walk_found b node entering h
  refine ⟨hw, by rw [hw]; exact h, ?_⟩
  rw [walkHelper_eq, (runChildren_found [] b h).2, h]
  rfl

/-- Witness of C11: a state with `found` set and a candidate link, visited with a list
node on exit. -/
theorem found_is_terminal_witness :
    builder.walk
        { newBuilder "x".toList with found := true, links := ["a".toList], numberOfLinks := 2 }
        (.mk .KindList []) false =
      ({ newBuilder "x".toList with found := true, links := ["a".toList], numberOfLinks := 2 }, .WalkStop, none) :=
  (found_is_terminal
    { newBuilder "x".toList with found := true, links := ["a".toList], numberOfLinks := 2 }
    (.mk .KindList []) false rfl).1

/-- C12 (the matching logic never raises an error): `walk` and each handler return a nil
error in every state; `handleListItem`, `handleLink` and `handleText` always return
`WalkContinue`, and `handleList` does so except on the exit of a list without failing item;
`build` returns a nil error and a non-nil slice for every state; hence `extract` yields a
result, possibly empty, and no error on every tree. -/
theorem no_error_raised :
    (∀ (b : builder) (node : Node) (entering : Bool), (b.walk node entering).2.2 = none) ∧
    (∀ (b : builder) (entering : Bool),
      (b.handleList entering).2.2 = none ∧
      ((b.handleList entering).2.1 = .WalkContinue ∨
        (entering = false ∧ b.hasNonmatchingItems = false)) ∧
      (b.handleListItem entering).2 = (.WalkContinue, none)) ∧
    (∀ (b : builder) (node : Node) (entering : Bool),
      (b.handleLink node entering).2 = (.WalkContinue, none)) ∧
    (∀ (b : builder) (text : Text) (entering : Bool),
      (b.handleText text entering).2 = (.WalkContinue, none)) ∧
    (∀ b : builder, b.build.2 = none ∧ b.build.1.isSome = true) ∧
    (∀ (root : Node) (contents : Bytes),
      (extract root contents).2 = none ∧ (extract root contents).1.isSome = true) := by
  refine ⟨fun b node e => (walk_status b node e).1, ?_, ?_, ?_, ?_, ?_⟩
  · intro b e
    cases e <;> cases hn : b.hasNonmatchingItems <;>
      simp [builder.handleList, builder.handleListItem, hn]
    all_goals split <;> simp
  · intro b node e
    cases e
    · simp [builder.handleLink]
    · simp only [builder.handleLink, Bool.not_true, Bool.false_eq_true, if_false]
      split <;> rfl
  · intro b text e
    simp only [builder.handleText]
    split
    · rfl
    · split <;> rfl
  · intro b
    rw [build_eq]
    exact ⟨rfl, rfl⟩
  · intro root contents
    rw [extract_eq_build, build_eq]
    exact ⟨rfl, rfl⟩

/-- C16 (list entry resets the candidate): in every walker state with `found` unset, entering
a list node returns `WalkContinue` without error and yields the state with `candidateLinks`
empty, `hasNonmatchingItems` cleared and `insideList` set, every other field (`found`,
`numberOfLinks`, `insideItem`, `hasNonmatchingLink`, `source`) unchanged, whatever the links
gathered for a list that is still open. -/
theorem list_entry_resets (b : builder) (children : List Node) (h : b.found = false) :
    b.walk (.mk .KindList children) true =
      ({ b with insideList := true, hasNonmatchingItems := false, links := [] },
        .WalkContinue, none) ∧
    (b.walk (.mk .KindList children) true).1.links = [] ∧
    (b.walk (.mk .KindList children) true).1.hasNonmatchingItems = false ∧
    (b.walk (.mk .KindList children) true).1.found = b.found ∧
    (b.walk (.mk .KindList children) true).1.numberOfLinks = b.numberOfLinks ∧
    (b.walk (.mk .KindList children) true).1.insideItem = b.insideItem ∧
    (b.walk (.mk .KindList children) true).1.source = b.source := by
  have hw : b.walk (.mk .KindList children) true =
      ({ b with insideList := true, hasNonmatchingItems := false, links := [] },
        .WalkContinue, none) := by
    simp [builder.walk, builder.handleList, asList, Node.Kind, h]
  rw [hw]
  exact ⟨rfl, rfl, rfl, rfl, rfl, rfl, rfl⟩

/-- Witness of C16: entering a list while an enclosing list is open, inside one of its items,
with one candidate link gathered for the open list. -/
theorem list_entry_resets_witness :
    builder.walk
        { newBuilder "x".toList with insideItem := true, numberOfLinks := 1, links := ["u".toList] }
        (.mk .KindList []) true =
      ({ newBuilder "x".toList with insideList := true, insideItem := true, numberOfLinks := 1 },
        .WalkContinue, none) :=
  (list_entry_resets
    { newBuilder "x".toList with insideItem := true, numberOfLinks := 1, links := ["u".toList] } [] rfl).1

/-- C17 (result construction): in every walker state with `found` set, `build` returns,
without error, the identifiers `link2module` gives for the candidate links that match, in
the order of the candidate links and dropping the others; so the result is a subsequence of
the identifiers of all candidate links, is not longer than the candidate links, and has one
identifier per candidate link when every candidate matches the pattern. -/
theorem build_result (b : builder) (h : b.found = true) :
    b.build = (some (b.links.filterMap
      (fun link => if (link2module link).1 then some (link2module link).2 else none)), none) ∧
    (b.links.filterMap
      (fun link => if (link2module link).1 then some (link2module link).2 else none)).Sublist
        (b.links.map (fun link => (link2module link).2)) ∧
    (b.links.filterMap
      (fun link => if (link2module link).1 then some (link2module link).2 else none)).length ≤
        b.links.length ∧
    ((∀ link ∈ b.links, isLinkMatching link = true) →
      b.build = (some (b.links.map (fun link => (link2module link).2)), none) ∧
      (b.links.map (fun link => (link2module link).2)).length = b.links.length) := by
  have hsub : ∀ l : List Bytes, (l.filterMap
      (fun link => if (link2module link).1 then some (link2module link).2 else none)).Sublist
        (l.map (fun link => (link2module link).2)) := by
    intro l
    induction l with
    | nil => simp
    | cons x xs ih =>
      cases hx : (link2module x).1
      · simp only [List.filterMap_cons, hx, Bool.false_eq_true, if_false, List.map_cons]
        exact ih.cons _
      · simp only [List.filterMap_cons, hx, if_true, List.map_cons]
        exact ih.cons₂ _
  refine ⟨?_, hsub _, ?_, ?_⟩
  · rw [build_eq, h]
    rfl
  · exact List.length_filterMap_le _ _
  · intro hall
    refine ⟨?_, List.length_map _ _⟩
    rw [build_eq, h]
    simp only [if_true]
    congr 2
    rw [← List.filterMap_eq_map]
    apply List.filterMap_congr
    intro link hl
    simp [link2module_fst, hall link hl]

/-- Witness of C17: with candidate links `https://example.com/x` and
`https://github.com/o/r`, `build` keeps the identifier of the second only. -/
theorem build_result_witness :
    builder.build
        { newBuilder "x".toList with
          found := true
          links := ["https://example.com/x".toList, "https://github.com/o/r".toList] } =
      (some ["github.com/o/r".toList], none) :=
  (build_result
    { newBuilder "x".toList with
      found := true
      links := ["https://example.com/x".toList, "https://github.com/o/r".toList] } rfl).1.trans
    (by decide)

/-- C20 (the module identifier does not determine the link): `https://github.com/o/r@v1`
(repository segment `r@v1`, no tag) and `https://github.com/o/r/releases/tag/v1` are distinct,
both match the link pattern, and `link2module` gives `github.com/o/r@v1` for both; so
`link2module` is not injective on matching URLs. -/
theorem link2module_not_injective :
    "https://github.com/o/r@v1".toList ≠ "https://github.com/o/r/releases/tag/v1".toList ∧
    isLinkMatching "https://github.com/o/r@v1".toList = true ∧
    isLinkMatching "https://github.com/o/r/releases/tag/v1".toList = true ∧
    link2module "https://github.com/o/r@v1".toList = (true, "github.com/o/r@v1".toList) ∧
    link2module "https://github.com/o/r/releases/tag/v1".toList =
      (true, "github.com/o/r@v1".toList) ∧
    ¬ (∀ u1 u2 : Bytes, isLinkMatching u1 = true → isLinkMatching u2 = true →
        link2module u1 = link2module u2 → u1 = u2) := by
  refine ⟨by decide, by decide, by decide, by decide, by decide, ?_⟩
  intro hinj
  exact absurd (hinj "https://github.com/o/r@v1".toList
    "https://github.com/o/r/releases/tag/v1".toList (by decide) (by decide) (by decide))
    (by decide)

theorem Fprintf_with (w m : Bytes) :
    Fprintf w " --with %s".toList m = w ++ (" --with ".toList ++ m) := by
  have : " --with %s".toList = [' ', '-', '-', 'w', 'i', 't', 'h', ' ', '%', 's'] := by decide
  rw [Fprintf, this]
  simp [formatString]

theorem main_loop (modules : List Bytes) (w : Bytes) :
    modules.foldl (fun stdout m => Fprintf stdout " --with %s".toList m) w =
      w ++ (modules.map (fun m => " --with ".toList ++ m)).flatten := by
  induction modules generalizing w with
  | nil => simp
  | cons m ms ih =>
    rw [List.foldl_cons, ih, Fprintf_with]
    simp

/-- C13 (CLI output format): when the input file is read and `extract` returns the module
identifiers `m1 .. mn`, the text `main` writes to standard output is exactly
` --with m1 --with m2 ... --with mn`, each identifier preceded by the literal ` --with `, with
no separator and no trailing newline; it is empty when there is no identifier. -/
theorem main_output (Args : List Bytes) (ReadFile : Bytes → Except String Bytes)
    (parse : Bytes → Node) (contents : Bytes) (modules : List Bytes)
    (hread : ReadFile (if Args.length > 1 then Args.getD 1 [] else "README.md".toList) =
      .ok contents)
    (hext : extract (parse contents) contents = (some modules, none)) :
    main Args ReadFile parse =
      .ok ((modules.map (fun m => " --with ".toList ++ m)).flatten) ∧
    (modules = [] → main Args ReadFile parse = .ok []) := by
  have hm : main Args ReadFile parse =
      .ok ((modules.map (fun m => " --with ".toList ++ m)).flatten) := by
    simp only [main, hread, hext, Option.getD_some, main_loop, List.nil_append]
  refine ⟨hm, ?_⟩
  intro h
  rw [hm, h]
  rfl

/-- Witness of C13: for `README.md` holding the list of the specification's first scenario,
the output is ` --with github.com/foo/bar --with gitlab.com/baz/qux@v1.2.3`. -/
theorem main_output_witness :
    main ["md2xk6".toList]
      (fun name => if name = "README.md".toList then .ok "x".toList else .error "no such file")
      (fun _ => .mk .KindOther [.mk .KindList [
        linkItem 1 "https://github.com/foo/bar".toList [],
        linkItem 1 "https://gitlab.com/baz/qux/releases/tag/v1.2.3".toList []]]) =
    .ok " --with github.com/foo/bar --with gitlab.com/baz/qux@v1.2.3".toList :=
  (main_output ["md2xk6".toList]
    (fun name => if name = "README.md".toList then .ok "x".toList else .error "no such file")
    (fun _ => .mk .KindOther [.mk .KindList [
      linkItem 1 "https://github.com/foo/bar".toList [],
      linkItem 1 "https://gitlab.com/baz/qux/releases/tag/v1.2.3".toList []]])
    "x".toList ["github.com/foo/bar".toList, "gitlab.com/baz/qux@v1.2.3".toList]
    (by simp) (by decide)).1

theorem walk_exit_noop (b : builder) (k : NodeKind) (cs : List Node)
    (h1 : k ≠ .KindList) (h2 : k ≠ .KindListItem) : (b.walk (.mk k cs) false).1 = b := by
  cases k with
  | KindList => exact absurd rfl h1
  | KindListItem => exact absurd rfl h2
  | KindLink link => exact walk_link_exit b link cs
  | KindAutoLink link => exact walk_autoLink_exit b link cs
  | KindText text => exact walk_text_exit b text cs
  | KindOther => exact walk_other b cs false

theorem enterAll_append (xs ys : List Node) (b : builder) :
    enterAll (xs ++ ys) b = enterAll ys (enterAll xs b) := by
  simp [enterAll, List.foldl_append]

/-- Without lists and list items, a walk is the sequence of its entry visits in document
order. -/
theorem runNode_eq_enterAll (t : Node) :
    (∀ s ∈ t.subtrees, s.Kind ≠ .KindList ∧ s.Kind ≠ .KindListItem) →
      ∀ b : builder, runNode t b = enterAll t.subtrees b := by
  induction t using Node.induct with
  | h k cs ih =>
    intro ht b
    have hk := ht _ (mem_subtrees_self _)
    have hcs : ∀ (l : List Node), (∀ c ∈ l, c ∈ cs) → ∀ b : builder,
        runChildren l b = enterAll (subtreesOfList l) b := by
      intro l
      induction l with
      | nil => intro _ b; rfl
      | cons c l ihl =>
        intro hl b
        have hc := hl c (List.mem_cons_self _ _)
        rw [runChildren, subtreesOfList, enterAll_append,
          ih c hc (fun s hs => ht s ((mem_subtrees_mk _ _ _).2 (.inr ⟨c, hc, hs⟩))) b]
        exact ihl (fun d hd => hl d (List.mem_cons_of_mem _ hd)) _
    rw [runNode, walk_exit_noop _ k cs hk.1 hk.2, hcs cs (fun _ h => h), Node.subtrees]
    rfl

theorem runChildren_eq_enterAll (cs : List Node)
    (h : ∀ s ∈ subtreesOfList cs, s.Kind ≠ .KindList ∧ s.Kind ≠ .KindListItem) (b : builder) :
    runChildren cs b = enterAll (subtreesOfList cs) b := by
  induction cs generalizing b with
  | nil => rfl
  | cons c cs ih =>
    rw [runChildren, subtreesOfList, enterAll_append,
      runNode_eq_enterAll c (fun s hs => h s (by simp [subtreesOfList, hs])) b]
    exact ih (fun s hs => h s (by simp [subtreesOfList, hs])) _

theorem isPlain_kind {k : NodeKind} (h : k.isPlain = true) :
    k ≠ .KindList ∧ k ≠ .KindListItem := by
  cases k <;> simp [NodeKind.isPlain] at h ⊢

/-- Entering text and other nodes once a link has been counted changes nothing. -/
theorem enterAll_plain_counted (ns : List Node) (b : builder)
    (h : ∀ n ∈ ns, n.Kind.isPlain = true) (hf : b.found = false) (hn : 0 < b.numberOfLinks) :
    enterAll ns b = b := by
  induction ns with
  | nil => rfl
  | cons n ns ih =>
    have ih := ih (fun m hm => h m (List.mem_cons_of_mem _ hm))
    obtain ⟨k, cs⟩ := n
    have hk : k.isPlain = true := h _ (List.mem_cons_self _ _)
    have hstep : (b.walk (.mk k cs) true).1 = b := by
      cases k with
      | KindText text =>
        rw [walk_text_enter b text cs hf, if_neg]
        rintro ⟨-, h0, -⟩
        omega
      | KindOther => exact walk_other b cs true
      | _ => cases hk
    rw [enterAll, List.foldl_cons, hstep]
    exact ih

/-- Entering text and other nodes inside an item that has no link yet records the first
text that matches the pattern, and nothing else. -/
theorem enterAll_plain_fresh (ns : List Node) (b : builder)
    (h : ∀ n ∈ ns, n.Kind.isPlain = true) (hf : b.found = false) (hi : b.insideItem = true)
    (hn : b.numberOfLinks = 0) :
    enterAll ns b =
      match (textValues b.source ns).find? isLinkMatching with
      | some v => { b with links := b.links ++ [v], numberOfLinks := 1 }
      | none => b := by
  induction ns with
  | nil => rfl
  | cons n ns ih =>
    have ih := ih (fun m hm => h m (List.mem_cons_of_mem _ hm))
    obtain ⟨k, cs⟩ := n
    have hk : k.isPlain = true := h _ (List.mem_cons_self _ _)
    cases k with
    | KindText text =>
      rw [enterAll, List.foldl_cons, walk_text_enter b text cs hf]
      by_cases hm : isLinkMatching (text.Segment.Value b.source) = true
      · rw [if_pos ⟨hi, hn, hm⟩]
        have := enterAll_plain_counted ns
          { b with links := b.links ++ [text.Segment.Value b.source],
                   numberOfLinks := b.numberOfLinks + 1 }
          (fun m hm => h m (List.mem_cons_of_mem _ hm)) hf (by simp)
        rw [enterAll] at this
        rw [this]
        simp [textValues, Node.Kind, List.find?, hm, hn]
      · rw [if_neg (fun hc => hm hc.2.2)]
        rw [enterAll] at ih
        rw [ih]
        simp [textValues, Node.Kind, List.find?, hm]
    | KindOther =>
      rw [enterAll, List.foldl_cons, walk_other]
      rw [enterAll] at ih
      rw [ih]
      simp [textValues, Node.Kind]
    | _ => cases hk

/-- C18 (bare-text path): a visit of a text node changes the walker state only on entry, with
`found` unset, inside an item, with no link counted yet and with source bytes that match the
link pattern; it then appends those bytes to the candidate links and sets `numberOfLinks` to
one; in every other case the state is unchanged. Consequently an item that holds only text
(and other plain nodes) counts at most one link: the first text that matches is the only one
recorded, and the item then leaves `hasNonmatchingItems` as it is. -/
theorem bare_text_path :
    (∀ (b : builder) (text : Text) (cs : List Node) (e : Bool),
      (b.walk (.mk (.KindText text) cs) e).1 =
        if b.found = false ∧ e = true ∧ b.insideItem = true ∧ b.numberOfLinks = 0 ∧
            isLinkMatching (text.Segment.Value b.source) = true then
          { b with links := b.links ++ [text.Segment.Value b.source], numberOfLinks := 1 }
        else b) ∧
    (∀ (b : builder) (cs : List Node), b.found = false →
      (∀ t ∈ subtreesOfList cs, t.Kind.isPlain = true) →
      (walkHelper builder.walk (.mk .KindListItem cs) b).1.numberOfLinks ≤ 1 ∧
      walkHelper builder.walk (.mk .KindListItem cs) b =
        (match (textValues b.source (subtreesOfList cs)).find? isLinkMatching with
          | some v =>
            { b with insideItem := false, hasNonmatchingLink := false, numberOfLinks := 1,
                     links := b.links ++ [v] }
          | none =>
            { b with insideItem := false, hasNonmatchingLink := false, numberOfLinks := 0,
                     hasNonmatchingItems := true },
          .WalkContinue, none)) := by
  constructor
  · intro b text cs e
    cases hf : b.found
    · cases e
      · rw [walk_text_exit, if_neg (by simp)]
      · rw [walk_text_enter b text cs hf]
        by_cases hc : b.insideItem = true ∧ b.numberOfLinks = 0 ∧
            isLinkMatching (text.Segment.Value b.source) = true
        · rw [if_pos hc, if_pos ⟨rfl, rfl, hc⟩, hc.2.1]
          simp [hf]
        · rw [if_neg hc, if_neg (fun h => hc h.2.2)]
    · rw [walk_found _ _ _ hf, if_neg (by simp)]
  · intro b cs hf hplain
    have hkinds : ∀ s ∈ subtreesOfList cs, s.Kind ≠ .KindList ∧ s.Kind ≠ .KindListItem :=
      fun s hs => isPlain_kind (hplain s hs)
    have hrun : runNode (.mk .KindListItem cs) b =
        match (textValues b.source (subtreesOfList cs)).find? isLinkMatching with
        | some v =>
          { b with insideItem := false, hasNonmatchingLink := false, numberOfLinks := 1,
                   links := b.links ++ [v] }
        | none =>
          { b with insideItem := false, hasNonmatchingLink := false, numberOfLinks := 0,
                   hasNonmatchingItems := true } := by
      rw [runNode, walk_item_enter b cs hf, runChildren_eq_enterAll cs hkinds,
        enterAll_plain_fresh _ _ hplain (by exact hf) rfl rfl]
      cases (textValues b.source (subtreesOfList cs)).find? isLinkMatching with
      | none => simp only; rw [walk_item_exit _ _ (by exact hf)]; simp
      | some v => simp only; rw [walk_item_exit _ _ (by exact hf)]; simp
    have hfound : (runNode (.mk .KindListItem cs) b).found = false := by
      rw [hrun]
      split <;> exact hf
    rw [walkHelper_eq, hfound, hrun]
    refine ⟨?_, rfl⟩
    split <;> simp

/-- Witness of C18: an item with the two bare URLs `https://github.com/a/b` and
`https://github.com/c/d` on two lines counts one link and records the first. -/
theorem bare_text_path_witness :
    walkHelper builder.walk
        (.mk .KindListItem [.mk .KindOther [
          .mk (.KindText ⟨⟨0, 22, 0⟩⟩) [], .mk (.KindText ⟨⟨23, 45, 0⟩⟩) []]])
        (newBuilder "https://github.com/a/b\nhttps://github.com/c/d".toList) =
      ({ newBuilder "https://github.com/a/b\nhttps://github.com/c/d".toList with
          numberOfLinks := 1, links := ["https://github.com/a/b".toList] },
        .WalkContinue, none) :=
  ((bare_text_path.2 (newBuilder "https://github.com/a/b\nhttps://github.com/c/d".toList)
    [.mk .KindOther [.mk (.KindText ⟨⟨0, 22, 0⟩⟩) [], .mk (.KindText ⟨⟨23, 45, 0⟩⟩) []]]
    rfl (by decide)).2).trans (by decide)

/-- Once `found` or `hasNonmatchingItems` is set, it is so again after any complete visit of
a subtree: a list exit either finds the list or leaves the flag set, and nothing else clears
the flag. -/
theorem runNode_found_or_flag (t : Node) : ∀ b : builder,
    (b.found = true ∨ b.hasNonmatchingItems = true) →
      ((runNode t b).found = true ∨ (runNode t b).hasNonmatchingItems = true) := by
  induction t using Node.induct with
  | h k cs ih =>
    intro b hb
    cases hf : b.found
    · have hflag : b.hasNonmatchingItems = true := by
        rcases hb with h | h
        · rw [hf] at h; cases h
        · exact h
      rw [runNode]
      by_cases hk : k = .KindList
      · subst hk
        generalize runChildren cs (b.walk (.mk .KindList cs) true).1 = s
        cases hs : s.found
        · rw [walk_list_exit s cs hs]
          cases hg : s.hasNonmatchingItems
          · left; simp
          · right; simp [hg]
        · left
          rw [walk_found _ _ _ hs]
          exact hs
      · obtain ⟨e1, m1⟩ := walk_nonlist b k cs true hk hf
        have hcs : ∀ (l : List Node), (∀ c ∈ l, c ∈ cs) → ∀ b : builder,
            (b.found = true ∨ b.hasNonmatchingItems = true) →
            ((runChildren l b).found = true ∨ (runChildren l b).hasNonmatchingItems = true) := by
          intro l
          induction l with
          | nil => intro _ b hb; exact hb
          | cons c l ihl =>
            intro hl b hb
            rw [runChildren]
            exact ihl (fun d hd => hl d (List.mem_cons_of_mem _ hd)) _
              (ih c (hl c (List.mem_cons_self _ _)) b hb)
        have h2 := hcs cs (fun _ h => h) _ (.inr (m1 hflag))
        generalize runChildren cs (b.walk (.mk k cs) true).1 = s at h2
        cases hs : s.found
        · obtain ⟨e5, m5⟩ := walk_nonlist s k cs false hk hs
          rcases h2 with h | h
          · rw [hs] at h; cases h
          · exact .inr (m5 h)
        · left
          rw [walk_found _ _ _ hs]
          exact hs
    · left
      rw [(runChildren_found [] b hf).2]
      exact hf

theorem runChildren_found_or_flag (cs : List Node) (b : builder)
    (hb : b.found = true ∨ b.hasNonmatchingItems = true) :
    (runChildren cs b).found = true ∨ (runChildren cs b).hasNonmatchingItems = true := by
  induction cs generalizing b with
  | nil => exact hb
  | cons c cs ih =>
    rw [runChildren]
    exact ih _ (runNode_found_or_flag c b hb)

/-- After the complete visit of a subtree that holds a list, `found` or `hasNonmatchingItems`
is set. -/
theorem runNode_with_list (t : Node) : ∀ b : builder,
    (∃ s ∈ t.subtrees, s.Kind = .KindList) →
      ((runNode t b).found = true ∨ (runNode t b).hasNonmatchingItems = true) := by
  induction t using Node.induct with
  | h k cs ih =>
    intro b ht
    cases hf : b.found
    · by_cases hk : k = .KindList
      · subst hk
        rw [runNode]
        generalize runChildren cs (b.walk (.mk .KindList cs) true).1 = s
        cases hs : s.found
        · rw [walk_list_exit s cs hs]
          cases hg : s.hasNonmatchingItems
          · left; simp
          · right; simp [hg]
        · left
          rw [walk_found _ _ _ hs]
          exact hs
      · obtain ⟨s, hs, hsk⟩ := ht
        rcases (mem_subtrees_mk _ _ _).1 hs with rfl | ⟨c, hc, hsc⟩
        · exact absurd hsk hk
        · obtain ⟨pre, post, rfl⟩ := List.append_of_mem hc
          rw [runNode, runChildren_append, runChildren]
          have h1 := ih c hc (runChildren pre (b.walk (.mk k (pre ++ c :: post)) true).1)
            ⟨s, hsc, hsk⟩
          have h2 := runChildren_found_or_flag post _ h1
          generalize runChildren post _ = r at h2
          cases hr : r.found
          · obtain ⟨e5, m5⟩ := walk_nonlist r k (pre ++ c :: post) false hk hr
            rcases h2 with h | h
            · rw [hr] at h; cases h
            · exact .inr (m5 h)
          · left
            rw [walk_found _ _ _ hr]
            exact hr
    · left
      rw [(runChildren_found [] b hf).2]
      exact hf

theorem walkChildren_state (cs : List Node) (b : builder) :
    (walkChildren builder.walk cs b).1 = runChildren cs b := by
  cases hf : b.found
  · rw [walkChildren_of_nodes cs (fun c _ => walkHelper_eq c) b hf]
  · rw [(runChildren_found cs b hf).1]
    cases cs with
    | nil => rfl
    | cons c cs =>
      rw [walkChildren, walkHelper_eq, (runChildren_found [] b hf).2, hf]
      rfl

/-- C19 (only innermost lists can be selected): for a list that holds a list among its
descendants, in every walker state in which it is entered, the state in which its exit is
reached has `found` set already (a nested list was selected and the walk has stopped) or has
`hasNonmatchingItems` set; so the exit visit of such a list never sets `found`: it leaves
`found` as it is, and returns `WalkContinue` when `found` is unset. -/
theorem only_innermost_lists (children : List Node) (b : builder)
    (hnested : ∃ s ∈ subtreesOfList children, s.Kind = .KindList) :
    ((stateBeforeExit (.mk .KindList children) b).found = true ∨
      (stateBeforeExit (.mk .KindList children) b).hasNonmatchingItems = true) ∧
    ((stateBeforeExit (.mk .KindList children) b).walk (.mk .KindList children) false).1.found =
      (stateBeforeExit (.mk .KindList children) b).found ∧
    ((stateBeforeExit (.mk .KindList children) b).found = false →
      ((stateBeforeExit (.mk .KindList children) b).walk (.mk .KindList children) false).2 =
        (.WalkContinue, none)) := by
  have hor : (stateBeforeExit (.mk .KindList children) b).found = true ∨
      (stateBeforeExit (.mk .KindList children) b).hasNonmatchingItems = true := by
    rw [stateBeforeExit, walkChildren_state]
    obtain ⟨s, hs, hsk⟩ := hnested
    obtain ⟨c, hc, hsc⟩ := (mem_subtreesOfList _ _).1 hs
    obtain ⟨pre, post, hcs⟩ := List.append_of_mem hc
    simp only [Node.children]
    rw [hcs, runChildren_append, runChildren]
    exact runChildren_found_or_flag post _ (runNode_with_list c _ ⟨s, hsc, hsk⟩)
  refine ⟨hor, ?_⟩
  generalize stateBeforeExit (.mk .KindList children) b = s at hor
  cases hf : s.found
  · have hflag : s.hasNonmatchingItems = true := by
      rcases hor with h | h
      · rw [hf] at h; cases h
      · exact h
    refine ⟨?_, fun _ => ?_⟩
    · rw [walk_list_exit s children hf, if_pos hflag]
      exact hf
    · simp [builder.walk, builder.handleList, asList, Node.Kind, hf, hflag]
  · refine ⟨?_, fun h => by cases h⟩
    rw [walk_found _ _ _ hf]
    exact hf

/-- Witness of C19: a list whose item holds a link and a nested list with a link-free item:
the nested list fails, and so does the outer list although its item has counted no link
since the nested item. -/
theorem only_innermost_lists_witness :
    (stateBeforeExit
        (.mk .KindList [.mk .KindListItem [
          .mk .KindOther [.mk (.KindLink ⟨"https://github.com/a/b".toList⟩) []],
          .mk .KindList [.mk .KindListItem [.mk .KindOther []]]]])
        (newBuilder "x".toList)).hasNonmatchingItems = true ∧
    (builder.walk
        (stateBeforeExit
          (.mk .KindList [.mk .KindListItem [
            .mk .KindOther [.mk (.KindLink ⟨"https://github.com/a/b".toList⟩) []],
            .mk .KindList [.mk .KindListItem [.mk .KindOther []]]]])
          (newBuilder "x".toList))
        (.mk .KindList [.mk .KindListItem [
          .mk .KindOther [.mk (.KindLink ⟨"https://github.com/a/b".toList⟩) []],
          .mk .KindList [.mk .KindListItem [.mk .KindOther []]]]]) false).2 =
      (.WalkContinue, none) :=
  ⟨by decide,
   (only_innermost_lists
    [.mk .KindListItem [
      .mk .KindOther [.mk (.KindLink ⟨"https://github.com/a/b".toList⟩) []],
      .mk .KindList [.mk .KindListItem [.mk .KindOther []]]]]
    (newBuilder "x".toList) (by decide)).2.2 (by decide)⟩

theorem enterAll_quiet (contents : Bytes) (ns : List Node) (b : builder)
    (h : ∀ t ∈ ns, t.Kind = .KindOther ∨
      ∃ text, t.Kind = .KindText text ∧ isLinkMatching (text.Segment.Value contents) = false)
    (hf : b.found = false) (hs : b.source = contents) : enterAll ns b = b := by
  induction ns with
  | nil => rfl
  | cons n ns ih =>
    have ih := ih (fun m hm => h m (List.mem_cons_of_mem _ hm))
    obtain ⟨k, cs⟩ := n
    have hstep : (b.walk (.mk k cs) true).1 = b := by
      rcases h _ (List.mem_cons_self _ _) with hk | ⟨text, hk, hm⟩
      · have hk1 : k = .KindOther := hk
        subst hk1
        exact walk_other b cs true
      · have hk1 : k = .KindText text := hk
        subst hk1
        rw [walk_text_enter b text cs hf, if_neg]
        rintro ⟨-, -, h3⟩
        rw [hs, hm] at h3
        cases h3
    rw [enterAll, List.foldl_cons, hstep]
    exact ih

theorem walk_linkTarget_enter (contents : Bytes) (node : Node) (target : Bytes) (b : builder)
    (ht : linkTarget contents node = some target) (hf : b.found = false)
    (hi : b.insideItem = true) (hs : b.source = contents) :
    b.walk node true =
      ({ b with numberOfLinks := b.numberOfLinks + 1, links := b.links ++ [target],
                hasNonmatchingLink :=
                  if isLinkMatching target then b.hasNonmatchingLink else true },
        .WalkContinue, none) := by
  obtain ⟨k, cs⟩ := node
  cases k with
  | KindLink link =>
    simp only [linkTarget, Node.Kind, Option.some.injEq] at ht
    subst ht
    cases hm : isLinkMatching link.Destination <;>
      simp [builder.walk, builder.handleLink, asList, asListItem, asLink, Node.Kind, hf, hi, hm]
  | KindAutoLink link =>
    simp only [linkTarget, Node.Kind, Option.some.injEq] at ht
    subst ht
    subst hs
    cases hm : isLinkMatching (link.URL b.source) <;>
      simp [builder.walk, builder.handleLink, asList, asListItem, asLink, asAutoLink, Node.Kind,
        hf, hi, hm]
  | _ => simp [linkTarget, Node.Kind] at ht

theorem linkTarget_kind {contents : Bytes} {node : Node} {target : Bytes}
    (ht : linkTarget contents node = some target) :
    node.Kind ≠ .KindList ∧ node.Kind ≠ .KindListItem := by
  obtain ⟨k, cs⟩ := node
  cases k <;> simp [linkTarget, Node.Kind] at ht ⊢

/-- An item with exactly one link or autolink node, and no matching text before it, records
the target of that node and counts one link, whether or not the target matches. -/
theorem runNode_oneLinkItem (contents : Bytes) (item : Node) (target : Bytes) (b : builder)
    (h : OneLinkItem contents item target) (hf : b.found = false) (hs : b.source = contents) :
    runNode item b =
      { b with insideItem := false, numberOfLinks := 1, links := b.links ++ [target],
               hasNonmatchingLink := !isLinkMatching target } := by
  obtain ⟨k, cs⟩ := item
  obtain ⟨hk, pre, node, post, hsub, hpre, hnode, hpost⟩ := h
  have hk1 : k = .KindListItem := hk
  subst hk1
  simp only [Node.children] at hsub
  have hkinds : ∀ s ∈ subtreesOfList cs, s.Kind ≠ .KindList ∧ s.Kind ≠ .KindListItem := by
    intro s hs1
    rw [hsub] at hs1
    rcases List.mem_append.1 hs1 with h1 | h1
    · rcases hpre s h1 with h2 | ⟨text, h2, -⟩ <;> rw [h2] <;> simp
    · rcases List.mem_cons.1 h1 with rfl | h1
      · exact linkTarget_kind hnode
      · exact isPlain_kind (hpost s h1)
  rw [runNode, walk_item_enter b cs hf, runChildren_eq_enterAll cs hkinds, hsub, enterAll_append,
    enterAll_quiet contents pre _ hpre (by exact hf) (by exact hs)]
  have hcons : ∀ (n : Node) (ns : List Node) (b1 : builder),
      enterAll (n :: ns) b1 = enterAll ns (b1.walk n true).1 := fun _ _ _ => rfl
  rw [hcons, walk_linkTarget_enter contents node target _ hnode (by exact hf) rfl (by exact hs)]
  simp only
  rw [enterAll_plain_counted post _ hpost (by exact hf) (by simp),
    walk_item_exit _ _ (by exact hf)]
  cases isLinkMatching target <;> simp

theorem runChildren_oneLinkItems (contents : Bytes) (specs : List (Node × Bytes)) (b : builder)
    (h : ∀ p ∈ specs, OneLinkItem contents p.1 p.2) (hf : b.found = false)
    (hs : b.source = contents) :
    (runChildren (specs.map Prod.fst) b).found = false ∧
    (runChildren (specs.map Prod.fst) b).hasNonmatchingItems = b.hasNonmatchingItems ∧
    (runChildren (specs.map Prod.fst) b).links = b.links ++ specs.map Prod.snd := by
  induction specs generalizing b with
  | nil => simp [runChildren, hf]
  | cons p specs ih =>
    rw [List.map_cons, runChildren,
      runNode_oneLinkItem contents p.1 p.2 b (h p (List.mem_cons_self _ _)) hf hs]
    obtain ⟨h1, h2, h3⟩ := ih
      { b with insideItem := false, numberOfLinks := 1, links := b.links ++ [p.2],
               hasNonmatchingLink := !isLinkMatching p.2 }
      (fun q hq => h q (List.mem_cons_of_mem _ hq)) hf hs
    refine ⟨h1, h2, ?_⟩
    rw [h3]
    simp

/-- C14, amended (count-only gating): take a list whose items each contain exactly one link
or autolink node, no nested list or list item, and no text matching the link pattern before
that node, whatever the targets. If no list has been found when the walk arrives at it, the
walk sets `found` at its exit and stops with the targets as candidate links, and `extract`
returns the identifiers of the targets that match, in order (the empty sequence when none
matches), whatever follows the list in the document. -/
theorem count_only_gating (contents : Bytes) (c : Ctx) (specs : List (Node × Bytes))
    (hitems : ∀ p ∈ specs, OneLinkItem contents p.1 p.2)
    (hbefore : (c.runBefore (newBuilder contents)).found = false) :
    (walkHelper builder.walk (.mk .KindList (specs.map Prod.fst))
        (c.runBefore (newBuilder contents))).2 = (.WalkStop, none) ∧
    (walkHelper builder.walk (.mk .KindList (specs.map Prod.fst))
        (c.runBefore (newBuilder contents))).1.found = true ∧
    (walkHelper builder.walk (.mk .KindList (specs.map Prod.fst))
        (c.runBefore (newBuilder contents))).1.links = specs.map Prod.snd ∧
    extract (c.fill (.mk .KindList (specs.map Prod.fst))) contents =
      (some ((specs.map Prod.snd).filterMap
        (fun t => if isLinkMatching t then some (link2module t).2 else none)), none) ∧
    ((∀ p ∈ specs, isLinkMatching p.2 = false) →
      extract (c.fill (.mk .KindList (specs.map Prod.fst))) contents = (some [], none)) := by
  have hrun : (runNode (.mk .KindList (specs.map Prod.fst))
        (c.runBefore (newBuilder contents))).found = true ∧
      (runNode (.mk .KindList (specs.map Prod.fst))
        (c.runBefore (newBuilder contents))).links = specs.map Prod.snd := by
    rw [runNode, walk_list_enter _ _ hbefore]
    obtain ⟨h1, h2, h3⟩ := runChildren_oneLinkItems contents specs
      { c.runBefore (newBuilder contents) with
        insideList := true, hasNonmatchingItems := false, links := [] }
      hitems hbefore (runBefore_source c _)
    rw [walk_list_exit _ _ h1, h2]
    simp only [Bool.false_eq_true, if_false]
    exact ⟨trivial, by rw [h3]; rfl⟩
  have hext : extract (c.fill (.mk .KindList (specs.map Prod.fst))) contents =
      (some ((specs.map Prod.snd).filterMap
        (fun t => if isLinkMatching t then some (link2module t).2 else none)), none) := by
    rw [extract_eq_build, runNode_fill, runAfter_found _ _ hrun.1, build_eq, hrun.1, hrun.2]
    simp only [if_true, link2module_fst]
  refine ⟨?_, ?_, ?_, hext, ?_⟩
  · rw [walkHelper_eq, hrun.1]
    rfl
  · rw [walkHelper_eq]
    exact hrun.1
  · rw [walkHelper_eq]
    exact hrun.2
  · intro hnone
    rw [hext]
    congr 2
    rw [List.filterMap_eq_nil_iff]
    intro t ht
    obtain ⟨p, hp, rfl⟩ := List.mem_map.1 ht
    simp [hnone p hp]

/-- Witness of the amended C14: a list with the items `see [x](https://example.com/x)` and
`[y](https://github.com/o/r)`, followed by a list that qualifies with a matching link: only the
matching target of the first list is output. -/
theorem count_only_gating_witness :
    extract
      (.mk .KindOther [
        .mk .KindList [
          .mk .KindListItem [.mk .KindOther [
            .mk (.KindText ⟨⟨0, 1, 0⟩⟩) [],
            .mk (.KindLink ⟨"https://example.com/x".toList⟩) [.mk (.KindText ⟨⟨0, 1, 0⟩⟩) []]]],
          .mk .KindListItem [.mk .KindOther [
            .mk (.KindLink ⟨"https://github.com/o/r".toList⟩) [.mk (.KindText ⟨⟨0, 1, 0⟩⟩) []]]]],
        .mk .KindList [linkItem 1 "https://github.com/c/d".toList []]])
      "x".toList = (some ["github.com/o/r".toList], none) :=
  (count_only_gating "x".toList
    (.node .KindOther [] .hole [.mk .KindList [linkItem 1 "https://github.com/c/d".toList []]])
    [(.mk .KindListItem [.mk .KindOther [
        .mk (.KindText ⟨⟨0, 1, 0⟩⟩) [],
        .mk (.KindLink ⟨"https://example.com/x".toList⟩) [.mk (.KindText ⟨⟨0, 1, 0⟩⟩) []]]],
      "https://example.com/x".toList),
     (.mk .KindListItem [.mk .KindOther [
        .mk (.KindLink ⟨"https://github.com/o/r".toList⟩) [.mk (.KindText ⟨⟨0, 1, 0⟩⟩) []]]],
      "https://github.com/o/r".toList)]
    (by
      intro p hp
      simp only [List.mem_cons, List.mem_singleton, List.not_mem_nil, or_false] at hp
      rcases hp with rfl | rfl
      · exact ⟨rfl, [.mk .KindOther [
            .mk (.KindText ⟨⟨0, 1, 0⟩⟩) [],
            .mk (.KindLink ⟨"https://example.com/x".toList⟩) [.mk (.KindText ⟨⟨0, 1, 0⟩⟩) []]],
          .mk (.KindText ⟨⟨0, 1, 0⟩⟩) []],
          .mk (.KindLink ⟨"https://example.com/x".toList⟩) [.mk (.KindText ⟨⟨0, 1, 0⟩⟩) []],
          [.mk (.KindText ⟨⟨0, 1, 0⟩⟩) []], rfl,
          by
            intro t ht
            simp only [List.mem_cons, List.mem_singleton, List.not_mem_nil, or_false] at ht
            rcases ht with rfl | rfl
            · exact .inl rfl
            · exact .inr ⟨_, rfl, by decide⟩,
          rfl, by decide⟩
      · exact ⟨rfl, [.mk .KindOther [
            .mk (.KindLink ⟨"https://github.com/o/r".toList⟩) [.mk (.KindText ⟨⟨0, 1, 0⟩⟩) []]]],
          .mk (.KindLink ⟨"https://github.com/o/r".toList⟩) [.mk (.KindText ⟨⟨0, 1, 0⟩⟩) []],
          [.mk (.KindText ⟨⟨0, 1, 0⟩⟩) []], rfl,
          by
            intro t ht
            simp only [List.mem_singleton] at ht
            subst ht
            exact .inl rfl,
          rfl, by decide⟩)
    (by decide)).2.2.2.1.trans (by decide)

/-- C14, counterexample: in the list `- https://github.com/a/b [x](https://github.com/c/d)`
the only item contains exactly one link node and no nested list, but the bare URL before the
link is counted too: the item counts two links, the walk does not set `found` at the exit of
the list, and `extract` returns the empty sequence instead of `github.com/c/d`, which it
returns when the bare URL is absent. -/
theorem bare_url_before_link_disqualifies :
    (subtreesOfList [.mk .KindOther [
        .mk (.KindText ⟨⟨0, 22, 0⟩⟩) [],
        .mk (.KindLink ⟨"https://github.com/c/d".toList⟩) []]]).filterMap
      (linkTarget "https://github.com/a/b".toList) = ["https://github.com/c/d".toList] ∧
    (walkHelper builder.walk
        (.mk .KindList [.mk .KindListItem [.mk .KindOther [
          .mk (.KindText ⟨⟨0, 22, 0⟩⟩) [],
          .mk (.KindLink ⟨"https://github.com/c/d".toList⟩) []]]])
        (newBuilder "https://github.com/a/b".toList)).2 = (.WalkContinue, none) ∧
    (walkHelper builder.walk
        (.mk .KindList [.mk .KindListItem [.mk .KindOther [
          .mk (.KindText ⟨⟨0, 22, 0⟩⟩) [],
          .mk (.KindLink ⟨"https://github.com/c/d".toList⟩) []]]])
        (newBuilder "https://github.com/a/b".toList)).1.found = false ∧
    (walkHelper builder.walk
        (.mk .KindList [.mk .KindListItem [.mk .KindOther [
          .mk (.KindText ⟨⟨0, 22, 0⟩⟩) [],
          .mk (.KindLink ⟨"https://github.com/c/d".toList⟩) []]]])
        (newBuilder "https://github.com/a/b".toList)).1.numberOfLinks = 2 ∧
    extract
      (.mk .KindOther [
        .mk .KindList [.mk .KindListItem [.mk .KindOther [
          .mk (.KindText ⟨⟨0, 22, 0⟩⟩) [],
          .mk (.KindLink ⟨"https://github.com/c/d".toList⟩) []]]]])
      "https://github.com/a/b".toList = (some [], none) ∧
    extract
      (.mk .KindOther [
        .mk .KindList [.mk .KindListItem [.mk .KindOther [
          .mk (.KindLink ⟨"https://github.com/c/d".toList⟩) []]]]])
      "https://github.com/a/b".toList = (some ["github.com/c/d".toList], none) :=
  ⟨by decide, by decide, by decide, by decide, by decide, by decide⟩

theorem walk_nonitem_insideItem (b : builder) (k : NodeKind) (cs : List Node) (e : Bool)
    (hk : k ≠ .KindListItem) : (b.walk (.mk k cs) e).1.insideItem = b.insideItem := by
  cases hf : b.found
  · cases k with
    | KindList =>
      cases e
      · rw [walk_list_exit b cs hf]; split <;> rfl
      · rw [walk_list_enter b cs hf]
    | KindListItem => exact absurd rfl hk
    | KindLink link =>
      cases e
      · rw [walk_link_exit]
      · cases hi : b.insideItem
        · rw [walk_link_outside b link cs _ hi]; exact hi
        · rw [walk_link_enter b link cs hf hi]; exact hi
    | KindAutoLink link =>
      cases e
      · rw [walk_autoLink_exit]
      · cases hi : b.insideItem
        · rw [walk_autoLink_outside b link cs _ hi]; exact hi
        · rw [walk_autoLink_enter b link cs hf hi]; exact hi
    | KindText text =>
      cases e
      · rw [walk_text_exit]
      · rw [walk_text_enter b text cs hf]; split <;> rfl
    | KindOther => rw [walk_other]
  · rw [walk_found _ _ _ hf]

/-- A subtree without list items leaves `insideItem` as it is. -/
theorem runNode_noItem_insideItem (t : Node) : ∀ b : builder,
    (∀ s ∈ t.subtrees, s.Kind ≠ .KindListItem) → (runNode t b).insideItem = b.insideItem := by
  induction t using Node.induct with
  | h k cs ih =>
    intro b ht
    have hk : k ≠ .KindListItem := ht _ (mem_subtrees_self _)
    have hcs : ∀ (l : List Node), (∀ c ∈ l, c ∈ cs) → ∀ b : builder,
        (runChildren l b).insideItem = b.insideItem := by
      intro l
      induction l with
      | nil => intro _ b; rfl
      | cons c l ihl =>
        intro hl b
        have hc := hl c (List.mem_cons_self _ _)
        rw [runChildren, ihl (fun d hd => hl d (List.mem_cons_of_mem _ hd)),
          ih c hc b (fun s hs => ht s ((mem_subtrees_mk _ _ _).2 (.inr ⟨c, hc, hs⟩)))]
    rw [runNode, walk_nonitem_insideItem _ k cs false hk, hcs cs (fun _ h => h),
      walk_nonitem_insideItem _ k cs true hk]

theorem runChildren_noItem_insideItem (cs : List Node) (b : builder)
    (h : ∀ n ∈ cs, ∀ t ∈ n.subtrees, t.Kind ≠ .KindListItem) :
    (runChildren cs b).insideItem = b.insideItem := by
  induction cs generalizing b with
  | nil => rfl
  | cons c cs ih =>
    rw [runChildren, ih _ (fun n hn => h n (List.mem_cons_of_mem _ hn)),
      runNode_noItem_insideItem c b (h c (List.mem_cons_self _ _))]

theorem runBefore_noItem_insideItem (c : Ctx) (b : builder) (hc : c.noItemBefore) :
    (c.runBefore b).insideItem = b.insideItem := by
  induction c generalizing b with
  | hole => rfl
  | node kind before inner after ih =>
    obtain ⟨hk, hbefore, hinner⟩ := hc
    rw [Ctx.runBefore, ih _ hinner, runChildren_noItem_insideItem _ _ hbefore,
      walk_nonitem_insideItem _ kind [] true hk]

theorem runBefore_found (c : Ctx) (b : builder) (h : b.found = true) : c.runBefore b = b := by
  induction c generalizing b with
  | hole => rfl
  | node kind before inner after ih =>
    rw [Ctx.runBefore, walk_found _ _ _ h, (runChildren_found before b h).1, ih b h]

/-- In an open item the walker arrives with `insideItem` set. -/
theorem runBefore_inOpenItem (c : Ctx) (b : builder) (hc : c.inOpenItem)
    (hf : (c.runBefore b).found = false) : (c.runBefore b).insideItem = true := by
  induction c generalizing b with
  | hole => cases hc
  | node kind before inner after ih =>
    rcases hc with ⟨hk, hbefore, hinner⟩ | hc
    · subst hk
      have hb : b.found = false := by
        cases hb : b.found
        · rfl
        · rw [runBefore_found _ _ hb, hb] at hf
          cases hf
      rw [Ctx.runBefore, runBefore_noItem_insideItem _ _ hinner,
        runChildren_noItem_insideItem _ _ hbefore, walk_item_enter b [] hb]
    · rw [Ctx.runBefore] at hf ⊢
      exact ih _ hc hf

/-- After any complete visit that started outside of items, the walk has stopped or is
outside of items again. -/
theorem runNode_outside (t : Node) : ∀ b : builder,
    (b.found = true ∨ b.insideItem = false) →
      ((runNode t b).found = true ∨ (runNode t b).insideItem = false) := by
  induction t using Node.induct with
  | h k cs ih =>
    intro b hb
    rw [runNode]
    by_cases hk : k = .KindListItem
    · subst hk
      generalize runChildren cs (b.walk (.mk .KindListItem cs) true).1 = s
      cases hs : s.found
      · right
        rw [walk_item_exit s cs hs]
        split <;> rfl
      · left
        rw [walk_found _ _ _ hs]
        exact hs
    · have hcs : ∀ (l : List Node), (∀ c ∈ l, c ∈ cs) → ∀ b : builder,
          (b.found = true ∨ b.insideItem = false) →
          ((runChildren l b).found = true ∨ (runChildren l b).insideItem = false) := by
        intro l
        induction l with
        | nil => intro _ b hb; exact hb
        | cons c l ihl =>
          intro hl b hb
          rw [runChildren]
          exact ihl (fun d hd => hl d (List.mem_cons_of_mem _ hd)) _
            (ih c (hl c (List.mem_cons_self _ _)) b hb)
      have hstep : ∀ (b : builder) (e : Bool), (b.found = true ∨ b.insideItem = false) →
          ((b.walk (.mk k cs) e).1.found = true ∨ (b.walk (.mk k cs) e).1.insideItem = false) := by
        intro b e hb
        cases hf : b.found
        · rcases hb with h | h
          · rw [hf] at h; cases h
          · right
            rw [walk_nonitem_insideItem b k cs e hk]
            exact h
        · left
          rw [walk_found _ _ _ hf]
          exact hf
      exact hstep _ false (hcs cs (fun _ h => h) _ (hstep b true hb))

theorem runChildren_outside (cs : List Node) (b : builder)
    (hb : b.found = true ∨ b.insideItem = false) :
    (runChildren cs b).found = true ∨ (runChildren cs b).insideItem = false := by
  induction cs generalizing b with
  | nil => exact hb
  | cons c cs ih =>
    rw [runChildren]
    exact ih _ (runNode_outside c b hb)

/-- Outside of every list item the walker arrives with `insideItem` clear. -/
theorem runBefore_outsideItems (c : Ctx) (b : builder) (hc : c.outsideItems)
    (hb : b.found = true ∨ b.insideItem = false) :
    (c.runBefore b).found = true ∨ (c.runBefore b).insideItem = false := by
  induction c generalizing b with
  | hole => exact hb
  | node kind before inner after ih =>
    rw [Ctx.runBefore]
    refine ih _ hc.2 (runChildren_outside before _ ?_)
    cases hf : b.found
    · rcases hb with h | h
      · rw [hf] at h; cases h
      · right
        rw [walk_nonitem_insideItem b kind [] true hc.1]
        exact h
    · left
      rw [walk_found _ _ _ hf]
      exact hf

/-- C15, amended: let a link or autolink node stand at a position the walk reaches with
`found` unset. If the position lies in a list item and no other list item is visited between
the entry of that item and the position, entering the node increments `numberOfLinks` and
appends its target to the candidate links. If the position lies outside of every list item,
visiting the node leaves the walker state unchanged. -/
theorem link_counted_in_open_item (contents : Bytes) (c : Ctx) (node : Node) (target : Bytes)
    (ht : linkTarget contents node = some target)
    (hf : (c.runBefore (newBuilder contents)).found = false) :
    (c.inOpenItem →
      (c.runBefore (newBuilder contents)).walk node true =
        ({ c.runBefore (newBuilder contents) with
            numberOfLinks := (c.runBefore (newBuilder contents)).numberOfLinks + 1,
            links := (c.runBefore (newBuilder contents)).links ++ [target],
            hasNonmatchingLink :=
              if isLinkMatching target then
                (c.runBefore (newBuilder contents)).hasNonmatchingLink
              else true },
          .WalkContinue, none)) ∧
    (c.outsideItems →
      ∀ e : Bool, (c.runBefore (newBuilder contents)).walk node e =
        (c.runBefore (newBuilder contents), .WalkContinue, none)) := by
  constructor
  · intro hc
    exact walk_linkTarget_enter contents node target _ ht hf (runBefore_inOpenItem c _ hc hf)
      (runBefore_source c _)
  · intro hc e
    have hi : (c.runBefore (newBuilder contents)).insideItem = false := by
      rcases runBefore_outsideItems c (newBuilder contents) hc (.inr rfl) with h | h
      · rw [hf] at h; cases h
      · exact h
    generalize c.runBefore (newBuilder contents) = s at hf hi
    obtain ⟨k, cs⟩ := node
    cases k with
    | KindLink link =>
      simp [builder.walk, asList, asListItem, asLink, asAutoLink, asText, Node.Kind, hf, hi]
    | KindAutoLink link =>
      simp [builder.walk, asList, asListItem, asLink, asAutoLink, asText, Node.Kind, hf, hi]
    | _ => simp [linkTarget, Node.Kind] at ht

/-- Witness of the amended C15: in `- see [a](https://github.com/a/b)` the link is counted,
and in a paragraph outside of any list it is not. -/
theorem link_counted_in_open_item_witness :
    (Ctx.runBefore
        (.node .KindOther [] (.node .KindList [] (.node .KindListItem []
          (.node .KindOther [.mk (.KindText ⟨⟨0, 1, 0⟩⟩) []] .hole []) []) []) [])
        (newBuilder "x".toList)).walk
      (.mk (.KindLink ⟨"https://github.com/a/b".toList⟩) []) true =
      ({ newBuilder "x".toList with
          insideList := true, insideItem := true, numberOfLinks := 1,
          links := ["https://github.com/a/b".toList] }, .WalkContinue, none) ∧
    (Ctx.runBefore (.node .KindOther [] (.node .KindOther [] .hole []) [])
        (newBuilder "x".toList)).walk
      (.mk (.KindLink ⟨"https://github.com/a/b".toList⟩) []) true =
      (newBuilder "x".toList, .WalkContinue, none) :=
  ⟨((link_counted_in_open_item "x".toList
      (.node .KindOther [] (.node .KindList [] (.node .KindListItem []
        (.node .KindOther [.mk (.KindText ⟨⟨0, 1, 0⟩⟩) []] .hole []) []) []) [])
      (.mk (.KindLink ⟨"https://github.com/a/b".toList⟩) []) "https://github.com/a/b".toList
      rfl (by decide)).1
      (.inr (.inr (.inl ⟨rfl, by simp, ⟨by decide, by decide, trivial⟩⟩)))).trans (by decide),
   ((link_counted_in_open_item "x".toList
      (.node .KindOther [] (.node .KindOther [] .hole []) [])
      (.mk (.KindLink ⟨"https://github.com/a/b".toList⟩) []) "https://github.com/a/b".toList
      rfl (by decide)).2 ⟨by decide, by decide, trivial⟩ true).trans (by decide)⟩

/-- C15, counterexample: in the item `- ` with the nested list `- plain` followed by the
paragraph `[a](https://github.com/a/b)`, the link is a descendant of the outer list item, the
walk reaches it with `found` unset, and yet it is entered with `insideItem` clear (the exit
of the nested item cleared it): the visit leaves the state unchanged, the link is not
counted. -/
theorem link_after_nested_list_not_counted :
    (Ctx.runBefore
        (.node .KindOther [] (.node .KindList [] (.node .KindListItem
          [.mk .KindList [.mk .KindListItem [.mk .KindOther [.mk (.KindText ⟨⟨0, 1, 0⟩⟩) []]]]]
          (.node .KindOther [] .hole []) []) []) [])
        (newBuilder "x".toList)).found = false ∧
    (Ctx.runBefore
        (.node .KindOther [] (.node .KindList [] (.node .KindListItem
          [.mk .KindList [.mk .KindListItem [.mk .KindOther [.mk (.KindText ⟨⟨0, 1, 0⟩⟩) []]]]]
          (.node .KindOther [] .hole []) []) []) [])
        (newBuilder "x".toList)).insideItem = false ∧
    (Ctx.runBefore
        (.node .KindOther [] (.node .KindList [] (.node .KindListItem
          [.mk .KindList [.mk .KindListItem [.mk .KindOther [.mk (.KindText ⟨⟨0, 1, 0⟩⟩) []]]]]
          (.node .KindOther [] .hole []) []) []) [])
        (newBuilder "x".toList)).walk
      (.mk (.KindLink ⟨"https://github.com/a/b".toList⟩) []) true =
      (Ctx.runBefore
        (.node .KindOther [] (.node .KindList [] (.node .KindListItem
          [.mk .KindList [.mk .KindListItem [.mk .KindOther [.mk (.KindText ⟨⟨0, 1, 0⟩⟩) []]]]]
          (.node .KindOther [] .hole []) []) []) [])
        (newBuilder "x".toList), .WalkContinue, none) ∧
    (walkHelper builder.walk
        (.mk .KindOther [.mk .KindList [.mk .KindListItem [
          .mk .KindList [.mk .KindListItem [.mk .KindOther [.mk (.KindText ⟨⟨0, 1, 0⟩⟩) []]]],
          .mk .KindOther [.mk (.KindLink ⟨"https://github.com/a/b".toList⟩) []]]]])
        (newBuilder "x".toList)).1.links = [] := by
  refine ⟨by decide, by decide, by decide, by decide⟩

/-- Visiting a node that is neither a list nor a list item leaves `found` unset and leaves
`hasNonmatchingItems` as it is. -/
theorem walk_inline_frame (b : builder) (k : NodeKind) (cs : List Node) (e : Bool)
    (h1 : k ≠ .KindList) (h2 : k ≠ .KindListItem) (hf : b.found = false) :
    (b.walk (.mk k cs) e).1.found = false ∧
    (b.walk (.mk k cs) e).1.hasNonmatchingItems = b.hasNonmatchingItems := by
  cases k with
  | KindList => exact absurd rfl h1
  | KindListItem => exact absurd rfl h2
  | KindLink link =>
    cases e
    · rw [walk_link_exit]; exact ⟨hf, rfl⟩
    · cases hi : b.insideItem
      · rw [walk_link_outside b link cs _ hi]; exact ⟨hf, rfl⟩
      · rw [walk_link_enter b link cs hf hi]; exact ⟨hf, rfl⟩
  | KindAutoLink link =>
    cases e
    · rw [walk_autoLink_exit]; exact ⟨hf, rfl⟩
    · cases hi : b.insideItem
      · rw [walk_autoLink_outside b link cs _ hi]; exact ⟨hf, rfl⟩
      · rw [walk_autoLink_enter b link cs hf hi]; exact ⟨hf, rfl⟩
  | KindText text =>
    cases e
    · rw [walk_text_exit]; exact ⟨hf, rfl⟩
    · rw [walk_text_enter b text cs hf]; split <;> exact ⟨hf, rfl⟩
  | KindOther => rw [walk_other]; exact ⟨hf, rfl⟩

/-- Entry visits of nodes that are neither lists nor list items: `found` stays unset,
`hasNonmatchingItems` stays as it is, and the link count depends only on the item scope and
the source. -/
theorem enterAll_inline (ns : List Node) (b1 b2 : builder)
    (hns : ∀ t ∈ ns, t.Kind ≠ .KindList ∧ t.Kind ≠ .KindListItem)
    (h1 : b1.found = false) (h2 : b2.found = false) (hs : b1.source = b2.source)
    (hi : b1.insideItem = b2.insideItem) (hn : b1.numberOfLinks = b2.numberOfLinks) :
    (enterAll ns b1).found = false ∧
    (enterAll ns b1).hasNonmatchingItems = b1.hasNonmatchingItems ∧
    (enterAll ns b1).numberOfLinks = (enterAll ns b2).numberOfLinks := by
  induction ns generalizing b1 b2 with
  | nil => exact ⟨h1, rfl, hn⟩
  | cons n ns ih =>
    obtain ⟨k, cs⟩ := n
    obtain ⟨hk1, hk2⟩ := hns _ (List.mem_cons_self _ _)
    obtain ⟨f1, g1⟩ := walk_inline_frame b1 k cs true hk1 hk2 h1
    obtain ⟨f2, -⟩ := walk_inline_frame b2 k cs true hk1 hk2 h2
    obtain ⟨i3, n3⟩ := walk_scope b1 b2 k cs true h1 h2 hs hi hn
    obtain ⟨f4, g4, n4⟩ := ih (b1.walk (.mk k cs) true).1 (b2.walk (.mk k cs) true).1
      (fun t ht => hns t (List.mem_cons_of_mem _ ht)) f1 f2
      ((walk_source b1 _ true).trans (hs.trans (walk_source b2 _ true).symm)) i3 n3
    have hcons : ∀ b : builder, enterAll (.mk k cs :: ns) b =
        enterAll ns (b.walk (.mk k cs) true).1 := fun _ => rfl
    rw [hcons, hcons]
    exact ⟨f4, g4.trans g1, n4⟩

/-- An item without nested list or item, visited in any state of a walk that is still
searching: it ends with the link count it has on its own, and it sets `hasNonmatchingItems`
exactly when that count is not one. -/
theorem runNode_flatItem (contents : Bytes) (item : Node) (b : builder)
    (hflat : FlatItem item) (hf : b.found = false) (hs : b.source = contents) :
    (runNode item b).found = false ∧
    (runNode item b).numberOfLinks = itemLinkCount contents item ∧
    ((runNode item b).hasNonmatchingItems = true ↔
      (b.hasNonmatchingItems = true ∨ itemLinkCount contents item ≠ 1)) := by
  obtain ⟨k, cs⟩ := item
  obtain ⟨hk, hsub⟩ := hflat
  have hk1 : k = .KindListItem := hk
  subst hk1
  simp only [Node.children] at hsub
  have hcount : itemLinkCount contents (.mk .KindListItem cs) =
      (enterAll (subtreesOfList cs)
        { newBuilder contents with
          insideItem := true, hasNonmatchingLink := false, numberOfLinks := 0 }).numberOfLinks := by
    rw [itemLinkCount_eq, runNode, walk_item_enter _ _ rfl, runChildren_eq_enterAll cs hsub]
    obtain ⟨f, -, -⟩ := enterAll_inline (subtreesOfList cs)
      { newBuilder contents with
        insideItem := true, hasNonmatchingLink := false, numberOfLinks := 0 }
      { newBuilder contents with
        insideItem := true, hasNonmatchingLink := false, numberOfLinks := 0 }
      hsub rfl rfl rfl rfl rfl
    rw [walk_item_exit _ _ f]
    split <;> rfl
  obtain ⟨f, g, n⟩ := enterAll_inline (subtreesOfList cs)
    { b with insideItem := true, hasNonmatchingLink := false, numberOfLinks := 0 }
    { newBuilder contents with
      insideItem := true, hasNonmatchingLink := false, numberOfLinks := 0 }
    hsub hf rfl hs rfl rfl
  rw [hcount, ← n, runNode, walk_item_enter b cs hf, runChildren_eq_enterAll cs hsub,
    walk_item_exit _ _ f]
  generalize enterAll (subtreesOfList cs)
    { b with insideItem := true, hasNonmatchingLink := false, numberOfLinks := 0 } = s at f g ⊢
  by_cases h1 : s.numberOfLinks = 1
  · rw [if_pos h1]
    refine ⟨f, rfl, ?_⟩
    simp only [g]
    constructor
    · exact fun h => .inl h
    · rintro (h | h)
      · exact h
      · exact absurd h1 h
  · rw [if_neg h1]
    exact ⟨f, rfl, fun _ => .inr h1, fun _ => rfl⟩

/-- A sequence of items without nested lists or items: `hasNonmatchingItems` is set at the
end exactly when it was set before or some item has a link count other than one. -/
theorem runChildren_flatItems (contents : Bytes) (items : List Node) (b : builder)
    (hflat : ∀ item ∈ items, FlatItem item) (hf : b.found = false) (hs : b.source = contents) :
    (runChildren items b).found = false ∧
    ((runChildren items b).hasNonmatchingItems = true ↔
      (b.hasNonmatchingItems = true ∨ ∃ item ∈ items, itemLinkCount contents item ≠ 1)) := by
  induction items generalizing b with
  | nil => exact ⟨hf, by simp [runChildren]⟩
  | cons i items ih =>
    obtain ⟨f1, -, g1⟩ := runNode_flatItem contents i b (hflat i (List.mem_cons_self _ _)) hf hs
    obtain ⟨f2, g2⟩ := ih (runNode i b) (fun j hj => hflat j (List.mem_cons_of_mem _ hj)) f1
      ((runNode_source i b).trans hs)
    rw [runChildren]
    refine ⟨f2, ?_⟩
    rw [g2, g1]
    simp only [List.mem_cons, exists_eq_or_imp]
    tauto

/-- A list without nested lists, visited while the walk is still searching, sets `found` at
its exit exactly when each of its items has a link count of one. -/
theorem runNode_flatList (contents : Bytes) (items : List Node) (b : builder)
    (hflat : ∀ item ∈ items, FlatItem item) (hf : b.found = false) (hs : b.source = contents) :
    (runNode (.mk .KindList items) b).found = true ↔
      ∀ item ∈ items, itemLinkCount contents item = 1 := by
  obtain ⟨f, g⟩ := runChildren_flatItems contents items
    { b with insideList := true, hasNonmatchingItems := false, links := [] } hflat hf hs
  rw [runNode, walk_list_enter b items hf, walk_list_exit _ _ f]
  by_cases hall : ∀ item ∈ items, itemLinkCount contents item = 1
  · have hflag : (runChildren items
        { b with insideList := true, hasNonmatchingItems := false, links := [] }
        ).hasNonmatchingItems = false := by
      cases hflag : (runChildren items
        { b with insideList := true, hasNonmatchingItems := false, links := [] }
        ).hasNonmatchingItems
      · rfl
      · rcases g.1 hflag with h | ⟨item, hi, hc⟩
        · cases h
        · exact absurd (hall item hi) hc
    rw [hflag]
    simp only [Bool.false_eq_true, if_false]
    exact ⟨fun _ => hall, fun _ => trivial⟩
  · have hflag : (runChildren items
        { b with insideList := true, hasNonmatchingItems := false, links := [] }
        ).hasNonmatchingItems = true := by
      apply g.2
      right
      by_contra hno
      exact hall (fun item hi => by_contra (fun hc => hno ⟨item, hi, hc⟩))
    rw [hflag]
    simp only [if_true]
    constructor
    · intro h
      rw [f] at h
      cases h
    · exact fun h => absurd h hall

/-- Entering any node leaves `found` unset. -/
theorem walk_enter_found (b : builder) (n : Node) (hf : b.found = false) :
    (b.walk n true).1.found = false := by
  obtain ⟨k, cs⟩ := n
  by_cases hk : k = .KindList
  · subst hk
    rw [walk_list_enter b cs hf]
    exact hf
  · exact (walk_nonlist b k cs true hk hf).1

/-- When every list left before the singled-out position has an item whose link count is not
one, the walk arrives there still searching. -/
theorem runBefore_listsFail_found (contents : Bytes) (c : Ctx) (b : builder)
    (hc : c.listsBeforeFail contents) (hf : b.found = false) (hs : b.source = contents) :
    (c.runBefore b).found = false := by
  induction c generalizing b with
  | hole => exact hf
  | node kind before inner after ih =>
    obtain ⟨hbefore, hinner⟩ := hc
    rw [Ctx.runBefore]
    have h0 := walk_enter_found b (.mk kind []) hf
    have hs0 : (b.walk (.mk kind []) true).1.source = contents := (walk_source b _ true).trans hs
    obtain ⟨f, -, -, -⟩ := failsQuietly_children contents before
      (fun n hn => failsQuietly_of_allListsFail contents n (hbefore n hn))
      (b.walk (.mk kind []) true).1 (b.walk (.mk kind []) true).1 h0 h0 hs0 hs0 rfl rfl
    exact ih _ hinner f ((runChildren_source _ _).trans hs0)

/-- C9, amended (the walk stops at the first list whose items each count one link, matching
or not): take a list whose items hold no nested list or list item, standing anywhere in a
document in which every list left before it has an item whose link count is not one. Then the
walk arrives at the list still searching, and it sets `found` at the exit of the list if and
only if each item of the list has a link count of exactly one. In that case the walk stops
there and `extract` returns what it returns on that list alone, whatever follows; otherwise
the walk goes on. Whether a counted link matches the link pattern plays no role: an item that
consists of one link or one autolink has link count one whatever its target. -/
theorem found_at_first_counted_list (contents : Bytes) (c : Ctx) (items : List Node)
    (hflat : ∀ item ∈ items, item.Kind = .KindListItem ∧
      ∀ t ∈ subtreesOfList item.children, t.Kind ≠ .KindList ∧ t.Kind ≠ .KindListItem)
    (hbefore : c.listsBeforeFail contents) :
    (c.runBefore (newBuilder contents)).found = false ∧
    ((walkHelper builder.walk (.mk .KindList items)
        (c.runBefore (newBuilder contents))).1.found = true ↔
      ∀ item ∈ items, itemLinkCount contents item = 1) ∧
    ((∀ item ∈ items, itemLinkCount contents item = 1) →
      (walkHelper builder.walk (.mk .KindList items)
        (c.runBefore (newBuilder contents))).2 = (.WalkStop, none) ∧
      (Walk (c.fill (.mk .KindList items)) builder.walk (newBuilder contents)).1.found = true ∧
      extract (c.fill (.mk .KindList items)) contents =
        extract (.mk .KindList items) contents) ∧
    ((∃ item ∈ items, itemLinkCount contents item ≠ 1) →
      (walkHelper builder.walk (.mk .KindList items)
        (c.runBefore (newBuilder contents))).2 = (.WalkContinue, none)) ∧
    (∀ (depth : Nat) (dest : Bytes), itemLinkCount contents (linkItem depth dest []) = 1) ∧
    (∀ (depth : Nat) (link : AutoLink), itemLinkCount contents (autoLinkItem depth link) = 1) := by
  have h0 : (c.runBefore (newBuilder contents)).found = false :=
    runBefore_listsFail_found contents c _ hbefore rfl rfl
  have hs : (c.runBefore (newBuilder contents)).source = contents := runBefore_source c _
  have hiff := runNode_flatList contents items _ hflat h0 hs
  refine ⟨h0, ?_, ?_, ?_, ?_, ?_⟩
  · rw [walkHelper_eq]
    exact hiff
  · intro hall
    have hfound := hiff.2 hall
    obtain ⟨hf, hl⟩ := runNode_list_independent items (c.runBefore (newBuilder contents))
      (newBuilder contents) (fun i hi => (hflat i hi).1) h0 rfl hs
    refine ⟨?_, ?_, ?_⟩
    · rw [walkHelper_eq, hfound]
      rfl
    · rw [Walk_eq, runNode_fill, runAfter_found _ _ hfound]
      exact hfound
    · rw [extract_eq_build, extract_eq_build, runNode_fill, runAfter_found _ _ hfound]
      exact build_congr _ _ hf hl
  · rintro ⟨item, hi, hc⟩
    have hnot : (runNode (.mk .KindList items) (c.runBefore (newBuilder contents))).found =
        false := by
      cases hfd : (runNode (.mk .KindList items) (c.runBefore (newBuilder contents))).found
      · rfl
      · exact absurd (hiff.1 hfd item hi) hc
    rw [walkHelper_eq, hnot]
    rfl
  · intro depth dest
    rw [itemLinkCount_eq, runNode_linkItem depth dest [] _ (by simp) rfl]
  · intro depth link
    rw [itemLinkCount_eq, runNode_autoLinkItem depth link _ rfl]

/-- Witness of the amended C9: the document `- plain`, then `- [a](https://example.com/x)`,
then `- [b](https://github.com/o/r)`. The first list has an item without link; the second
list has one item that counts one link, which does not match the pattern: the walk stops at
its exit and `extract` returns the empty sequence. -/
theorem found_at_first_counted_list_witness :
    (walkHelper builder.walk (.mk .KindList [linkItem 1 "https://example.com/x".toList []])
        (Ctx.runBefore
          (.node .KindOther
            [.mk .KindList [.mk .KindListItem [.mk .KindOther [.mk (.KindText ⟨⟨0, 1, 0⟩⟩) []]]]]
            .hole [.mk .KindList [linkItem 1 "https://github.com/o/r".toList []]])
          (newBuilder "x".toList))).2 = (.WalkStop, none) ∧
    extract
      (.mk .KindOther [
        .mk .KindList [.mk .KindListItem [.mk .KindOther [.mk (.KindText ⟨⟨0, 1, 0⟩⟩) []]]],
        .mk .KindList [linkItem 1 "https://example.com/x".toList []],
        .mk .KindList [linkItem 1 "https://github.com/o/r".toList []]])
      "x".toList = (some [], none) :=
  have h := (found_at_first_counted_list "x".toList
    (.node .KindOther
      [.mk .KindList [.mk .KindListItem [.mk .KindOther [.mk (.KindText ⟨⟨0, 1, 0⟩⟩) []]]]]
      .hole [.mk .KindList [linkItem 1 "https://github.com/o/r".toList []]])
    [linkItem 1 "https://example.com/x".toList []]
    (by decide)
    ⟨(show ∀ n ∈ [Node.mk .KindList
          [.mk .KindListItem [.mk .KindOther [.mk (.KindText ⟨⟨0, 1, 0⟩⟩) []]]]],
        ∀ L ∈ n.subtrees, L.Kind = .KindList →
          ∃ item ∈ L.children, item.Kind = .KindListItem ∧ itemLinkCount "x".toList item ≠ 1
        from by decide), trivial⟩).2.2.1 (by decide)
  ⟨h.1, h.2.2.trans (by decide)⟩

end Md2xk6
